import Mathlib

/-! The libprocess combinators `collect` and `await`, and `WSTRINGIFY`.

A shallow embedding of `3rdparty/libprocess/include/process/collect.hpp` and
of `src/common/status_utils.hpp`.

* A `Future<T>` is a handle (`FutureId`) into a heap of shared result cells
  (`Store T`); the cell holds the state of the future.
* `CollectProcess` / `AwaitProcess` carry the fields of the C++ classes
  (`futures`, `timeout`, `promise`, `ready`), the heap their handles point
  into, and a flag recording that `terminate(this)` has been called.
* The handlers `discarded`, `timedout`, `waited` are translated statement by
  statement.  A handler that hits a failing `assert`, or a `get()` on a future
  that is not READY, has no successor state (`none`).
-/

namespace process

/-! ## Futures and promises -/

/-- State of the result cell shared by a `Promise<T>` and its `Future<T>`s. -/
inductive FutureState (T : Type) where
  | PENDING
  | READY (value : T)
  | FAILED (message : String)
  | DISCARDED
  deriving DecidableEq, Repr

/-- Identity of a future handle: copies of a `Future<T>` share one cell. -/
abbrev FutureId := Nat

/-- Heap of result cells of the input futures. -/
abbrev Store (T : Type) := FutureId → FutureState T

/-- The type `Timeout`; only its presence and remaining time are used. -/
abbrev Timeout := Nat

/-- The value of `size_t`'s modulus on the 64-bit targets of the code. -/
def SIZE_MODULUS : Nat := 2 ^ 64

namespace FutureState

variable {T : Type}

/-- `Future::isPending()`. -/
def isPending : FutureState T → Bool
  | PENDING => true
  | _ => false

/-- `Future::isReady()`. -/
def isReady : FutureState T → Bool
  | READY _ => true
  | _ => false

/-- `Future::isFailed()`. -/
def isFailed : FutureState T → Bool
  | FAILED _ => true
  | _ => false

/-- `Future::isDiscarded()`. -/
def isDiscarded : FutureState T → Bool
  | DISCARDED => true
  | _ => false

end FutureState

namespace Promise

variable {T : Type}

/-- Modelled from the spec: `Promise::set` (future.hpp is not part of the
sources).  "transitions the Future from PENDING to READY ... No-op if already
terminal." -/
def set (cell : FutureState T) (value : T) : FutureState T :=
  match cell with
  | .PENDING => .READY value
  | s => s

/-- Modelled from the spec: `Promise::fail` (future.hpp is not part of the
sources).  "transitions the Future from PENDING to FAILED ... No-op if already
terminal." -/
def fail (cell : FutureState T) (message : String) : FutureState T :=
  match cell with
  | .PENDING => .FAILED message
  | s => s

/-- Modelled from the spec: `Promise::discard` (future.hpp is not part of the
sources).  A promise is "set, failed, or discarded exactly once"; a cell that
is already terminal is left alone. -/
def discard (cell : FutureState T) : FutureState T :=
  match cell with
  | .PENDING => .DISCARDED
  | s => s

end Promise

namespace Future

variable {T : Type}

/-- Modelled from the spec: `Future::discard` on the cell of a future
(future.hpp is not part of the sources).  "transitions PENDING→DISCARDED ...
Discarding an already-terminal Future is a no-op." -/
def discardCell (cell : FutureState T) : FutureState T :=
  match cell with
  | .PENDING => .DISCARDED
  | s => s

/-- Modelled from the spec: `Future::discard` through a handle into the heap
(future.hpp is not part of the sources): the cell the handle points to is
discarded, every other cell is untouched. -/
def discard (heap : Store T) (future : FutureId) : Store T :=
  Function.update heap future (discardCell (heap future))

/-- Modelled from the spec: `Future::get` (future.hpp is not part of the
sources).  It yields the value of a READY future; on any other state the call
does not return a value (it waits or aborts). -/
def get (cell : FutureState T) : Option T :=
  match cell with
  | .READY v => some v
  | _ => none

end Future

/-! ## CollectProcess -/

/-- The class `internal::CollectProcess<T>`: its four data members, the heap
its future handles point into, and whether `terminate(this)` was called. -/
structure CollectProcess (T : Type) where
  heap : Store T
  futures : List FutureId
  timeout : Option Timeout
  promise : FutureState (List T)
  ready : Nat
  terminated : Bool

namespace CollectProcess

variable {T : Type}

/-- The constructor `CollectProcess(_futures, _timeout, _promise)` applied to a
fresh promise: `ready(0)`, not terminated. -/
def create (heap : Store T) (futures : List FutureId) (timeout : Option Timeout) :
    CollectProcess T :=
  { heap := heap, futures := futures, timeout := timeout,
    promise := .PENDING, ready := 0, terminated := false }

/-- `CollectProcess::discarded`: `promise->discard(); terminate(this);`. -/
def discarded (p : CollectProcess T) : CollectProcess T :=
  { p with promise := Promise.discard p.promise, terminated := true }

/-- `CollectProcess::timedout`: discard every future of the list, fail the
promise with the fixed message, terminate. -/
def timedout (p : CollectProcess T) : CollectProcess T :=
  { p with
    heap := p.futures.foldl Future.discard p.heap
    promise := Promise.fail p.promise "Collect failed: timed out"
    terminated := true }

/-- The loop `foreach (future, futures) values.push_back(future.get())` of
`waited`, started with the values pushed so far. -/
def collectValues (heap : Store T) : List T → List FutureId → Option (List T)
  | values, [] => some values
  | values, future :: rest =>
    match Future.get (heap future) with
    | some v => collectValues heap (values ++ [v]) rest
    | none => none

/-- `CollectProcess::waited(future)`. -/
def waited (p : CollectProcess T) (future : FutureId) : Option (CollectProcess T) :=
  match p.heap future with
  | .FAILED message =>
    some { p with
      promise := Promise.fail p.promise ("Collect failed: " ++ message)
      terminated := true }
  | .DISCARDED =>
    some { p with
      promise := Promise.fail p.promise "Collect failed: future discarded"
      terminated := true }
  | .PENDING => none -- assert(future.isReady())
  | .READY _ =>
    let ready := (p.ready + 1) % SIZE_MODULUS
    if ready = p.futures.length then
      match collectValues p.heap [] p.futures with
      | some values =>
        some { p with
          ready := ready
          promise := Promise.set p.promise values
          terminated := true }
      | none => none
    else
      some { p with ready := ready }

/-- Delivery of the `waited` callbacks for the futures of `order`, one after
the other. -/
def deliver : List FutureId → CollectProcess T → Option (CollectProcess T)
  | [], p => some p
  | future :: rest, p =>
    match p.waited future with
    | some q => deliver rest q
    | none => none

end CollectProcess

/-! ## AwaitProcess -/

/-- The class `internal::AwaitProcess<T>`: its four data members, the heap its
future handles point into, and whether `terminate(this)` was called.  The
promise holds a list of futures, that is, of handles. -/
structure AwaitProcess (T : Type) where
  heap : Store T
  futures : List FutureId
  timeout : Option Timeout
  promise : FutureState (List FutureId)
  ready : Nat
  terminated : Bool

namespace AwaitProcess

variable {T : Type}

/-- The constructor `AwaitProcess(_futures, _timeout, _promise)` applied to a
fresh promise: `ready(0)`, not terminated. -/
def create (heap : Store T) (futures : List FutureId) (timeout : Option Timeout) :
    AwaitProcess T :=
  { heap := heap, futures := futures, timeout := timeout,
    promise := .PENDING, ready := 0, terminated := false }

/-- `AwaitProcess::discarded`: `promise->discard(); terminate(this);`. -/
def discarded (p : AwaitProcess T) : AwaitProcess T :=
  { p with promise := Promise.discard p.promise, terminated := true }

/-- `AwaitProcess::timedout`: discard every future of the list, fail the
promise with the fixed message, terminate. -/
def timedout (p : AwaitProcess T) : AwaitProcess T :=
  { p with
    heap := p.futures.foldl Future.discard p.heap
    promise := Promise.fail p.promise "Collect failed: timed out"
    terminated := true }

/-- `AwaitProcess::waited(future)`. -/
def waited (p : AwaitProcess T) (future : FutureId) : Option (AwaitProcess T) :=
  if (p.heap future).isPending then
    none -- assert(!future.isPending())
  else
    let ready := (p.ready + 1) % SIZE_MODULUS
    if ready = p.futures.length then
      some { p with
        ready := ready
        promise := Promise.set p.promise p.futures
        terminated := true }
    else
      some { p with ready := ready }

/-- Delivery of the `waited` callbacks for the futures of `order`, one after
the other. -/
def deliver : List FutureId → AwaitProcess T → Option (AwaitProcess T)
  | [], p => some p
  | future :: rest, p =>
    match p.waited future with
    | some q => deliver rest q
    | none => none

end AwaitProcess

/-! ## Executions of a process

What can happen to a spawned process: the owner of an input future settles
it, the caller discards the returned future, or one of the three callbacks
registered by the `initialize` method of the process is run. -/

/-- One step of the life of a combinator process. -/
inductive Step (T : Type) where
  /-- The owner of an input future settles it with a terminal outcome. -/
  | settle (future : FutureId) (outcome : FutureState T)
  /-- The caller calls `discard()` on the future returned by the combinator. -/
  | discardOutput
  /-- The callback `discarded` runs. -/
  | discarded
  /-- The callback `timedout` runs. -/
  | timedout
  /-- The callback `waited` runs for `future`. -/
  | waited (future : FutureId)

namespace CollectProcess

variable {T : Type}

/-- One step of a collect process.  A future is settled only once, the timer
exists only when a timeout was given, and `waited` is registered only on the
futures of the list; any other step is impossible (`none`). -/
def step (p : CollectProcess T) : Step T → Option (CollectProcess T)
  | .settle future outcome =>
    if (p.heap future).isPending && !outcome.isPending then
      some { p with heap := Function.update p.heap future outcome }
    else none
  | .discardOutput => some { p with promise := Future.discardCell p.promise }
  | .discarded => some p.discarded
  | .timedout => if p.timeout.isSome then some p.timedout else none
  | .waited future => if future ∈ p.futures then p.waited future else none

/-- A sequence of steps. -/
def run : List (Step T) → CollectProcess T → Option (CollectProcess T)
  | [], p => some p
  | s :: rest, p =>
    match p.step s with
    | some q => run rest q
    | none => none

end CollectProcess

namespace AwaitProcess

variable {T : Type}

/-- One step of an await process; see `CollectProcess.step`. -/
def step (p : AwaitProcess T) : Step T → Option (AwaitProcess T)
  | .settle future outcome =>
    if (p.heap future).isPending && !outcome.isPending then
      some { p with heap := Function.update p.heap future outcome }
    else none
  | .discardOutput => some { p with promise := Future.discardCell p.promise }
  | .discarded => some p.discarded
  | .timedout => if p.timeout.isSome then some p.timedout else none
  | .waited future => if future ∈ p.futures then p.waited future else none

/-- A sequence of steps. -/
def run : List (Step T) → AwaitProcess T → Option (AwaitProcess T)
  | [], p => some p
  | s :: rest, p =>
    match p.step s with
    | some q => run rest q
    | none => none

end AwaitProcess

/-! ## The entry points `collect` and `await` (list forms) -/

/-- The side effects of the entry points and of the `initialize` method. -/
inductive Effect where
  /-- The expression `new Promise<...>()`. -/
  | newPromise
  /-- The call `spawn(new ...Process(...), true)`. -/
  | spawn
  /-- The call `promise->future().onDiscard(defer(this, discarded))`. -/
  | onDiscard
  /-- The call `delay(timeout.get().remaining(), this, timedout)`. -/
  | delay (remaining : Timeout)
  /-- The call `future.onAny(defer(this, waited, _1))`. -/
  | onAny (future : FutureId)
  deriving DecidableEq, Repr

/-- The effects of `CollectProcess::initialize` and of
`AwaitProcess::initialize`, which are the same text: register `discarded`,
start the timer when a timeout is given, register `waited` on every future. -/
def initialise (futures : List FutureId) (timeout : Option Timeout) : List Effect :=
  [Effect.onDiscard]
    ++ (match timeout with
        | some t => [Effect.delay t]
        | none => [])
    ++ futures.map Effect.onAny

/-- What a call of `collect` leaves behind: the state of the returned future,
the spawned process if there is one, and the effects performed. -/
structure Collected (T : Type) where
  future : FutureState (List T)
  process : Option (CollectProcess T)
  effects : List Effect

/-- What a call of list-`await` leaves behind. -/
structure Awaited (T : Type) where
  future : FutureState (List FutureId)
  process : Option (AwaitProcess T)
  effects : List Effect

/-- The function `collect(futures, timeout)`. -/
def collect {T : Type} (heap : Store T) (futures : List FutureId)
    (timeout : Option Timeout) : Collected T :=
  if futures.isEmpty then
    { future := .READY [], process := none, effects := [] }
  else
    let p := CollectProcess.create heap futures timeout
    { future := p.promise, process := some p,
      effects := [Effect.newPromise, Effect.spawn] ++ initialise futures timeout }

/-- The function `await(futures, timeout)` on a list. -/
def await {T : Type} (heap : Store T) (futures : List FutureId)
    (timeout : Option Timeout) : Awaited T :=
  if futures.isEmpty then
    { future := .READY futures, process := none, effects := [] }
  else
    let p := AwaitProcess.create heap futures timeout
    { future := p.promise, process := some p,
      effects := [Effect.newPromise, Effect.spawn] ++ initialise futures timeout }

/-! ## Concrete inputs used to exercise the definitions -/

/-- A heap with one future in each state: 0 is FAILED with "boom", 1 is
PENDING, 2 is READY with 7, every other future is DISCARDED. -/
def mixedHeap : Store Nat := fun f =>
  match f with
  | 0 => .FAILED "boom"
  | 1 => .PENDING
  | 2 => .READY 7
  | _ => .DISCARDED

/-- A collect process over the futures 0, 1, 2 of `mixedHeap`, freshly
spawned with a timeout. -/
def mixedCollect : CollectProcess Nat := CollectProcess.create mixedHeap [0, 1, 2] (some 5)

/-- An await process over the futures 0, 1, 2 of `mixedHeap`, freshly spawned
with a timeout. -/
def mixedAwait : AwaitProcess Nat := AwaitProcess.create mixedHeap [0, 1, 2] (some 5)

/-! ## The actor that hosts a combinator process

The scheduler of libprocess (`spawn`, `defer`, `terminate`, `delay`) is not
part of the sources; the definitions of this section follow sections 4.1 and
4.2 of the specification. -/

/-- A callback of a combinator process, bound to it with `defer` by its
`initialize` method. -/
inductive Callback where
  /-- The handler `discarded`, registered with `onDiscard` on the output. -/
  | discarded
  /-- The handler `timedout`, scheduled with `delay`. -/
  | timedout
  /-- The handler `waited`, registered with `onAny` on `future`. -/
  | waited (future : FutureId)
  deriving DecidableEq, Repr

/-- What can happen to a spawned actor. -/
inductive Action (T : Type) where
  /-- The owner of an input future settles it with a terminal outcome. -/
  | settle (future : FutureId) (outcome : FutureState T)
  /-- The caller calls `discard()` on the future returned by the combinator. -/
  | discardOutput
  /-- The duration given to `delay` elapses. -/
  | elapse
  /-- The actor executes the callback at the head of its queue. -/
  | runNext

/-- Modelled from the spec: the `waited` callbacks that `initialize` has
registered on `future` with `onAny`, one for every occurrence of `future` in
the list (future.hpp is not part of the sources; "all are invoked exactly
once, in registration order, after settlement"). -/
def registered (futures : List FutureId) (future : FutureId) : List Callback :=
  (futures.filter (fun f => f == future)).map Callback.waited

/-- Modelled from the spec: the callbacks triggered by the discard loop of
`timedout`, which walks the list and discards every future that is still
PENDING; the `onAny` callbacks of such a future are invoked at that moment
(future.hpp is not part of the sources). -/
def discardCallbacks {T : Type} (all : List FutureId) :
    Store T → List FutureId → List Callback
  | _, [] => []
  | heap, f :: rest =>
    if (heap f).isPending then
      registered all f ++ discardCallbacks all (Future.discard heap f) rest
    else
      discardCallbacks all heap rest

/-- A spawned collect process with its queue of deferred callbacks and the
timer started by `delay`. -/
structure CollectActor (T : Type) where
  process : CollectProcess T
  queue : List Callback
  timer : Bool

namespace CollectActor

variable {T : Type}

/-- Modelled from the spec: deferred dispatch and `terminate` (process.hpp and
defer.hpp are not part of the sources).  Invoking a deferred callback
"enqueues the callback onto that process's serialized execution queue"; after
`terminate`, "no new deferred callbacks are accepted". -/
def dispatch (a : CollectActor T) (c : Callback) : CollectActor T :=
  if a.process.terminated then a else { a with queue := a.queue ++ [c] }

/-- Dispatch of several callbacks, in order. -/
def dispatchAll (a : CollectActor T) (cs : List Callback) : CollectActor T :=
  cs.foldl dispatch a

/-- Modelled from the spec: `spawn(new CollectProcess(...), true)` followed by
`initialize` (process.hpp is not part of the sources).  The timer is started
when a timeout is given, and `onAny` on a future that has "already settled at
attach time" invokes the callback at once, which queues it. -/
def spawn (heap : Store T) (futures : List FutureId) (timeout : Option Timeout) :
    CollectActor T :=
  { process := CollectProcess.create heap futures timeout
    queue := (futures.filter (fun f => !(heap f).isPending)).map Callback.waited
    timer := timeout.isSome }

/-- Modelled from the spec: one action on a collect actor (process.hpp and
future.hpp are not part of the sources).  Settling an input invokes its
`onAny` callbacks; `discard()` on the output "transitions PENDING→DISCARDED
and invokes the ... registered discard-request callback"; the timer fires
once; the actor runs its queue in order, and after `terminate` "queued work
already enqueued still drains". -/
def act (a : CollectActor T) : Action T → Option (CollectActor T)
  | .settle future outcome =>
    if (a.process.heap future).isPending && !outcome.isPending then
      some (dispatchAll
        { a with process :=
            { a.process with heap := Function.update a.process.heap future outcome } }
        (registered a.process.futures future))
    else none
  | .discardOutput =>
    if a.process.promise.isPending then
      some (dispatch
        { a with process := { a.process with promise := Future.discardCell a.process.promise } }
        Callback.discarded)
    else some a
  | .elapse =>
    if a.timer then some (dispatch { a with timer := false } Callback.timedout) else none
  | .runNext =>
    match a.queue with
    | [] => none
    | Callback.discarded :: rest =>
      some { a with process := a.process.discarded, queue := rest }
    | Callback.timedout :: rest =>
      some { a with
        process := a.process.timedout
        queue :=
          if a.process.terminated then rest
          else rest ++ discardCallbacks a.process.futures a.process.heap a.process.futures }
    | Callback.waited future :: rest =>
      match a.process.waited future with
      | some q => some { a with process := q, queue := rest }
      | none => none

/-- A sequence of actions. -/
def exec : List (Action T) → CollectActor T → Option (CollectActor T)
  | [], a => some a
  | x :: rest, a =>
    match a.act x with
    | some b => exec rest b
    | none => none

end CollectActor

/-- A spawned await process with its queue of deferred callbacks and the
timer started by `delay`. -/
structure AwaitActor (T : Type) where
  process : AwaitProcess T
  queue : List Callback
  timer : Bool

namespace AwaitActor

variable {T : Type}

/-- Modelled from the spec: deferred dispatch and `terminate` (process.hpp and
defer.hpp are not part of the sources).  Invoking a deferred callback
"enqueues the callback onto that process's serialized execution queue"; after
`terminate`, "no new deferred callbacks are accepted". -/
def dispatch (a : AwaitActor T) (c : Callback) : AwaitActor T :=
  if a.process.terminated then a else { a with queue := a.queue ++ [c] }

/-- Dispatch of several callbacks, in order. -/
def dispatchAll (a : AwaitActor T) (cs : List Callback) : AwaitActor T :=
  cs.foldl dispatch a

/-- Modelled from the spec: `spawn(new AwaitProcess(...), true)` followed by
`initialize` (process.hpp is not part of the sources); see
`CollectActor.spawn`. -/
def spawn (heap : Store T) (futures : List FutureId) (timeout : Option Timeout) :
    AwaitActor T :=
  { process := AwaitProcess.create heap futures timeout
    queue := (futures.filter (fun f => !(heap f).isPending)).map Callback.waited
    timer := timeout.isSome }

/-- Modelled from the spec: one action on an await actor (process.hpp and
future.hpp are not part of the sources); see `CollectActor.act`. -/
def act (a : AwaitActor T) : Action T → Option (AwaitActor T)
  | .settle future outcome =>
    if (a.process.heap future).isPending && !outcome.isPending then
      some (dispatchAll
        { a with process :=
            { a.process with heap := Function.update a.process.heap future outcome } }
        (registered a.process.futures future))
    else none
  | .discardOutput =>
    if a.process.promise.isPending then
      some (dispatch
        { a with process := { a.process with promise := Future.discardCell a.process.promise } }
        Callback.discarded)
    else some a
  | .elapse =>
    if a.timer then some (dispatch { a with timer := false } Callback.timedout) else none
  | .runNext =>
    match a.queue with
    | [] => none
    | Callback.discarded :: rest =>
      some { a with process := a.process.discarded, queue := rest }
    | Callback.timedout :: rest =>
      some { a with
        process := a.process.timedout
        queue :=
          if a.process.terminated then rest
          else rest ++ discardCallbacks a.process.futures a.process.heap a.process.futures }
    | Callback.waited future :: rest =>
      match a.process.waited future with
      | some q => some { a with process := q, queue := rest }
      | none => none

/-- A sequence of actions. -/
def exec : List (Action T) → AwaitActor T → Option (AwaitActor T)
  | [], a => some a
  | x :: rest, a =>
    match a.act x with
    | some b => exec rest b
    | none => none

end AwaitActor

/-- The heap in which every future is PENDING. -/
def pendingHeap : Store Nat := fun _ => .PENDING

/-! ## The wrappers `await(future)` and `await(future1, future2)`

Both wrappers create one signal promise of type `Promise<Nothing>` per
original future, let `onAny` of the original set the signal, hand the signal
futures to the list form of `await`, and chain a continuation with `then`.
The signals live in a heap of their own, the heap of the list-await process;
the originals live in the heap of the caller.  The payload types of the
originals are never inspected, so one type `T` stands for `T1` and `T2`. -/

/-- The type `Nothing` of stout. -/
abbrev Nothing := Unit

/-- Modelled from the spec: `Future::then` with a continuation that returns a
value (future.hpp is not part of the sources).  When the future is READY "the
original Future is recovered and rewrapped into the result"; a failure or a
discard of the future is the failure or discard of the result ("On timeout,
the result will be a failure"); until then the result is PENDING. -/
def Future.thenCell {A B : Type} (cell : FutureState A) (continuation : A → B) :
    FutureState B :=
  match cell with
  | .READY a => .READY (continuation a)
  | .FAILED message => .FAILED message
  | .DISCARDED => .DISCARDED
  | .PENDING => .PENDING

/-- Modelled from the spec: `promise->set(Nothing())` on the signal promise
behind the handle `signal` (future.hpp is not part of the sources): a PENDING
signal becomes READY and its `onAny` callbacks are invoked, a settled signal
is left alone. -/
def AwaitActor.setSignal (a : AwaitActor Nothing) (signal : FutureId) : AwaitActor Nothing :=
  match a.act (.settle signal (.READY ())) with
  | some b => b
  | none => a

/-- The heap of signal promises just after `new Promise<Nothing>()`. -/
def freshSignals : Store Nothing := fun _ => .PENDING

/-- Modelled from the spec: `future.onAny(callback)` at attach time, for the
callback that sets the signal promise `signal` (future.hpp is not part of the
sources): the callback fires "immediately if already settled at attach time",
otherwise it is only registered. -/
def attachSignal {T : Type} (heap : Store T) (future : FutureId)
    (signals : Store Nothing) (signal : FutureId) : Store Nothing :=
  if (heap future).isPending then signals
  else Function.update signals signal (Promise.set (signals signal) ())

/-- One step of the life of a wrapper. -/
inductive WrapperStep (T : Type) where
  /-- The owner of an original future settles it with a terminal outcome. -/
  | settle (future : FutureId) (outcome : FutureState T)
  /-- The duration given to `delay` by the list form elapses. -/
  | elapse
  /-- The list-await actor executes the callback at the head of its queue. -/
  | runNext

/-- What a call of `await(future, timeout)` leaves behind: the heap of the
originals, the handle `future` captured by both lambdas, and the list-await
actor on the signal future, whose handle is 0. -/
structure AwaitFuture (T : Type) where
  heap : Store T
  future : FutureId
  list : AwaitActor Nothing

namespace AwaitFuture

variable {T : Type}

/-- The future returned by `await(future, timeout)`:
`await(futures, timeout).then([=] () { return future; })`. -/
def output (w : AwaitFuture T) : FutureState FutureId :=
  Future.thenCell w.list.process.promise (fun _ => w.future)

/-- One step.  When the original settles, its `onAny` lambda sets the signal
promise; the original is touched by nothing else. -/
def step (w : AwaitFuture T) : WrapperStep T → Option (AwaitFuture T)
  | .settle future outcome =>
    if (w.heap future).isPending && !outcome.isPending then
      some { w with
        heap := Function.update w.heap future outcome
        list := if future = w.future then w.list.setSignal 0 else w.list }
    else none
  | .elapse =>
    match w.list.act .elapse with
    | some a => some { w with list := a }
    | none => none
  | .runNext =>
    match w.list.act .runNext with
    | some a => some { w with list := a }
    | none => none

/-- A sequence of steps. -/
def exec : List (WrapperStep T) → AwaitFuture T → Option (AwaitFuture T)
  | [], w => some w
  | s :: rest, w =>
    match w.step s with
    | some v => exec rest v
    | none => none

end AwaitFuture

/-- The function `await(future, timeout)` on a single future. -/
def awaitFuture {T : Type} (heap : Store T) (future : FutureId)
    (timeout : Option Timeout) : AwaitFuture T :=
  { heap := heap
    future := future
    list := AwaitActor.spawn (attachSignal heap future freshSignals 0) [0] timeout }

/-- What a call of `await(future1, future2, timeout)` leaves behind: the heap
of the originals, the two captured handles, and the list-await actor on the
signal futures, whose handles are 0 (for `promise1`) and 1 (for `promise2`). -/
structure AwaitPair (T : Type) where
  heap : Store T
  future1 : FutureId
  future2 : FutureId
  list : AwaitActor Nothing

namespace AwaitPair

variable {T : Type}

/-- The future returned by `await(future1, future2, timeout)`:
`await(futures, timeout).then([=] () { return make_tuple(future1, future2); })`. -/
def output (w : AwaitPair T) : FutureState (FutureId × FutureId) :=
  Future.thenCell w.list.process.promise (fun _ => (w.future1, w.future2))

/-- One step.  When an original settles, its `onAny` lambda sets its signal
promise, `promise1` for `future1` and `promise2` for `future2`; the originals
are touched by nothing else. -/
def step (w : AwaitPair T) : WrapperStep T → Option (AwaitPair T)
  | .settle future outcome =>
    if (w.heap future).isPending && !outcome.isPending then
      let list1 := if future = w.future1 then w.list.setSignal 0 else w.list
      let list2 := if future = w.future2 then list1.setSignal 1 else list1
      some { w with heap := Function.update w.heap future outcome, list := list2 }
    else none
  | .elapse =>
    match w.list.act .elapse with
    | some a => some { w with list := a }
    | none => none
  | .runNext =>
    match w.list.act .runNext with
    | some a => some { w with list := a }
    | none => none

/-- A sequence of steps. -/
def exec : List (WrapperStep T) → AwaitPair T → Option (AwaitPair T)
  | [], w => some w
  | s :: rest, w =>
    match w.step s with
    | some v => exec rest v
    | none => none

end AwaitPair

/-- The function `await(future1, future2, timeout)` on two futures. -/
def awaitPair {T : Type} (heap : Store T) (future1 future2 : FutureId)
    (timeout : Option Timeout) : AwaitPair T :=
  { heap := heap
    future1 := future1
    future2 := future2
    list :=
      AwaitActor.spawn
        (attachSignal heap future2 (attachSignal heap future1 freshSignals 0) 1)
        [0, 1] timeout }

/-! ## Accounting of callbacks in a list-await actor -/

/-- The state of a list-await actor on the distinct futures `sigs` that was
spawned without a timeout and whose output nobody discards: the timer is off,
the queue holds only `waited` callbacks of settled futures, every settled
future of the list has its callback either queued or counted in `ready`, and
the output is READY with the list exactly when the counter has reached the
size of the list, PENDING before. -/
def AwaitActor.Accounted {T : Type} (sigs : List FutureId) (a : AwaitActor T) : Prop :=
  a.process.futures = sigs ∧ a.timer = false ∧
  (∀ c ∈ a.queue, ∃ s, c = Callback.waited s ∧ (a.process.heap s).isPending = false) ∧
  a.process.ready + a.queue.length = sigs.countP (fun s => !(a.process.heap s).isPending) ∧
  ((a.process.promise = .PENDING ∧ a.process.terminated = false ∧
      a.process.ready < sigs.length) ∨
   (a.process.promise = .READY sigs ∧ a.process.terminated = true ∧
      a.process.ready = sigs.length))

/-- The state of the pair wrapper without timeout: its list-await actor is
accounted on the signals 0 and 1, a signal is PENDING exactly as long as its
original is, and a signal is never anything but PENDING or READY. -/
def AwaitPair.Linked {T : Type} (w : AwaitPair T) : Prop :=
  AwaitActor.Accounted [0, 1] w.list ∧
  (w.list.process.heap 0).isPending = (w.heap w.future1).isPending ∧
  (w.list.process.heap 1).isPending = (w.heap w.future2).isPending ∧
  (∀ s, w.list.process.heap s = .PENDING ∨ w.list.process.heap s = .READY ())

/-- The state of the single wrapper without timeout: its list-await actor is
accounted on the signal 0, the signal is PENDING exactly as long as the
original is, and a signal is never anything but PENDING or READY. -/
def AwaitFuture.Linked {T : Type} (w : AwaitFuture T) : Prop :=
  AwaitActor.Accounted [0] w.list ∧
  (w.list.process.heap 0).isPending = (w.heap w.future).isPending ∧
  (∀ s, w.list.process.heap s = .PENDING ∨ w.list.process.heap s = .READY ())

/-! ## Counting the deliveries of `waited` -/

/-- The futures for which `waited` is delivered in a sequence of steps, in
order of delivery. -/
def deliveries {T : Type} : List (Step T) → List FutureId
  | [] => []
  | .waited future :: rest => future :: deliveries rest
  | _ :: rest => deliveries rest

/-- The number of `waited` callbacks that a collect process, started in `p`,
is delivered along a sequence of steps for an input that is READY when the
callback is delivered. -/
def CollectProcess.readyDeliveries {T : Type} :
    List (Step T) → CollectProcess T → Nat
  | [], _ => 0
  | s :: rest, p =>
    match p.step s with
    | none => 0
    | some q =>
      (match s with
        | .waited future => if (p.heap future).isReady then 1 else 0
        | _ => 0)
      + readyDeliveries rest q

/-! ## Inputs that become READY over time -/

/-- A sequence of steps in which inputs complete over time, all of them
READY: starting from `heap`, every step either is the owner of a future that
is still PENDING setting it READY with its value `vals future`, or is the
delivery of `waited` for a future that is READY by then (no callback is
invoked before settlement). -/
def ReadySchedule {T : Type} (vals : FutureId → T) : Store T → List (Step T) → Prop
  | _, [] => True
  | heap, .settle future outcome :: rest =>
    heap future = .PENDING ∧ outcome = .READY (vals future) ∧
      ReadySchedule vals (Function.update heap future outcome) rest
  | heap, .waited future :: rest =>
    heap future = .READY (vals future) ∧ ReadySchedule vals heap rest
  | _, _ :: _ => False

/-! ## Actors whose queue can always be run -/

/-- Whether a callback is a `waited` for a future that is READY in `heap`. -/
def Callback.isReadyWaited {T : Type} (heap : Store T) : Callback → Bool
  | .waited future => (heap future).isReady
  | _ => false

/-- The state of a collect actor in which every queued callback can run:
queued `waited` callbacks are for settled futures, the callbacks counted in
`ready` together with the queued callbacks of READY futures do not outnumber
the READY futures of the list, the list is shorter than 2^64, and a process
that has asked to terminate has settled its output. -/
def CollectActor.Sound {T : Type} (a : CollectActor T) : Prop :=
  (∀ f, Callback.waited f ∈ a.queue → (a.process.heap f).isPending = false) ∧
  a.process.ready + a.queue.countP (Callback.isReadyWaited a.process.heap) ≤
    a.process.futures.countP (fun f => (a.process.heap f).isReady) ∧
  a.process.futures.length < SIZE_MODULUS ∧
  (a.process.terminated = true → a.process.promise ≠ .PENDING)

/-- The state of an await actor in which every queued callback can run:
queued `waited` callbacks are for settled futures, and a process that has
asked to terminate has settled its output. -/
def AwaitActor.Sound {T : Type} (a : AwaitActor T) : Prop :=
  (∀ f, Callback.waited f ∈ a.queue → (a.process.heap f).isPending = false) ∧
  (a.process.terminated = true → a.process.promise ≠ .PENDING)

end process

/-! ## `WSTRINGIFY` (common/status_utils.hpp) -/

namespace mesos.internal.status

/-- The 32 bits of a C `int` in two's complement, read as an unsigned number;
the bit operations of the wait macros act on them. -/
def intBits (status : Int) : Nat := (status % 2 ^ 32).toNat

/-- Modelled from the spec: the macro `WTERMSIG` of `<sys/wait.h>`, which is
not part of the sources; it is taken with its Linux encoding,
`status & 0x7f`. -/
def WTERMSIG (status : Int) : Nat := intBits status &&& 0x7f

/-- Modelled from the spec: the macro `WIFEXITED` of `<sys/wait.h>`, which is
not part of the sources; it is taken with its Linux encoding,
`WTERMSIG(status) == 0`: the low 7 bits of the status are zero. -/
def WIFEXITED (status : Int) : Bool := WTERMSIG status == 0

/-- Modelled from the spec: the macro `WEXITSTATUS` of `<sys/wait.h>`, which
is not part of the sources; it is taken with its Linux encoding,
`(status & 0xff00) >> 8`. -/
def WEXITSTATUS (status : Int) : Nat := (intBits status &&& 0xff00) >>> 8

/-- Modelled from the spec: `stringify` of stout on an `int`, which is not
part of the sources: the decimal representation, here of a number that is
never negative. -/
def stringify (n : Nat) : String := toString n

/-- The function `WSTRINGIFY(status)`.  The function `strsignal` of the C
library, which maps a signal number to its description, is a parameter. -/
def WSTRINGIFY (strsignal : Nat → String) (status : Int) : String :=
  let message := ""
  if WIFEXITED status then
    (message ++ "exited with status ") ++ stringify (WEXITSTATUS status)
  else
    (message ++ "terminated with signal ") ++ strsignal (WTERMSIG status)

end mesos.internal.status

/-! # Theorems -/

namespace process

variable {T : Type}

/-! ## Write-once cells -/

theorem Promise.set_pending (v : T) : Promise.set (.PENDING : FutureState T) v = .READY v := rfl

theorem Promise.fail_pending (m : String) :
    Promise.fail (.PENDING : FutureState T) m = .FAILED m := rfl

theorem Promise.discard_pending : Promise.discard (.PENDING : FutureState T) = .DISCARDED := rfl

theorem Promise.set_of_settled {c : FutureState T} (h : c ≠ .PENDING) (v : T) :
    Promise.set c v = c := by
  cases c <;> first | rfl | exact absurd rfl h

theorem Promise.fail_of_settled {c : FutureState T} (h : c ≠ .PENDING) (m : String) :
    Promise.fail c m = c := by
  cases c <;> first | rfl | exact absurd rfl h

theorem Promise.discard_of_settled {c : FutureState T} (h : c ≠ .PENDING) :
    Promise.discard c = c := by
  cases c <;> first | rfl | exact absurd rfl h

theorem Future.discardCell_of_settled {c : FutureState T} (h : c ≠ .PENDING) :
    Future.discardCell c = c := by
  cases c <;> first | rfl | exact absurd rfl h

/-! ## The value loop of `CollectProcess::waited` -/

theorem collectProcess_collectValues_ready (heap : Store T) (vals : FutureId → T) :
    ∀ (fs : List FutureId) (acc : List T),
      (∀ f ∈ fs, heap f = .READY (vals f)) →
      CollectProcess.collectValues heap acc fs = some (acc ++ fs.map vals) := by
  intro fs
  induction fs with
  | nil => intro acc _; simp [CollectProcess.collectValues]
  | cons f rest ih =>
    intro acc h
    have hf : heap f = .READY (vals f) := h f (List.mem_cons_self _ _)
    have hrest : ∀ g ∈ rest, heap g = .READY (vals g) :=
      fun g hg => h g (List.mem_cons_of_mem _ hg)
    simp [CollectProcess.collectValues, hf, Future.get, ih _ hrest]

/-! ## Delivery of `waited` to a collect process whose inputs are all READY -/

theorem collectProcess_deliver_all_ready (vals : FutureId → T) :
    ∀ (l : List FutureId) (p : CollectProcess T),
      (∀ f ∈ p.futures, p.heap f = .READY (vals f)) →
      (∀ f ∈ l, p.heap f = .READY (vals f)) →
      p.futures.length < SIZE_MODULUS →
      p.promise = .PENDING →
      p.ready + l.length ≤ p.futures.length →
      ∃ q, p.deliver l = some q ∧ q.heap = p.heap ∧ q.futures = p.futures ∧
        q.ready = p.ready + l.length ∧
        (p.ready + l.length < p.futures.length →
          q.promise = .PENDING ∧ q.terminated = p.terminated) ∧
        (p.ready + l.length = p.futures.length → l ≠ [] →
          q.promise = .READY (p.futures.map vals) ∧ q.terminated = true) := by
  intro l
  induction l with
  | nil =>
    intro p _ _ _ hp _
    exact ⟨p, rfl, rfl, rfl, rfl, fun _ => ⟨hp, rfl⟩, fun _ h => absurd rfl h⟩
  | cons f rest ih =>
    intro p hall hl hsize hp hk
    have hf : p.heap f = .READY (vals f) := hl f (List.mem_cons_self _ _)
    have hrest : ∀ g ∈ rest, p.heap g = .READY (vals g) :=
      fun g hg => hl g (List.mem_cons_of_mem _ hg)
    simp only [List.length_cons] at hk
    have hmod : (p.ready + 1) % SIZE_MODULUS = p.ready + 1 :=
      Nat.mod_eq_of_lt (by omega)
    by_cases hlast : p.ready + 1 = p.futures.length
    · have hnil : rest = [] := by
        apply List.eq_nil_of_length_eq_zero
        omega
      subst hnil
      have hvals := collectProcess_collectValues_ready p.heap vals p.futures [] hall
      refine ⟨{ p with ready := p.ready + 1, promise := .READY (p.futures.map vals),
                       terminated := true }, ?_, rfl, rfl, rfl, ?_, ?_⟩
      · have hmod2 : p.futures.length % SIZE_MODULUS = p.futures.length :=
          Nat.mod_eq_of_lt hsize
        simp [CollectProcess.deliver, CollectProcess.waited, hf, hlast, hmod2, hvals, hp,
          Promise.set]
      · intro h
        simp at h
        omega
      · intro _ _
        exact ⟨rfl, rfl⟩
    · have hw : p.waited f = some { p with ready := p.ready + 1 } := by
        simp [CollectProcess.waited, hf, hmod, hlast]
      obtain ⟨q, hq, hheap, hfut, hready, hlt, heq⟩ :=
        ih { p with ready := p.ready + 1 } hall hrest hsize hp (by simp only; omega)
      refine ⟨q, ?_, hheap, hfut, ?_, ?_, ?_⟩
      · simp [CollectProcess.deliver, hw, hq]
      · simp only [List.length_cons] at *
        omega
      · intro h
        apply hlt
        simp only [List.length_cons] at *
        omega
      · intro h _
        have hne : rest ≠ [] := by
          intro hr
          subst hr
          simp at h
          exact hlast h
        apply heq _ hne
        simp only [List.length_cons] at *
        omega

/-- C2: when `waited` is delivered for an input that is FAILED with message
`m` while the output is pending, the output becomes FAILED with the message
"Collect failed: " followed by `m`, and the process terminates; the counter
and the other inputs, whatever their state, play no part. -/
theorem collect_waited_failed (p : CollectProcess T) (future : FutureId) (m : String)
    (hfailed : p.heap future = .FAILED m) (hpending : p.promise = .PENDING) :
    ∃ q, p.waited future = some q ∧
      q.promise = .FAILED ("Collect failed: " ++ m) ∧ q.terminated = true ∧
      q.ready = p.ready ∧ q.heap = p.heap := by
  refine ⟨{ p with promise := Promise.fail p.promise ("Collect failed: " ++ m),
                   terminated := true }, ?_, ?_, rfl, rfl, rfl⟩
  · simp only [CollectProcess.waited, hfailed]
  · simp only [hpending, Promise.fail]

/-- Witness of C2: input 0 of `mixedCollect` is FAILED with "boom" while
input 1 is pending and input 2 is ready. -/
theorem collect_waited_failed_witness :
    ∃ q, mixedCollect.waited 0 = some q ∧
      q.promise = .FAILED ("Collect failed: " ++ "boom") ∧ q.terminated = true ∧
      q.ready = mixedCollect.ready ∧ q.heap = mixedCollect.heap :=
  collect_waited_failed mixedCollect 0 "boom" rfl rfl

/-- C3, as stated, fails: after `waited` has run for the FAILED input 0 of
`mixedCollect`, the output is FAILED but input 1, which was PENDING at that
moment, is still PENDING and not DISCARDED. -/
theorem collect_failure_keeps_pending_input :
    mixedCollect.heap 1 = .PENDING ∧
    (mixedCollect.waited 0).map (fun q => q.promise) =
      some (.FAILED "Collect failed: boom") ∧
    (mixedCollect.waited 0).map (fun q => q.heap 1) = some .PENDING ∧
    (mixedCollect.waited 0).map (fun q => decide (q.heap 1 = .DISCARDED)) = some false := by
  refine ⟨rfl, rfl, rfl, ?_⟩
  decide

/-- C3, amended: when the `waited` callback of a FAILED input of the list is
delivered while the output is pending, collect resolves its output FAILED and
terminates, and the failure path discards nothing: every future has the same
state after the handler as before it, so an input that was PENDING is still
PENDING. -/
theorem collect_failure_discards_nothing (p : CollectProcess T) (future : FutureId)
    (m : String) (hmem : future ∈ p.futures)
    (hfailed : p.heap future = .FAILED m) (hpending : p.promise = .PENDING) :
    ∃ q, p.step (.waited future) = some q ∧
      (∃ message, q.promise = .FAILED message) ∧ q.terminated = true ∧
      (∀ g, q.heap g = p.heap g) ∧
      (∀ g ∈ p.futures, p.heap g = .PENDING → q.heap g = .PENDING) := by
  refine ⟨{ p with promise := Promise.fail p.promise ("Collect failed: " ++ m),
                   terminated := true }, ?_, ⟨"Collect failed: " ++ m, ?_⟩, rfl,
    fun _ => rfl, fun _ _ h => h⟩
  · simp only [CollectProcess.step, hmem, if_true, CollectProcess.waited, hfailed]
  · simp only [hpending, Promise.fail]

/-- Witness of C3 (amended) on `mixedCollect`. -/
theorem collect_failure_discards_nothing_witness :
    ∃ q, mixedCollect.step (.waited 0) = some q ∧
      (∃ message, q.promise = .FAILED message) ∧ q.terminated = true ∧
      (∀ g, q.heap g = mixedCollect.heap g) ∧
      (∀ g ∈ mixedCollect.futures, mixedCollect.heap g = .PENDING → q.heap g = .PENDING) :=
  collect_failure_discards_nothing mixedCollect 0 "boom" (by decide) rfl rfl

/-- C4: when `waited` is delivered for an input that is DISCARDED while the
output is pending, the output becomes FAILED with the message
"Collect failed: future discarded" (so it is neither DISCARDED nor READY), and
the process terminates. -/
theorem collect_waited_discarded (p : CollectProcess T) (future : FutureId)
    (hdiscarded : p.heap future = .DISCARDED) (hpending : p.promise = .PENDING) :
    ∃ q, p.waited future = some q ∧
      q.promise = .FAILED "Collect failed: future discarded" ∧
      q.promise ≠ .DISCARDED ∧ (∀ values, q.promise ≠ .READY values) ∧
      q.terminated = true := by
  refine ⟨{ p with promise := Promise.fail p.promise "Collect failed: future discarded",
                   terminated := true }, ?_, ?_, ?_, ?_, rfl⟩
  · simp only [CollectProcess.waited, hdiscarded]
  · simp only [hpending, Promise.fail]
  · simp [hpending, Promise.fail]
  · simp [hpending, Promise.fail]

/-- Witness of C4: input 3 of `mixedHeap` is DISCARDED. -/
theorem collect_waited_discarded_witness :
    ∃ q, (CollectProcess.create mixedHeap [3, 1] none).waited 3 = some q ∧
      q.promise = .FAILED "Collect failed: future discarded" ∧
      q.promise ≠ .DISCARDED ∧ (∀ values, q.promise ≠ .READY values) ∧
      q.terminated = true :=
  collect_waited_discarded (CollectProcess.create mixedHeap [3, 1] none) 3 rfl rfl

/-! ## The discard loop of `timedout` -/

theorem Future.discardCell_idem (c : FutureState T) :
    Future.discardCell (Future.discardCell c) = Future.discardCell c := by
  cases c <;> rfl

theorem Future.foldl_discard_apply :
    ∀ (fs : List FutureId) (heap : Store T) (g : FutureId),
      (fs.foldl Future.discard heap) g =
        if g ∈ fs then Future.discardCell (heap g) else heap g := by
  intro fs
  induction fs with
  | nil => intro heap g; simp
  | cons f rest ih =>
    intro heap g
    rw [List.foldl_cons, ih]
    by_cases hgf : g = f
    · subst hgf
      simp [Future.discard, Future.discardCell_idem]
    · by_cases hg : g ∈ rest
      · simp [Future.discard, hgf, hg, Function.update_noteq]
      · simp [Future.discard, hgf, hg, Function.update_noteq]

theorem Future.foldl_discard_pending (fs : List FutureId) (heap : Store T) (g : FutureId)
    (hg : g ∈ fs) (hp : heap g = .PENDING) :
    (fs.foldl Future.discard heap) g = .DISCARDED := by
  rw [Future.foldl_discard_apply, if_pos hg, hp]
  rfl

theorem Future.foldl_discard_settled (fs : List FutureId) (heap : Store T) (g : FutureId)
    (hs : heap g ≠ .PENDING) :
    (fs.foldl Future.discard heap) g = heap g := by
  rw [Future.foldl_discard_apply]
  split
  · exact Future.discardCell_of_settled hs
  · rfl

theorem Future.foldl_discard_outside (fs : List FutureId) (heap : Store T) (g : FutureId)
    (hg : g ∉ fs) :
    (fs.foldl Future.discard heap) g = heap g := by
  rw [Future.foldl_discard_apply, if_neg hg]

/-- C6: for every list and every timeout, when the timeout of collect fires
while the output is pending, the output becomes FAILED with the message
"Collect failed: timed out", every input of the list that was PENDING becomes
DISCARDED, every future that had already settled keeps its state and value
(as does every future outside the list), and the process terminates. -/
theorem collect_timedout (p : CollectProcess T) (t : Timeout)
    (htimeout : p.timeout = some t) (hpending : p.promise = .PENDING) :
    ∃ q, p.step .timedout = some q ∧
      q.promise = .FAILED "Collect failed: timed out" ∧
      (∀ f ∈ p.futures, p.heap f = .PENDING → q.heap f = .DISCARDED) ∧
      (∀ f, p.heap f ≠ .PENDING → q.heap f = p.heap f) ∧
      (∀ f, f ∉ p.futures → q.heap f = p.heap f) ∧
      q.terminated = true := by
  refine ⟨p.timedout, ?_, ?_, ?_, ?_, ?_, rfl⟩
  · simp [CollectProcess.step, htimeout]
  · simp [CollectProcess.timedout, hpending, Promise.fail]
  · intro f hf hp
    exact Future.foldl_discard_pending _ _ _ hf hp
  · intro f hs
    exact Future.foldl_discard_settled _ _ _ hs
  · intro f hf
    exact Future.foldl_discard_outside _ _ _ hf

/-- Witness of C6 on `mixedCollect`, whose timeout is 5. -/
theorem collect_timedout_witness :
    ∃ q, mixedCollect.step .timedout = some q ∧
      q.promise = .FAILED "Collect failed: timed out" ∧
      (∀ f ∈ mixedCollect.futures, mixedCollect.heap f = .PENDING → q.heap f = .DISCARDED) ∧
      (∀ f, mixedCollect.heap f ≠ .PENDING → q.heap f = mixedCollect.heap f) ∧
      (∀ f, f ∉ mixedCollect.futures → q.heap f = mixedCollect.heap f) ∧
      q.terminated = true :=
  collect_timedout mixedCollect 5 rfl rfl

/-! ## Delivery of `waited` to an await process -/

theorem awaitProcess_waited_settled (p : AwaitProcess T) (f : FutureId)
    (hf : p.heap f ≠ .PENDING) :
    p.waited f =
      if (p.ready + 1) % SIZE_MODULUS = p.futures.length then
        some { p with
          ready := (p.ready + 1) % SIZE_MODULUS
          promise := Promise.set p.promise p.futures
          terminated := true }
      else some { p with ready := (p.ready + 1) % SIZE_MODULUS } := by
  have h : (p.heap f).isPending = false := by
    cases hc : p.heap f <;> first | rfl | exact absurd hc hf
  simp [AwaitProcess.waited, h]

theorem collectProcess_waited_futures (p q : CollectProcess T) (f : FutureId)
    (h : p.waited f = some q) : q.futures = p.futures ∧ q.heap = p.heap := by
  unfold CollectProcess.waited at h
  split at h
  · cases h; exact ⟨rfl, rfl⟩
  · cases h; exact ⟨rfl, rfl⟩
  · cases h
  · simp only at h
    split at h
    · split at h
      · cases h; exact ⟨rfl, rfl⟩
      · cases h
    · cases h; exact ⟨rfl, rfl⟩

theorem collectProcess_waited_of_settled (p q : CollectProcess T) (f : FutureId)
    (hp : p.promise ≠ .PENDING) (h : p.waited f = some q) : q.promise = p.promise := by
  unfold CollectProcess.waited at h
  split at h
  · cases h; exact Promise.fail_of_settled hp _
  · cases h; exact Promise.fail_of_settled hp _
  · cases h
  · simp only at h
    split at h
    · split at h
      · cases h; exact Promise.set_of_settled hp _
      · cases h
    · cases h; rfl

theorem collectProcess_step_futures (p q : CollectProcess T) (s : Step T)
    (h : p.step s = some q) : q.futures = p.futures := by
  cases s with
  | settle f o =>
    simp only [CollectProcess.step] at h
    split at h
    · cases h; rfl
    · cases h
  | discardOutput => simp only [CollectProcess.step] at h; cases h; rfl
  | discarded => simp only [CollectProcess.step] at h; cases h; rfl
  | timedout =>
    simp only [CollectProcess.step] at h
    split at h
    · cases h; rfl
    · cases h
  | waited f =>
    simp only [CollectProcess.step] at h
    split at h
    · exact (collectProcess_waited_futures p q f h).1
    · cases h

theorem collectProcess_step_of_settled (p q : CollectProcess T) (s : Step T)
    (hp : p.promise ≠ .PENDING) (h : p.step s = some q) : q.promise = p.promise := by
  cases s with
  | settle f o =>
    simp only [CollectProcess.step] at h
    split at h
    · cases h; rfl
    · cases h
  | discardOutput =>
    simp only [CollectProcess.step] at h
    cases h
    exact Future.discardCell_of_settled hp
  | discarded =>
    simp only [CollectProcess.step] at h
    cases h
    exact Promise.discard_of_settled hp
  | timedout =>
    simp only [CollectProcess.step] at h
    split at h
    · cases h; exact Promise.fail_of_settled hp _
    · cases h
  | waited f =>
    simp only [CollectProcess.step] at h
    split at h
    · exact collectProcess_waited_of_settled p q f hp h
    · cases h

/-- No step changes a cell that has settled. -/
theorem collectProcess_step_heap_settled (p q : CollectProcess T) (s : Step T)
    (g : FutureId) (hg : p.heap g ≠ .PENDING) (h : p.step s = some q) :
    q.heap g = p.heap g := by
  cases s with
  | settle f o =>
    simp only [CollectProcess.step] at h
    split at h
    · rename_i hc
      cases h
      have hfg : g ≠ f := by
        intro hgf
        subst hgf
        apply hg
        cases hcell : p.heap g <;> simp [hcell, FutureState.isPending] at hc ⊢
      simp [Function.update_noteq hfg]
    · cases h
  | discardOutput => simp only [CollectProcess.step] at h; cases h; rfl
  | discarded => simp only [CollectProcess.step] at h; cases h; rfl
  | timedout =>
    simp only [CollectProcess.step] at h
    split at h
    · cases h; exact Future.foldl_discard_settled _ _ _ hg
    · cases h
  | waited f =>
    simp only [CollectProcess.step] at h
    split at h
    · rw [(collectProcess_waited_futures p q f h).2]
    · cases h

theorem collectProcess_run_cons (p : CollectProcess T) (s : Step T) (rest : List (Step T)) :
    p.run (s :: rest) = (p.step s).bind (fun q => q.run rest) := by
  simp only [CollectProcess.run]
  cases p.step s <;> rfl

theorem collectProcess_run_append :
    ∀ (a b : List (Step T)) (p : CollectProcess T),
      p.run (a ++ b) = (p.run a).bind (fun q => q.run b) := by
  intro a
  induction a with
  | nil => intro b p; rfl
  | cons s rest ih =>
    intro b p
    rw [List.cons_append, collectProcess_run_cons, collectProcess_run_cons]
    cases p.step s with
    | none => rfl
    | some q => simp [ih]

theorem collectProcess_run_futures :
    ∀ (trace : List (Step T)) (p q : CollectProcess T),
      p.run trace = some q → q.futures = p.futures := by
  intro trace
  induction trace with
  | nil => intro p q h; cases h; rfl
  | cons s rest ih =>
    intro p q h
    rw [collectProcess_run_cons] at h
    cases hs : p.step s with
    | none => simp [hs] at h
    | some r =>
      simp only [hs, Option.some_bind] at h
      rw [ih r q h, collectProcess_step_futures p r s hs]

theorem collectProcess_run_of_settled :
    ∀ (trace : List (Step T)) (p q : CollectProcess T),
      p.promise ≠ .PENDING → p.run trace = some q → q.promise = p.promise := by
  intro trace
  induction trace with
  | nil => intro p q _ h; cases h; rfl
  | cons s rest ih =>
    intro p q hp h
    rw [collectProcess_run_cons] at h
    cases hs : p.step s with
    | none => simp [hs] at h
    | some r =>
      simp only [hs, Option.some_bind] at h
      have hr := collectProcess_step_of_settled p r s hp hs
      rw [ih r q (by rw [hr]; exact hp) h, hr]

/-! ## All-or-nothing -/

theorem collectProcess_collectValues_some (heap : Store T) :
    ∀ (fs : List FutureId) (acc values : List T),
      CollectProcess.collectValues heap acc fs = some values →
      ∃ vs, values = acc ++ vs ∧ fs.map heap = vs.map FutureState.READY := by
  intro fs
  induction fs with
  | nil =>
    intro acc values h
    simp only [CollectProcess.collectValues] at h
    cases h
    exact ⟨[], by simp, rfl⟩
  | cons f rest ih =>
    intro acc values h
    simp only [CollectProcess.collectValues] at h
    cases hc : heap f with
    | READY v =>
      simp only [hc, Future.get] at h
      obtain ⟨vs, hvs, hmap⟩ := ih _ _ h
      exact ⟨v :: vs, by simp [hvs], by simp [hc, hmap]⟩
    | PENDING => simp [hc, Future.get] at h
    | FAILED m => simp [hc, Future.get] at h
    | DISCARDED => simp [hc, Future.get] at h

theorem collectProcess_waited_sets_all (p q : CollectProcess T) (f : FutureId)
    (values : List T) (hp : p.promise = .PENDING) (h : p.waited f = some q)
    (hq : q.promise = .READY values) :
    p.futures.map p.heap = values.map FutureState.READY := by
  unfold CollectProcess.waited at h
  split at h
  · cases h
    simp [hp, Promise.fail] at hq
  · cases h
    simp [hp, Promise.fail] at hq
  · cases h
  · simp only at h
    split at h
    · split at h
      · rename_i vs hvs
        cases h
        simp only [hp, Promise.set, FutureState.READY.injEq] at hq
        subst hq
        obtain ⟨ws, hws, hmap⟩ := collectProcess_collectValues_some _ _ _ _ hvs
        simp only [List.nil_append] at hws
        rw [hws]
        exact hmap
      · cases h
    · cases h
      simp [hp] at hq

theorem collectProcess_step_sets_all (p q : CollectProcess T) (s : Step T)
    (values : List T) (hp : p.promise = .PENDING) (h : p.step s = some q)
    (hq : q.promise = .READY values) :
    q.futures.map q.heap = values.map FutureState.READY := by
  cases s with
  | settle f o =>
    simp only [CollectProcess.step] at h
    split at h
    · cases h; simp [hp] at hq
    · cases h
  | discardOutput =>
    simp only [CollectProcess.step] at h
    cases h
    simp [hp, Future.discardCell] at hq
  | discarded =>
    simp only [CollectProcess.step] at h
    cases h
    simp [CollectProcess.discarded, hp, Promise.discard] at hq
  | timedout =>
    simp only [CollectProcess.step] at h
    split at h
    · cases h
      simp [CollectProcess.timedout, hp, Promise.fail] at hq
    · cases h
  | waited f =>
    simp only [CollectProcess.step] at h
    split at h
    · obtain ⟨hfut, hheap⟩ := collectProcess_waited_futures p q f h
      rw [hfut, hheap]
      exact collectProcess_waited_sets_all p q f values hp h hq
    · cases h

/-- The invariant behind all-or-nothing is kept by every step. -/
theorem collectProcess_step_all_or_nothing (p q : CollectProcess T) (s : Step T)
    (hinv : ∀ values, p.promise = .READY values →
      p.futures.map p.heap = values.map FutureState.READY)
    (h : p.step s = some q) :
    ∀ values, q.promise = .READY values →
      q.futures.map q.heap = values.map FutureState.READY := by
  intro values hq
  by_cases hp : p.promise = .PENDING
  · exact collectProcess_step_sets_all p q s values hp h hq
  · have hsame := collectProcess_step_of_settled p q s hp h
    rw [hsame] at hq
    have hmap := hinv values hq
    rw [collectProcess_step_futures p q s h, ← hmap]
    apply List.map_congr_left
    intro f hf
    apply collectProcess_step_heap_settled p q s f _ h
    have hin : p.heap f ∈ values.map FutureState.READY := by
      rw [← hmap]
      exact List.mem_map_of_mem _ hf
    obtain ⟨v, _, hv⟩ := List.mem_map.mp hin
    rw [← hv]
    exact fun hc => FutureState.noConfusion hc

theorem collectProcess_run_all_or_nothing :
    ∀ (trace : List (Step T)) (p q : CollectProcess T),
      (∀ values, p.promise = .READY values →
        p.futures.map p.heap = values.map FutureState.READY) →
      p.run trace = some q →
      ∀ values, q.promise = .READY values →
        q.futures.map q.heap = values.map FutureState.READY := by
  intro trace
  induction trace with
  | nil => intro p q hinv h; cases h; exact hinv
  | cons s rest ih =>
    intro p q hinv h
    rw [collectProcess_run_cons] at h
    cases hs : p.step s with
    | none => simp [hs] at h
    | some r =>
      simp only [hs, Option.some_bind] at h
      exact ih r q (collectProcess_step_all_or_nothing p r s hinv hs) h

/-- C5: collect is all-or-nothing.  In every state `q` that a collect process
spawned on `futures` reaches by any sequence of steps, if the output is READY
with a list `values`, then the states of the input futures, taken in input
order, are exactly READY with the elements of `values`: every input is READY
and `values` is the list of all input values in input order (so it has the
length of the input list and is no proper sub-list).  Moreover, if somewhere
in the sequence a `waited` callback was delivered for an input that was FAILED
or DISCARDED, the output is not READY. -/
theorem collect_all_or_nothing (heap : Store T) (futures : List FutureId)
    (timeout : Option Timeout) (trace : List (Step T)) (q : CollectProcess T)
    (hrun : (CollectProcess.create heap futures timeout).run trace = some q) :
    (∀ values, q.promise = .READY values →
      futures.map q.heap = values.map FutureState.READY ∧
      values.length = futures.length ∧
      (∀ f ∈ futures, (q.heap f).isReady = true)) ∧
    (∀ before after f r,
      trace = before ++ Step.waited f :: after →
      (CollectProcess.create heap futures timeout).run before = some r →
      ((r.heap f).isFailed = true ∨ (r.heap f).isDiscarded = true) →
      ∀ values, q.promise ≠ .READY values) := by
  have hinit : ∀ values, (CollectProcess.create heap futures timeout).promise = .READY values →
      (CollectProcess.create heap futures timeout).futures.map
        (CollectProcess.create heap futures timeout).heap = values.map FutureState.READY := by
    intro values h
    exact FutureState.noConfusion h
  constructor
  · intro values hq
    have hmap := collectProcess_run_all_or_nothing trace _ q hinit hrun values hq
    rw [collectProcess_run_futures trace _ q hrun] at hmap
    change futures.map q.heap = values.map FutureState.READY at hmap
    refine ⟨hmap, ?_, ?_⟩
    · have := congrArg List.length hmap
      simpa using this.symm
    · intro f hf
      have hin : q.heap f ∈ values.map FutureState.READY := by
        rw [← hmap]
        exact List.mem_map_of_mem _ hf
      obtain ⟨v, _, hv⟩ := List.mem_map.mp hin
      rw [← hv]
      rfl
  · intro before after f r htrace hbefore hbad values hq
    subst htrace
    rw [collectProcess_run_append, hbefore, Option.some_bind, collectProcess_run_cons] at hrun
    cases hs : r.step (Step.waited f) with
    | none => simp [hs] at hrun
    | some r2 =>
      simp only [hs, Option.some_bind] at hrun
      have hw : f ∈ r.futures ∧ r.waited f = some r2 := by
        simp only [CollectProcess.step] at hs
        split at hs
        · rename_i hmem
          exact ⟨hmem, hs⟩
        · cases hs
      have hrinv := collectProcess_run_all_or_nothing before _ r hinit hbefore
      cases hrp : r.promise with
      | READY vs =>
        have hmap := hrinv vs hrp
        have hin : r.heap f ∈ vs.map FutureState.READY := by
          rw [← hmap]
          exact List.mem_map_of_mem _ hw.1
        obtain ⟨v, _, hv⟩ := List.mem_map.mp hin
        rw [← hv] at hbad
        simp [FutureState.isFailed, FutureState.isDiscarded] at hbad
      | PENDING =>
        have hr2 : ∃ m, r2.promise = .FAILED m := by
          have hw2 := hw.2
          unfold CollectProcess.waited at hw2
          split at hw2
          · cases hw2
            exact ⟨_, by rw [hrp]; rfl⟩
          · cases hw2
            exact ⟨_, by rw [hrp]; rfl⟩
          · cases hw2
          · rename_i v hcell
            rw [hcell] at hbad
            simp [FutureState.isFailed, FutureState.isDiscarded] at hbad
        obtain ⟨m, hm⟩ := hr2
        have := collectProcess_run_of_settled after r2 q (by rw [hm]; simp) hrun
        rw [this, hm] at hq
        exact FutureState.noConfusion hq
      | FAILED m =>
        have h1 := collectProcess_step_of_settled r r2 _ (by rw [hrp]; simp) hs
        have h2 := collectProcess_run_of_settled after r2 q (by rw [h1, hrp]; simp) hrun
        rw [h2, h1, hrp] at hq
        exact FutureState.noConfusion hq
      | DISCARDED =>
        have h1 := collectProcess_step_of_settled r r2 _ (by rw [hrp]; simp) hs
        have h2 := collectProcess_run_of_settled after r2 q (by rw [h1, hrp]; simp) hrun
        rw [h2, h1, hrp] at hq
        exact FutureState.noConfusion hq

/-- Witness of C5, on three inputs.  First a run in which the inputs, all
PENDING at the start, complete over time and every callback is delivered: the
output is READY with all three values in input order.  Then a run on
`mixedHeap` in which the callback of the READY input 2 is followed by the
callback of the FAILED input 0, after which input 1 still becomes READY and
its callback is delivered: the output is FAILED and never READY, although two
of the three inputs are READY. -/
theorem collect_all_or_nothing_witness :
    (∃ q, (CollectProcess.create pendingHeap [0, 1, 2] none).run
        [.settle 2 (.READY 12), .waited 2, .settle 0 (.READY 10), .settle 1 (.READY 11),
          .waited 1, .waited 0] = some q ∧
      q.promise = .READY [10, 11, 12] ∧
      [0, 1, 2].map q.heap = [10, 11, 12].map FutureState.READY ∧
      [10, 11, 12].length = [0, 1, 2].length ∧
      (∀ f ∈ [0, 1, 2], (q.heap f).isReady = true)) ∧
    (∃ q r, (CollectProcess.create mixedHeap [0, 1, 2] none).run
        [Step.waited 2, Step.waited 0, Step.settle 1 (.READY 4), Step.waited 1] = some q ∧
      (CollectProcess.create mixedHeap [0, 1, 2] none).run [.waited 2] = some r ∧
      (r.heap 0).isFailed = true ∧
      q.heap 1 = .READY 4 ∧ q.heap 2 = .READY 7 ∧
      q.promise = .FAILED "Collect failed: boom" ∧
      (∀ values, q.promise ≠ .READY values)) :=
  ⟨⟨_, rfl, rfl,
      (collect_all_or_nothing pendingHeap [0, 1, 2] none
        [.settle 2 (.READY 12), .waited 2, .settle 0 (.READY 10), .settle 1 (.READY 11),
          .waited 1, .waited 0] _ rfl).1 [10, 11, 12] rfl⟩,
   ⟨_, _, rfl, rfl, rfl, rfl, rfl, rfl,
      (collect_all_or_nothing mixedHeap [0, 1, 2] none
        [Step.waited 2, Step.waited 0, Step.settle 1 (.READY 4), Step.waited 1] _ rfl).2
        [Step.waited 2] [Step.settle 1 (.READY 4), Step.waited 1] 0 _ rfl rfl (Or.inl rfl)⟩⟩

/-! ## Steps of an await process -/

theorem awaitProcess_waited_failed (p q : AwaitProcess T) (f : FutureId) (m : String)
    (h : p.waited f = some q) (hq : q.promise = .FAILED m) : p.promise = .FAILED m := by
  unfold AwaitProcess.waited at h
  split at h
  · cases h
  · simp only at h
    split at h
    · cases h
      cases hp : p.promise <;> simp [hp, Promise.set] at hq
      rw [hq]
    · cases h
      exact hq

theorem awaitProcess_step_failed (p q : AwaitProcess T) (s : Step T) (m : String)
    (h : p.step s = some q) (hq : q.promise = .FAILED m) :
    p.promise = .FAILED m ∨ (s = Step.timedout ∧ m = "Collect failed: timed out") := by
  cases s with
  | settle f o =>
    simp only [AwaitProcess.step] at h
    split at h
    · cases h; exact Or.inl hq
    · cases h
  | discardOutput =>
    simp only [AwaitProcess.step] at h
    cases h
    left
    cases hp : p.promise <;> simp [hp, Future.discardCell] at hq
    rw [hq]
  | discarded =>
    simp only [AwaitProcess.step] at h
    cases h
    left
    cases hp : p.promise <;> simp [AwaitProcess.discarded, hp, Promise.discard] at hq
    rw [hq]
  | timedout =>
    simp only [AwaitProcess.step] at h
    split at h
    · cases h
      cases hp : p.promise with
      | PENDING =>
        right
        simp [AwaitProcess.timedout, hp, Promise.fail] at hq
        exact ⟨rfl, hq.symm⟩
      | READY v => simp [AwaitProcess.timedout, hp, Promise.fail] at hq
      | FAILED m2 =>
        left
        simp [AwaitProcess.timedout, hp, Promise.fail] at hq
        rw [hq]
      | DISCARDED => simp [AwaitProcess.timedout, hp, Promise.fail] at hq
    · cases h
  | waited f =>
    simp only [AwaitProcess.step] at h
    split at h
    · exact Or.inl (awaitProcess_waited_failed p q f m h hq)
    · cases h

theorem awaitProcess_run_failed :
    ∀ (trace : List (Step T)) (p q : AwaitProcess T) (m : String),
      p.run trace = some q → q.promise = .FAILED m →
      p.promise = .FAILED m ∨
        (Step.timedout ∈ trace ∧ m = "Collect failed: timed out") := by
  intro trace
  induction trace with
  | nil => intro p q m h hq; cases h; exact Or.inl hq
  | cons s rest ih =>
    intro p q m h hq
    simp only [AwaitProcess.run] at h
    cases hs : p.step s with
    | none => simp [hs] at h
    | some r =>
      simp only [hs] at h
      rcases ih r q m h hq with hr | ⟨hmem, hm⟩
      · rcases awaitProcess_step_failed p r s m hs hr with hp | ⟨rfl, hm⟩
        · exact Or.inl hp
        · exact Or.inr ⟨List.mem_cons_self _ _, hm⟩
      · exact Or.inr ⟨List.mem_cons_of_mem _ hmem, hm⟩

/-- C8: the timeout of list-await behaves as the one of collect.  When the
timeout fires while the output is pending, the output becomes FAILED (with the
message "Collect failed: timed out"), every input of the list that was PENDING
becomes DISCARDED, every settled future is unchanged, and the process
terminates.  Conversely, in every state an await process reaches by any
sequence of steps, if the output is FAILED then the `timedout` handler has run
in that sequence, and the message is the one of the timeout. -/
theorem await_fails_only_on_timeout :
    (∀ (p : AwaitProcess T) (t : Timeout),
      p.timeout = some t → p.promise = .PENDING →
      ∃ q, p.step .timedout = some q ∧
        q.promise = .FAILED "Collect failed: timed out" ∧
        (∀ f ∈ p.futures, p.heap f = .PENDING → q.heap f = .DISCARDED) ∧
        (∀ f, p.heap f ≠ .PENDING → q.heap f = p.heap f) ∧
        q.terminated = true) ∧
    (∀ (heap : Store T) (futures : List FutureId) (timeout : Option Timeout)
      (trace : List (Step T)) (q : AwaitProcess T) (m : String),
      (AwaitProcess.create heap futures timeout).run trace = some q →
      q.promise = .FAILED m →
      Step.timedout ∈ trace ∧ m = "Collect failed: timed out") := by
  constructor
  · intro p t htimeout hpending
    refine ⟨p.timedout, ?_, ?_, ?_, ?_, rfl⟩
    · simp [AwaitProcess.step, htimeout]
    · simp [AwaitProcess.timedout, hpending, Promise.fail]
    · intro f hf hp
      exact Future.foldl_discard_pending _ _ _ hf hp
    · intro f hs
      exact Future.foldl_discard_settled _ _ _ hs
  · intro heap futures timeout trace q m hrun hq
    rcases awaitProcess_run_failed trace _ q m hrun hq with h | h
    · exact FutureState.noConfusion h
    · exact h

/-- Witness of C8: `mixedAwait`, whose timeout is 5, times out after the
callback of its FAILED input 0 has been delivered. -/
theorem await_fails_only_on_timeout_witness :
    (∃ q, mixedAwait.step .timedout = some q ∧
        q.promise = .FAILED "Collect failed: timed out" ∧
        (∀ f ∈ mixedAwait.futures, mixedAwait.heap f = .PENDING → q.heap f = .DISCARDED) ∧
        (∀ f, mixedAwait.heap f ≠ .PENDING → q.heap f = mixedAwait.heap f) ∧
        q.terminated = true) ∧
    ((Step.timedout : Step Nat) ∈ [Step.waited 0, Step.timedout] ∧
      "Collect failed: timed out" = "Collect failed: timed out") :=
  ⟨await_fails_only_on_timeout.1 mixedAwait 5 rfl rfl,
   await_fails_only_on_timeout.2 mixedHeap [0, 1, 2] (some 5)
    [Step.waited 0, Step.timedout]
    { heap := [0, 1, 2].foldl Future.discard mixedHeap, futures := [0, 1, 2],
      timeout := some 5, promise := .FAILED "Collect failed: timed out", ready := 1,
      terminated := true }
    "Collect failed: timed out" rfl rfl⟩

/-- C9: on an empty list, for every timeout, `collect` and list-`await` each
return a future that is already READY with the empty list, and perform no
effect at all: no promise is created, no process is spawned, no timer is
started. -/
theorem collect_await_empty (heap : Store T) (timeout : Option Timeout) :
    ((collect heap [] timeout).future = .READY [] ∧
      (collect heap [] timeout).process.isNone = true ∧
      (collect heap [] timeout).effects = []) ∧
    ((await heap [] timeout).future = .READY [] ∧
      (await heap [] timeout).process.isNone = true ∧
      (await heap [] timeout).effects = []) :=
  ⟨⟨rfl, rfl, rfl⟩, ⟨rfl, rfl, rfl⟩⟩

/-! ## The collect actor after its process has asked to terminate -/

theorem collectProcess_waited_terminated (p q : CollectProcess T) (f : FutureId)
    (hp : p.terminated = true) (h : p.waited f = some q) : q.terminated = true := by
  unfold CollectProcess.waited at h
  split at h
  · cases h; rfl
  · cases h; rfl
  · cases h
  · simp only at h
    split at h
    · split at h
      · cases h; rfl
      · cases h
    · cases h; exact hp

theorem collectActor_dispatch_process (a : CollectActor T) (c : Callback) :
    (a.dispatch c).process = a.process := by
  unfold CollectActor.dispatch
  split <;> rfl

theorem collectActor_dispatch_queue_terminated (a : CollectActor T) (c : Callback)
    (h : a.process.terminated = true) : (a.dispatch c).queue = a.queue := by
  simp [CollectActor.dispatch, h]

theorem collectActor_dispatch_queue_mem (a : CollectActor T) (c d : Callback)
    (h : d ∈ a.queue) : d ∈ (a.dispatch c).queue := by
  unfold CollectActor.dispatch
  split
  · exact h
  · exact List.mem_append_left _ h

theorem collectActor_dispatch_queue_running (a : CollectActor T) (c : Callback)
    (h : a.process.terminated = false) : (a.dispatch c).queue = a.queue ++ [c] := by
  simp [CollectActor.dispatch, h]

theorem collectActor_dispatchAll_process :
    ∀ (cs : List Callback) (a : CollectActor T), (a.dispatchAll cs).process = a.process := by
  intro cs
  induction cs with
  | nil => intro a; rfl
  | cons c rest ih =>
    intro a
    simp only [CollectActor.dispatchAll, List.foldl_cons] at ih ⊢
    rw [ih, collectActor_dispatch_process]

theorem collectActor_dispatchAll_queue_terminated :
    ∀ (cs : List Callback) (a : CollectActor T),
      a.process.terminated = true → (a.dispatchAll cs).queue = a.queue := by
  intro cs
  induction cs with
  | nil => intro a _; rfl
  | cons c rest ih =>
    intro a h
    simp only [CollectActor.dispatchAll, List.foldl_cons] at ih ⊢
    rw [ih _ (by rw [collectActor_dispatch_process]; exact h),
      collectActor_dispatch_queue_terminated a c h]

theorem collectActor_dispatchAll_queue_mem :
    ∀ (cs : List Callback) (a : CollectActor T) (d : Callback),
      d ∈ a.queue → d ∈ (a.dispatchAll cs).queue := by
  intro cs
  induction cs with
  | nil => intro a d h; exact h
  | cons c rest ih =>
    intro a d h
    simp only [CollectActor.dispatchAll, List.foldl_cons] at ih ⊢
    exact ih _ d (collectActor_dispatch_queue_mem a c d h)

/-- What one action can do to a collect actor. -/
theorem collectActor_act_props (a b : CollectActor T) (x : Action T)
    (h : a.act x = some b) :
    (a.process.promise ≠ .PENDING → b.process.promise = a.process.promise) ∧
    (a.process.terminated = true → b.process.terminated = true) ∧
    (a.process.terminated = true ∨ Callback.discarded ∈ a.queue →
      b.process.terminated = true ∨ Callback.discarded ∈ b.queue) ∧
    (a.process.terminated = true → List.IsSuffix b.queue a.queue) ∧
    (a.process.terminated = true → a.queue = [] → b.process.ready = a.process.ready) := by
  cases x with
  | settle f o =>
    simp only [CollectActor.act] at h
    split at h
    · cases h
      refine ⟨?_, ?_, ?_, ?_, ?_⟩
      · intro _; rw [collectActor_dispatchAll_process]
      · intro ht; rw [collectActor_dispatchAll_process]; exact ht
      · rintro (ht | hm)
        · left; rw [collectActor_dispatchAll_process]; exact ht
        · right; exact collectActor_dispatchAll_queue_mem _ _ _ hm
      · intro ht
        rw [collectActor_dispatchAll_queue_terminated]
        exact ht
      · intro _ _; rw [collectActor_dispatchAll_process]
    · cases h
  | discardOutput =>
    simp only [CollectActor.act] at h
    split at h
    · rename_i hpend
      cases h
      refine ⟨?_, ?_, ?_, ?_, ?_⟩
      · intro hp
        exfalso
        cases hc : a.process.promise <;> simp [hc, FutureState.isPending] at hpend hp
      · intro ht; rw [collectActor_dispatch_process]; exact ht
      · rintro (ht | hm)
        · left; rw [collectActor_dispatch_process]; exact ht
        · right; exact collectActor_dispatch_queue_mem _ _ _ hm
      · intro ht
        rw [collectActor_dispatch_queue_terminated]
        exact ht
      · intro _ _; rw [collectActor_dispatch_process]
    · cases h
      exact ⟨fun _ => rfl, fun ht => ht, fun hd => hd, fun _ => List.suffix_refl _,
        fun _ _ => rfl⟩
  | elapse =>
    simp only [CollectActor.act] at h
    split at h
    · cases h
      refine ⟨?_, ?_, ?_, ?_, ?_⟩
      · intro _; rw [collectActor_dispatch_process]
      · intro ht; rw [collectActor_dispatch_process]; exact ht
      · rintro (ht | hm)
        · left; rw [collectActor_dispatch_process]; exact ht
        · right; exact collectActor_dispatch_queue_mem _ _ _ hm
      · intro ht
        rw [collectActor_dispatch_queue_terminated]
        exact ht
      · intro _ _; rw [collectActor_dispatch_process]
    · cases h
  | runNext =>
    cases hqueue : a.queue with
    | nil => simp [CollectActor.act, hqueue] at h
    | cons c rest =>
      have hsuffix : List.IsSuffix rest (c :: rest) := List.suffix_cons _ _
      cases c with
      | discarded =>
        simp only [CollectActor.act, hqueue, Option.some.injEq] at h
        subst h
        exact ⟨fun hp => Promise.discard_of_settled hp, fun _ => rfl, fun _ => Or.inl rfl,
          fun _ => hsuffix, fun _ hnil => List.noConfusion hnil⟩
      | timedout =>
        simp only [CollectActor.act, hqueue, Option.some.injEq] at h
        subst h
        refine ⟨fun hp => Promise.fail_of_settled hp _, fun _ => rfl, fun _ => Or.inl rfl,
          ?_, fun _ hnil => List.noConfusion hnil⟩
        intro ht
        simp only [ht, if_true]
        exact hsuffix
      | waited f =>
        simp only [CollectActor.act, hqueue] at h
        cases hq : a.process.waited f with
        | none => simp [hq] at h
        | some q =>
          simp only [hq, Option.some.injEq] at h
          subst h
          refine ⟨fun hp => collectProcess_waited_of_settled _ _ _ hp hq,
            fun ht => collectProcess_waited_terminated _ _ _ ht hq, ?_,
            fun _ => hsuffix, fun _ hnil => List.noConfusion hnil⟩
          rintro (ht | hm)
          · exact Or.inl (collectProcess_waited_terminated _ _ _ ht hq)
          · right
            simpa using hm

/-- What a sequence of actions can do to a collect actor. -/
theorem collectActor_exec_props :
    ∀ (acts : List (Action T)) (a b : CollectActor T), a.exec acts = some b →
      (a.process.promise ≠ .PENDING → b.process.promise = a.process.promise) ∧
      (a.process.terminated = true → b.process.terminated = true) ∧
      (a.process.terminated = true ∨ Callback.discarded ∈ a.queue →
        b.process.terminated = true ∨ Callback.discarded ∈ b.queue) ∧
      (a.process.terminated = true → List.IsSuffix b.queue a.queue) ∧
      (a.process.terminated = true → a.queue = [] → b.process.ready = a.process.ready) := by
  intro acts
  induction acts with
  | nil =>
    intro a b h
    cases h
    exact ⟨fun _ => rfl, fun ht => ht, fun hd => hd, fun _ => List.suffix_refl _,
      fun _ _ => rfl⟩
  | cons x rest ih =>
    intro a b h
    simp only [CollectActor.exec] at h
    cases hx : a.act x with
    | none => simp [hx] at h
    | some r =>
      simp only [hx] at h
      obtain ⟨s1, s2, s3, s4, s5⟩ := collectActor_act_props a r x hx
      obtain ⟨e1, e2, e3, e4, e5⟩ := ih r b h
      refine ⟨?_, fun ht => e2 (s2 ht), fun hd => e3 (s3 hd), ?_, ?_⟩
      · intro hp
        rw [e1 (by rw [s1 hp]; exact hp), s1 hp]
      · intro ht
        exact List.IsSuffix.trans (e4 (s2 ht)) (s4 ht)
      · intro ht hnil
        have hr : r.queue = [] := by
          have := s4 ht
          rw [hnil] at this
          exact List.suffix_nil.mp this
        rw [e5 (s2 ht) hr, s5 ht hnil]


/-! ## The await actor after its process has asked to terminate -/

theorem awaitProcess_waited_of_settled (p q : AwaitProcess T) (f : FutureId)
    (hp : p.promise ≠ .PENDING) (h : p.waited f = some q) : q.promise = p.promise := by
  unfold AwaitProcess.waited at h
  split at h
  · cases h
  · simp only at h
    split at h
    · cases h; exact Promise.set_of_settled hp _
    · cases h; rfl

theorem awaitProcess_waited_terminated (p q : AwaitProcess T) (f : FutureId)
    (hp : p.terminated = true) (h : p.waited f = some q) : q.terminated = true := by
  unfold AwaitProcess.waited at h
  split at h
  · cases h
  · simp only at h
    split at h
    · cases h; rfl
    · cases h; exact hp

theorem awaitActor_dispatch_process (a : AwaitActor T) (c : Callback) :
    (a.dispatch c).process = a.process := by
  unfold AwaitActor.dispatch
  split <;> rfl

theorem awaitActor_dispatch_queue_terminated (a : AwaitActor T) (c : Callback)
    (h : a.process.terminated = true) : (a.dispatch c).queue = a.queue := by
  simp [AwaitActor.dispatch, h]

theorem awaitActor_dispatch_queue_mem (a : AwaitActor T) (c d : Callback)
    (h : d ∈ a.queue) : d ∈ (a.dispatch c).queue := by
  unfold AwaitActor.dispatch
  split
  · exact h
  · exact List.mem_append_left _ h

theorem awaitActor_dispatch_queue_running (a : AwaitActor T) (c : Callback)
    (h : a.process.terminated = false) : (a.dispatch c).queue = a.queue ++ [c] := by
  simp [AwaitActor.dispatch, h]

theorem awaitActor_dispatchAll_process :
    ∀ (cs : List Callback) (a : AwaitActor T), (a.dispatchAll cs).process = a.process := by
  intro cs
  induction cs with
  | nil => intro a; rfl
  | cons c rest ih =>
    intro a
    simp only [AwaitActor.dispatchAll, List.foldl_cons] at ih ⊢
    rw [ih, awaitActor_dispatch_process]

theorem awaitActor_dispatchAll_queue_terminated :
    ∀ (cs : List Callback) (a : AwaitActor T),
      a.process.terminated = true → (a.dispatchAll cs).queue = a.queue := by
  intro cs
  induction cs with
  | nil => intro a _; rfl
  | cons c rest ih =>
    intro a h
    simp only [AwaitActor.dispatchAll, List.foldl_cons] at ih ⊢
    rw [ih _ (by rw [awaitActor_dispatch_process]; exact h),
      awaitActor_dispatch_queue_terminated a c h]

theorem awaitActor_dispatchAll_queue_mem :
    ∀ (cs : List Callback) (a : AwaitActor T) (d : Callback),
      d ∈ a.queue → d ∈ (a.dispatchAll cs).queue := by
  intro cs
  induction cs with
  | nil => intro a d h; exact h
  | cons c rest ih =>
    intro a d h
    simp only [AwaitActor.dispatchAll, List.foldl_cons] at ih ⊢
    exact ih _ d (awaitActor_dispatch_queue_mem a c d h)

/-- What one action can do to a await actor. -/
theorem awaitActor_act_props (a b : AwaitActor T) (x : Action T)
    (h : a.act x = some b) :
    (a.process.promise ≠ .PENDING → b.process.promise = a.process.promise) ∧
    (a.process.terminated = true → b.process.terminated = true) ∧
    (a.process.terminated = true ∨ Callback.discarded ∈ a.queue →
      b.process.terminated = true ∨ Callback.discarded ∈ b.queue) ∧
    (a.process.terminated = true → List.IsSuffix b.queue a.queue) ∧
    (a.process.terminated = true → a.queue = [] → b.process.ready = a.process.ready) := by
  cases x with
  | settle f o =>
    simp only [AwaitActor.act] at h
    split at h
    · cases h
      refine ⟨?_, ?_, ?_, ?_, ?_⟩
      · intro _; rw [awaitActor_dispatchAll_process]
      · intro ht; rw [awaitActor_dispatchAll_process]; exact ht
      · rintro (ht | hm)
        · left; rw [awaitActor_dispatchAll_process]; exact ht
        · right; exact awaitActor_dispatchAll_queue_mem _ _ _ hm
      · intro ht
        rw [awaitActor_dispatchAll_queue_terminated]
        exact ht
      · intro _ _; rw [awaitActor_dispatchAll_process]
    · cases h
  | discardOutput =>
    simp only [AwaitActor.act] at h
    split at h
    · rename_i hpend
      cases h
      refine ⟨?_, ?_, ?_, ?_, ?_⟩
      · intro hp
        exfalso
        cases hc : a.process.promise <;> simp [hc, FutureState.isPending] at hpend hp
      · intro ht; rw [awaitActor_dispatch_process]; exact ht
      · rintro (ht | hm)
        · left; rw [awaitActor_dispatch_process]; exact ht
        · right; exact awaitActor_dispatch_queue_mem _ _ _ hm
      · intro ht
        rw [awaitActor_dispatch_queue_terminated]
        exact ht
      · intro _ _; rw [awaitActor_dispatch_process]
    · cases h
      exact ⟨fun _ => rfl, fun ht => ht, fun hd => hd, fun _ => List.suffix_refl _,
        fun _ _ => rfl⟩
  | elapse =>
    simp only [AwaitActor.act] at h
    split at h
    · cases h
      refine ⟨?_, ?_, ?_, ?_, ?_⟩
      · intro _; rw [awaitActor_dispatch_process]
      · intro ht; rw [awaitActor_dispatch_process]; exact ht
      · rintro (ht | hm)
        · left; rw [awaitActor_dispatch_process]; exact ht
        · right; exact awaitActor_dispatch_queue_mem _ _ _ hm
      · intro ht
        rw [awaitActor_dispatch_queue_terminated]
        exact ht
      · intro _ _; rw [awaitActor_dispatch_process]
    · cases h
  | runNext =>
    cases hqueue : a.queue with
    | nil => simp [AwaitActor.act, hqueue] at h
    | cons c rest =>
      have hsuffix : List.IsSuffix rest (c :: rest) := List.suffix_cons _ _
      cases c with
      | discarded =>
        simp only [AwaitActor.act, hqueue, Option.some.injEq] at h
        subst h
        exact ⟨fun hp => Promise.discard_of_settled hp, fun _ => rfl, fun _ => Or.inl rfl,
          fun _ => hsuffix, fun _ hnil => List.noConfusion hnil⟩
      | timedout =>
        simp only [AwaitActor.act, hqueue, Option.some.injEq] at h
        subst h
        refine ⟨fun hp => Promise.fail_of_settled hp _, fun _ => rfl, fun _ => Or.inl rfl,
          ?_, fun _ hnil => List.noConfusion hnil⟩
        intro ht
        simp only [ht, if_true]
        exact hsuffix
      | waited f =>
        simp only [AwaitActor.act, hqueue] at h
        cases hq : a.process.waited f with
        | none => simp [hq] at h
        | some q =>
          simp only [hq, Option.some.injEq] at h
          subst h
          refine ⟨fun hp => awaitProcess_waited_of_settled _ _ _ hp hq,
            fun ht => awaitProcess_waited_terminated _ _ _ ht hq, ?_,
            fun _ => hsuffix, fun _ hnil => List.noConfusion hnil⟩
          rintro (ht | hm)
          · exact Or.inl (awaitProcess_waited_terminated _ _ _ ht hq)
          · right
            simpa using hm

/-- What a sequence of actions can do to a await actor. -/
theorem awaitActor_exec_props :
    ∀ (acts : List (Action T)) (a b : AwaitActor T), a.exec acts = some b →
      (a.process.promise ≠ .PENDING → b.process.promise = a.process.promise) ∧
      (a.process.terminated = true → b.process.terminated = true) ∧
      (a.process.terminated = true ∨ Callback.discarded ∈ a.queue →
        b.process.terminated = true ∨ Callback.discarded ∈ b.queue) ∧
      (a.process.terminated = true → List.IsSuffix b.queue a.queue) ∧
      (a.process.terminated = true → a.queue = [] → b.process.ready = a.process.ready) := by
  intro acts
  induction acts with
  | nil =>
    intro a b h
    cases h
    exact ⟨fun _ => rfl, fun ht => ht, fun hd => hd, fun _ => List.suffix_refl _,
      fun _ _ => rfl⟩
  | cons x rest ih =>
    intro a b h
    simp only [AwaitActor.exec] at h
    cases hx : a.act x with
    | none => simp [hx] at h
    | some r =>
      simp only [hx] at h
      obtain ⟨s1, s2, s3, s4, s5⟩ := awaitActor_act_props a r x hx
      obtain ⟨e1, e2, e3, e4, e5⟩ := ih r b h
      refine ⟨?_, fun ht => e2 (s2 ht), fun hd => e3 (s3 hd), ?_, ?_⟩
      · intro hp
        rw [e1 (by rw [s1 hp]; exact hp), s1 hp]
      · intro ht
        exact List.IsSuffix.trans (e4 (s2 ht)) (s4 ht)
      · intro ht hnil
        have hr : r.queue = [] := by
          have := s4 ht
          rw [hnil] at this
          exact List.suffix_nil.mp this
        rw [e5 (s2 ht) hr, s5 ht hnil]

/-! ## Discarding the returned future -/

theorem collectActor_discardOutput_pending (a : CollectActor T)
    (hp : a.process.promise = .PENDING) :
    ∃ a1, a.act .discardOutput = some a1 ∧ a1.process.promise = .DISCARDED ∧
      (a.process.terminated = false → a1.queue = a.queue ++ [Callback.discarded]) ∧
      (a1.process.terminated = true ∨ Callback.discarded ∈ a1.queue) := by
  refine ⟨CollectActor.dispatch
      { a with process := { a.process with promise := Future.discardCell a.process.promise } }
      Callback.discarded, ?_, ?_, ?_, ?_⟩
  · simp [CollectActor.act, hp, FutureState.isPending]
  · rw [collectActor_dispatch_process]
    simp [hp, Future.discardCell]
  · intro ht
    rw [collectActor_dispatch_queue_running]
    exact ht
  · cases ht : a.process.terminated with
    | true =>
      left
      rw [collectActor_dispatch_process]
      exact ht
    | false =>
      right
      rw [collectActor_dispatch_queue_running]
      · simp
      · exact ht

theorem awaitActor_discardOutput_pending (a : AwaitActor T)
    (hp : a.process.promise = .PENDING) :
    ∃ a1, a.act .discardOutput = some a1 ∧ a1.process.promise = .DISCARDED ∧
      (a.process.terminated = false → a1.queue = a.queue ++ [Callback.discarded]) ∧
      (a1.process.terminated = true ∨ Callback.discarded ∈ a1.queue) := by
  refine ⟨AwaitActor.dispatch
      { a with process := { a.process with promise := Future.discardCell a.process.promise } }
      Callback.discarded, ?_, ?_, ?_, ?_⟩
  · simp [AwaitActor.act, hp, FutureState.isPending]
  · rw [awaitActor_dispatch_process]
    simp [hp, Future.discardCell]
  · intro ht
    rw [awaitActor_dispatch_queue_running]
    exact ht
  · cases ht : a.process.terminated with
    | true =>
      left
      rw [awaitActor_dispatch_process]
      exact ht
    | false =>
      right
      rw [awaitActor_dispatch_queue_running]
      · simp
      · exact ht

/-! ## Accounting of callbacks in a list-await actor -/

theorem countP_settle (heap : Store T) (s : FutureId) (o : FutureState T)
    (ho : o.isPending = false) :
    ∀ (sigs : List FutureId), sigs.Nodup → s ∈ sigs → (heap s).isPending = true →
      sigs.countP (fun x => !((Function.update heap s o) x).isPending) =
        sigs.countP (fun x => !(heap x).isPending) + 1 := by
  intro sigs
  induction sigs with
  | nil => intro _ hmem; cases hmem
  | cons x rest ih =>
    intro hnodup hmem hpend
    obtain ⟨hx, hrest⟩ := List.nodup_cons.mp hnodup
    by_cases hxs : x = s
    · subst hxs
      have hsame : rest.countP (fun y => !((Function.update heap x o) y).isPending) =
          rest.countP (fun y => !(heap y).isPending) := by
        apply List.countP_congr
        intro y hy
        have hyx : y ≠ x := fun h => hx (h ▸ hy)
        simp [Function.update_noteq hyx]
      rw [List.countP_cons, List.countP_cons, hsame]
      simp [ho, hpend]
    · have hmem2 : s ∈ rest := by
        rcases List.mem_cons.mp hmem with h | h
        · exact absurd h.symm hxs
        · exact h
      rw [List.countP_cons, List.countP_cons, ih hrest hmem2 hpend]
      simp [Function.update_noteq hxs]
      omega

theorem registered_nodup (s : FutureId) :
    ∀ (sigs : List FutureId), sigs.Nodup → s ∈ sigs → registered sigs s = [Callback.waited s] := by
  intro sigs
  induction sigs with
  | nil => intro _ hmem; cases hmem
  | cons x rest ih =>
    intro hnodup hmem
    obtain ⟨hx, hrest⟩ := List.nodup_cons.mp hnodup
    by_cases hxs : x = s
    · subst hxs
      have hnone : rest.filter (fun f => f == x) = [] := by
        apply List.filter_eq_nil_iff.mpr
        intro y hy
        have hyx : y ≠ x := fun h => hx (h ▸ hy)
        simp [hyx]
      simp [registered, hnone]
    · have hmem2 : s ∈ rest := by
        rcases List.mem_cons.mp hmem with h | h
        · exact absurd h.symm hxs
        · exact h
      have := ih hrest hmem2
      simp only [registered] at this ⊢
      rw [List.filter_cons_of_neg (by simp [hxs])]
      exact this

/-- A freshly spawned list-await actor without timeout is accounted. -/
theorem awaitActor_spawn_accounted (heap : Store T) (sigs : List FutureId)
    (hne : sigs ≠ []) : AwaitActor.Accounted sigs (AwaitActor.spawn heap sigs none) := by
  refine ⟨rfl, rfl, ?_, ?_, Or.inl ⟨rfl, rfl, ?_⟩⟩
  · intro c hc
    simp only [AwaitActor.spawn, List.mem_map, List.mem_filter] at hc
    obtain ⟨s, ⟨_, hs⟩, rfl⟩ := hc
    exact ⟨s, rfl, by simpa using hs⟩
  · simp [AwaitActor.spawn, AwaitProcess.create, List.countP_eq_length_filter]
  · simp only [AwaitActor.spawn, AwaitProcess.create]
    exact List.length_pos.mpr hne

/-- Settling a pending future of the list keeps the accounting: its callback
is queued. -/
theorem awaitActor_settle_accounted (sigs : List FutureId) (a : AwaitActor T)
    (s : FutureId) (o : FutureState T) (h : AwaitActor.Accounted sigs a)
    (hnodup : sigs.Nodup) (hmem : s ∈ sigs) (hpend : (a.process.heap s).isPending = true)
    (ho : o.isPending = false) :
    ∃ b, a.act (.settle s o) = some b ∧ AwaitActor.Accounted sigs b ∧
      b.process.heap = Function.update a.process.heap s o := by
  obtain ⟨hfut, htimer, hqueue, hcount, hstate⟩ := h
  have hcount2 := countP_settle a.process.heap s o ho sigs hnodup hmem hpend
  have hle : sigs.countP (fun x => !((Function.update a.process.heap s o) x).isPending)
      ≤ sigs.length := List.countP_le_length _
  have hrun : a.process.promise = .PENDING ∧ a.process.terminated = false ∧
      a.process.ready < sigs.length := by
    rcases hstate with hs | ⟨_, _, hr⟩
    · exact hs
    · omega
  refine ⟨{ a with
      process := { a.process with heap := Function.update a.process.heap s o }
      queue := a.queue ++ [Callback.waited s] }, ?_, ?_, rfl⟩
  · simp [AwaitActor.act, hpend, ho, hfut, registered_nodup s sigs hnodup hmem,
      AwaitActor.dispatchAll, AwaitActor.dispatch, hrun.2.1]
  · refine ⟨hfut, htimer, ?_, ?_, Or.inl hrun⟩
    · intro c hc
      simp only [List.mem_append, List.mem_singleton] at hc
      rcases hc with hc | hc
      · obtain ⟨t, ht, hsettled⟩ := hqueue c hc
        refine ⟨t, ht, ?_⟩
        by_cases hts : t = s
        · subst hts
          simp [hsettled] at hpend
        · simp only [Function.update_noteq hts]
          exact hsettled
      · exact ⟨s, hc, by simp [ho]⟩
    · simp only [List.length_append, List.length_singleton]
      omega

/-- Running the next callback keeps the accounting, and it always succeeds
when the queue is not empty. -/
theorem awaitActor_runNext_accounted (sigs : List FutureId) (a : AwaitActor T)
    (h : AwaitActor.Accounted sigs a) (hsize : sigs.length < SIZE_MODULUS)
    (c : Callback) (rest : List Callback) (hq : a.queue = c :: rest) :
    ∃ b, a.act .runNext = some b ∧ AwaitActor.Accounted sigs b ∧
      b.process.heap = a.process.heap ∧ b.queue = rest := by
  obtain ⟨hfut, htimer, hqueue, hcount, hstate⟩ := h
  obtain ⟨s, hc, hsettled⟩ := hqueue c (by rw [hq]; exact List.mem_cons_self _ _)
  subst hc
  have hf : a.process.heap s ≠ .PENDING := by
    intro hc
    simp [hc, FutureState.isPending] at hsettled
  have hle : sigs.countP (fun x => !(a.process.heap x).isPending) ≤ sigs.length :=
    List.countP_le_length _
  rw [hq, List.length_cons] at hcount
  have hmod : (a.process.ready + 1) % SIZE_MODULUS = a.process.ready + 1 :=
    Nat.mod_eq_of_lt (by omega)
  have hrun : a.process.promise = .PENDING ∧ a.process.terminated = false ∧
      a.process.ready < sigs.length := by
    rcases hstate with hs | ⟨_, _, hr⟩
    · exact hs
    · omega
  have hrest : ∀ d ∈ rest, ∃ t, d = Callback.waited t ∧ (a.process.heap t).isPending = false :=
    fun d hd => hqueue d (by rw [hq]; exact List.mem_cons_of_mem _ hd)
  have hw := awaitProcess_waited_settled a.process s hf
  rw [hmod] at hw
  by_cases hlast : a.process.ready + 1 = sigs.length
  · rw [if_pos (by rw [hfut]; exact hlast)] at hw
    refine ⟨{ a with
        process := { a.process with
          ready := a.process.ready + 1
          promise := Promise.set a.process.promise a.process.futures
          terminated := true }
        queue := rest }, ?_, ?_, rfl, rfl⟩
    · simp only [AwaitActor.act, hq, hw]
    · refine ⟨hfut, htimer, hrest, ?_, Or.inr ⟨?_, rfl, hlast⟩⟩
      · simp only
        omega
      · simp only [hrun.1, hfut, Promise.set]
  · rw [if_neg (by rw [hfut]; exact hlast)] at hw
    refine ⟨{ a with
        process := { a.process with ready := a.process.ready + 1 }
        queue := rest }, ?_, ?_, rfl, rfl⟩
    · simp only [AwaitActor.act, hq, hw]
    · refine ⟨hfut, htimer, hrest, ?_, Or.inl ⟨hrun.1, hrun.2.1, ?_⟩⟩
      · simp only
        omega
      · simp only
        omega

/-- An accounted actor has no timer to fire. -/
theorem awaitActor_elapse_accounted (sigs : List FutureId) (a : AwaitActor T)
    (h : AwaitActor.Accounted sigs a) : a.act .elapse = none := by
  simp [AwaitActor.act, h.2.1]

/-- The queue of an accounted actor can always be run to the end. -/
theorem awaitActor_drain_accounted (sigs : List FutureId)
    (hsize : sigs.length < SIZE_MODULUS) :
    ∀ (n : Nat) (a : AwaitActor T), AwaitActor.Accounted sigs a → a.queue.length = n →
      ∃ b, a.exec (List.replicate n Action.runNext) = some b ∧
        AwaitActor.Accounted sigs b ∧ b.process.heap = a.process.heap ∧ b.queue = [] := by
  intro n
  induction n with
  | zero =>
    intro a h hn
    exact ⟨a, rfl, h, rfl, List.eq_nil_of_length_eq_zero hn⟩
  | succ n ih =>
    intro a h hn
    cases hq : a.queue with
    | nil => rw [hq] at hn; cases hn
    | cons c rest =>
      obtain ⟨b, hact, hb, hheap, hrest⟩ :=
        awaitActor_runNext_accounted sigs a h hsize c rest hq
      have hlen : b.queue.length = n := by
        rw [hrest]
        rw [hq, List.length_cons] at hn
        omega
      obtain ⟨d, hexec, hd, hheap2, hnil⟩ := ih b hb hlen
      refine ⟨d, ?_, hd, by rw [hheap2, hheap], hnil⟩
      simp only [List.replicate_succ, AwaitActor.exec, hact]
      exact hexec

/-- In an accounted actor a READY output holds the list, every future of the
list has settled, and nothing is queued. -/
theorem awaitActor_ready_accounted (sigs : List FutureId) (a : AwaitActor T)
    (h : AwaitActor.Accounted sigs a) (r : List FutureId)
    (hr : a.process.promise = .READY r) :
    r = sigs ∧ (∀ s ∈ sigs, (a.process.heap s).isPending = false) ∧ a.queue = [] := by
  obtain ⟨_, _, _, hcount, hstate⟩ := h
  have hle : sigs.countP (fun x => !(a.process.heap x).isPending) ≤ sigs.length :=
    List.countP_le_length _
  rcases hstate with ⟨hp, _, _⟩ | ⟨hp, _, hready⟩
  · rw [hp] at hr
    exact FutureState.noConfusion hr
  · rw [hp] at hr
    cases hr
    have hall : sigs.countP (fun x => !(a.process.heap x).isPending) = sigs.length := by
      omega
    refine ⟨rfl, ?_, ?_⟩
    · intro s hs
      have := List.countP_eq_length.mp hall s hs
      simpa using this
    · apply List.eq_nil_of_length_eq_zero
      omega

/-- In an accounted actor the output is PENDING or READY with the list; it is
READY once every future of the list has settled and the queue is empty. -/
theorem awaitActor_output_accounted (sigs : List FutureId) (a : AwaitActor T)
    (h : AwaitActor.Accounted sigs a) :
    (a.process.promise = .PENDING ∨ a.process.promise = .READY sigs) ∧
    ((∀ s ∈ sigs, (a.process.heap s).isPending = false) → a.queue = [] →
      a.process.promise = .READY sigs) := by
  obtain ⟨_, _, _, hcount, hstate⟩ := h
  constructor
  · rcases hstate with ⟨hp, _, _⟩ | ⟨hp, _, _⟩
    · exact Or.inl hp
    · exact Or.inr hp
  · intro hall hnil
    have hfull : sigs.countP (fun x => !(a.process.heap x).isPending) = sigs.length := by
      apply List.countP_eq_length.mpr
      intro s hs
      simp [hall s hs]
    rw [hnil, List.length_nil] at hcount
    rcases hstate with ⟨_, _, hlt⟩ | ⟨hp, _, _⟩
    · omega
    · exact hp

/-! ## The pair wrapper -/

theorem awaitActor_setSignal_pending (sigs : List FutureId) (a : AwaitActor Nothing)
    (s : FutureId) (h : AwaitActor.Accounted sigs a) (hnodup : sigs.Nodup) (hmem : s ∈ sigs)
    (hpend : (a.process.heap s).isPending = true) :
    AwaitActor.Accounted sigs (a.setSignal s) ∧
      (a.setSignal s).process.heap = Function.update a.process.heap s (.READY ()) := by
  obtain ⟨b, hact, hb, hheap⟩ :=
    awaitActor_settle_accounted sigs a s (.READY ()) h hnodup hmem hpend rfl
  simp only [AwaitActor.setSignal, hact]
  exact ⟨hb, hheap⟩

theorem attachSignal_apply (heap : Store T) (future : FutureId) (signals : Store Nothing)
    (signal s : FutureId) :
    attachSignal heap future signals signal s =
      if s = signal ∧ (heap future).isPending = false then Promise.set (signals s) ()
      else signals s := by
  unfold attachSignal
  by_cases hp : (heap future).isPending = true
  · simp [hp]
  · by_cases hs : s = signal
    · subst hs
      simp [hp]
    · simp [hp, hs, Function.update_noteq hs]

theorem awaitPair_linked (heap : Store T) (f1 f2 : FutureId) :
    (awaitPair heap f1 f2 none).Linked := by
  refine ⟨awaitActor_spawn_accounted _ _ (by simp), ?_, ?_, ?_⟩
  · simp only [awaitPair, AwaitActor.spawn, AwaitProcess.create, attachSignal_apply]
    cases h : (heap f1).isPending <;> simp [h, freshSignals, Promise.set, FutureState.isPending]
  · simp only [awaitPair, AwaitActor.spawn, AwaitProcess.create, attachSignal_apply]
    cases h : (heap f2).isPending <;> simp [h, freshSignals, Promise.set, FutureState.isPending]
  · intro s
    simp only [awaitPair, AwaitActor.spawn, AwaitProcess.create, attachSignal_apply]
    split
    · split
      · right; simp [freshSignals, Promise.set]
      · right; simp [freshSignals, Promise.set]
    · split
      · right; simp [freshSignals, Promise.set]
      · left; rfl

theorem awaitPair_step_linked (w v : AwaitPair T) (s : WrapperStep T) (h : w.Linked)
    (hstep : w.step s = some v) :
    v.Linked ∧ v.future1 = w.future1 ∧ v.future2 = w.future2 ∧
      (∀ g, w.heap g ≠ .PENDING → v.heap g = w.heap g) := by
  obtain ⟨hacc, h0, h1, hsig⟩ := h
  cases s with
  | settle f o =>
    simp only [AwaitPair.step] at hstep
    split at hstep
    · rename_i hcond
      cases hstep
      simp only [Bool.and_eq_true, Bool.not_eq_true'] at hcond
      obtain ⟨hpend, ho⟩ := hcond
      have key1 : ∃ l1, (if f = w.future1 then w.list.setSignal 0 else w.list) = l1 ∧
          AwaitActor.Accounted [0, 1] l1 ∧
          l1.process.heap 1 = w.list.process.heap 1 ∧
          (l1.process.heap 0).isPending = (Function.update w.heap f o w.future1).isPending ∧
          (∀ s, l1.process.heap s = .PENDING ∨ l1.process.heap s = .READY ()) := by
        by_cases hf1 : f = w.future1
        · have hp0 : (w.list.process.heap 0).isPending = true := by rw [h0, ← hf1]; exact hpend
          obtain ⟨hacc1, hheap1⟩ :=
            awaitActor_setSignal_pending [0, 1] w.list 0 hacc (by decide) (by simp) hp0
          refine ⟨w.list.setSignal 0, by simp [hf1], hacc1, ?_, ?_, ?_⟩
          · rw [hheap1]; simp
          · rw [hheap1, ← hf1]
            simp only [Function.update_same, ho]
            rfl
          · intro s
            rw [hheap1]
            by_cases hs : s = 0
            · subst hs; right; simp
            · rw [Function.update_noteq hs]; exact hsig s
        · refine ⟨w.list, by simp [hf1], hacc, rfl, ?_, hsig⟩
          rw [Function.update_noteq (Ne.symm hf1)]
          exact h0
      obtain ⟨l1, hl1, hacc1, hkeep1, hp1, hsig1⟩ := key1
      have key2 : ∃ l2, (if f = w.future2 then l1.setSignal 1 else l1) = l2 ∧
          AwaitActor.Accounted [0, 1] l2 ∧
          l2.process.heap 0 = l1.process.heap 0 ∧
          (l2.process.heap 1).isPending = (Function.update w.heap f o w.future2).isPending ∧
          (∀ s, l2.process.heap s = .PENDING ∨ l2.process.heap s = .READY ()) := by
        by_cases hf2 : f = w.future2
        · have hq1 : (l1.process.heap 1).isPending = true := by
            rw [hkeep1, h1, ← hf2]; exact hpend
          obtain ⟨hacc2, hheap2⟩ :=
            awaitActor_setSignal_pending [0, 1] l1 1 hacc1 (by decide) (by simp) hq1
          refine ⟨l1.setSignal 1, by simp [hf2], hacc2, ?_, ?_, ?_⟩
          · rw [hheap2]; simp
          · rw [hheap2, ← hf2]
            simp only [Function.update_same, ho]
            rfl
          · intro s
            rw [hheap2]
            by_cases hs : s = 1
            · subst hs; right; simp
            · rw [Function.update_noteq hs]; exact hsig1 s
        · refine ⟨l1, by simp [hf2], hacc1, rfl, ?_, hsig1⟩
          rw [Function.update_noteq (Ne.symm hf2), hkeep1]
          exact h1
      obtain ⟨l2, hl2, hacc2, hkeep2, hp2, hsig2⟩ := key2
      simp only [hl1, hl2]
      refine ⟨⟨hacc2, ?_, hp2, hsig2⟩, trivial, trivial, ?_⟩
      · simp only
        rw [hkeep2]
        exact hp1
      · intro g hg
        have hgf : g ≠ f := by
          intro hgf
          subst hgf
          apply hg
          cases hc : w.heap g <;> simp [hc, FutureState.isPending] at hpend ⊢
        simp [Function.update_noteq hgf]
    · cases hstep
  | elapse =>
    simp [AwaitPair.step, awaitActor_elapse_accounted _ _ hacc] at hstep
  | runNext =>
    simp only [AwaitPair.step] at hstep
    cases hq : w.list.queue with
    | nil => simp [AwaitActor.act, hq] at hstep
    | cons c rest =>
      obtain ⟨b, hact, hb, hheap, _⟩ :=
        awaitActor_runNext_accounted [0, 1] w.list hacc (by decide) c rest hq
      simp only [hact, Option.some.injEq] at hstep
      subst hstep
      refine ⟨⟨hb, ?_, ?_, ?_⟩, rfl, rfl, fun _ _ => rfl⟩
      · simp only [hheap]; exact h0
      · simp only [hheap]; exact h1
      · intro s; simp only [hheap]; exact hsig s

theorem awaitPair_exec_linked :
    ∀ (trace : List (WrapperStep T)) (w v : AwaitPair T), w.Linked → w.exec trace = some v →
      v.Linked ∧ v.future1 = w.future1 ∧ v.future2 = w.future2 ∧
        (∀ g, w.heap g ≠ .PENDING → v.heap g = w.heap g) := by
  intro trace
  induction trace with
  | nil =>
    intro w v h hexec
    cases hexec
    exact ⟨h, rfl, rfl, fun _ _ => rfl⟩
  | cons s rest ih =>
    intro w v h hexec
    simp only [AwaitPair.exec] at hexec
    cases hs : w.step s with
    | none => simp [hs] at hexec
    | some u =>
      simp only [hs] at hexec
      obtain ⟨hu, hu1, hu2, hukeep⟩ := awaitPair_step_linked w u s h hs
      obtain ⟨hv, hv1, hv2, hvkeep⟩ := ih u v hu hexec
      refine ⟨hv, by rw [hv1, hu1], by rw [hv2, hu2], ?_⟩
      intro g hg
      rw [hvkeep g (by rw [hukeep g hg]; exact hg), hukeep g hg]

/-- From a linked state the queued callbacks can all be run; the originals
are untouched, and if both have settled the output is then READY with the
pair. -/
theorem awaitPair_drain_linked (w : AwaitPair T) (h : w.Linked) :
    ∃ v, w.exec (List.replicate w.list.queue.length WrapperStep.runNext) = some v ∧
      v.heap = w.heap ∧ v.list.queue = [] ∧
      (w.heap w.future1 ≠ .PENDING → w.heap w.future2 ≠ .PENDING →
        v.output = .READY (w.future1, w.future2)) := by
  obtain ⟨hacc, h0, h1, hsig⟩ := h
  obtain ⟨b, hexec, hb, hheap, hnil⟩ :=
    awaitActor_drain_accounted [0, 1] (by decide) w.list.queue.length w.list hacc rfl
  have hlift : ∀ (n : Nat) (u : AwaitPair T) (c : AwaitActor Nothing),
      u.list.exec (List.replicate n Action.runNext) = some c →
      u.exec (List.replicate n WrapperStep.runNext) = some { u with list := c } := by
    intro n
    induction n with
    | zero =>
      intro u c hc
      simp only [List.replicate_zero, AwaitActor.exec, Option.some.injEq] at hc
      subst hc
      rfl
    | succ n ih =>
      intro u c hc
      simp only [List.replicate_succ, AwaitActor.exec] at hc
      cases hact : u.list.act Action.runNext with
      | none => simp [hact] at hc
      | some d =>
        simp only [hact] at hc
        simp only [List.replicate_succ, AwaitPair.exec, AwaitPair.step, hact]
        exact ih { u with list := d } c hc
  refine ⟨{ w with list := b }, hlift _ w b hexec, rfl, hnil, ?_⟩
  intro hs1 hs2
  have hall : ∀ s ∈ [0, 1], (b.process.heap s).isPending = false := by
    intro s hs
    rw [hheap]
    simp only [List.mem_cons, List.mem_singleton, List.not_mem_nil, or_false] at hs
    rcases hs with rfl | rfl
    · rw [h0]
      cases hc : w.heap w.future1 <;> first | rfl | exact absurd hc hs1
    · rw [h1]
      cases hc : w.heap w.future2 <;> first | rfl | exact absurd hc hs2
  have := (awaitActor_output_accounted [0, 1] b hb).2 hall hnil
  simp only [AwaitPair.output, this, Future.thenCell]

/-- C11: `await(f1, f2)` keeps the positions.  In every state `w` that the
pair wrapper (without timeout) reaches by any sequence of steps, hence for
every order in which `f1` and `f2` settle and their callbacks run: if the
output is READY, its value is the tuple `(f1, f2)`, first argument first, and
both originals have settled; the output is otherwise PENDING.  Moreover the
callbacks queued in `w` can always be run, which leaves the originals, and so
their outcomes, as they are, and once both originals have settled this makes
the output READY with `(f1, f2)`. -/
theorem await_pair_positional (heap : Store T) (f1 f2 : FutureId)
    (trace : List (WrapperStep T)) (w : AwaitPair T)
    (hrun : (awaitPair heap f1 f2 none).exec trace = some w) :
    (∀ r, w.output = .READY r →
      r = (f1, f2) ∧ w.heap f1 ≠ .PENDING ∧ w.heap f2 ≠ .PENDING) ∧
    (w.output = .PENDING ∨ w.output = .READY (f1, f2)) ∧
    (∃ v, w.exec (List.replicate w.list.queue.length WrapperStep.runNext) = some v ∧
      v.heap = w.heap ∧
      (w.heap f1 ≠ .PENDING → w.heap f2 ≠ .PENDING → v.output = .READY (f1, f2))) := by
  obtain ⟨hlinked, hf1, hf2, _⟩ :=
    awaitPair_exec_linked trace _ w (awaitPair_linked heap f1 f2) hrun
  have hf1 : w.future1 = f1 := hf1
  have hf2 : w.future2 = f2 := hf2
  have hout := (awaitActor_output_accounted [0, 1] w.list hlinked.1).1
  have hcases : w.output = .PENDING ∨ w.output = .READY (f1, f2) := by
    rcases hout with hp | hp
    · left; simp only [AwaitPair.output, hp, Future.thenCell]
    · right; simp only [AwaitPair.output, hp, Future.thenCell, hf1, hf2]
  refine ⟨?_, hcases, ?_⟩
  · intro r hr
    rcases hout with hp | hp
    · simp [AwaitPair.output, hp, Future.thenCell] at hr
    · obtain ⟨_, hall, _⟩ := awaitActor_ready_accounted [0, 1] w.list hlinked.1 _ hp
      have h0 := hall 0 (by simp)
      have h1 := hall 1 (by simp)
      rw [hlinked.2.1, hf1] at h0
      rw [hlinked.2.2.1, hf2] at h1
      simp only [AwaitPair.output, hp, Future.thenCell, FutureState.READY.injEq, hf1, hf2] at hr
      refine ⟨hr.symm, ?_, ?_⟩
      · intro hc
        simp [hc, FutureState.isPending] at h0
      · intro hc
        simp [hc, FutureState.isPending] at h1
  · obtain ⟨v, hexec, hheap, _, hready⟩ := awaitPair_drain_linked w hlinked
    rw [hf1, hf2] at hready
    exact ⟨v, hexec, hheap, hready⟩

/-- Witness of C11: `f2` (handle 6) fails and its callback runs strictly
before `f1` (handle 5) becomes ready. -/
theorem await_pair_positional_witness :
    ∃ w, (awaitPair pendingHeap 5 6 none).exec
        [.settle 6 (.FAILED "x"), .runNext, .settle 5 (.READY 3), .runNext] = some w ∧
      (∀ r, w.output = .READY r →
        r = (5, 6) ∧ w.heap 5 ≠ .PENDING ∧ w.heap 6 ≠ .PENDING) ∧
      (w.output = .PENDING ∨ w.output = .READY (5, 6)) ∧
      (∃ v, w.exec (List.replicate w.list.queue.length WrapperStep.runNext) = some v ∧
        v.heap = w.heap ∧
        (w.heap 5 ≠ .PENDING → w.heap 6 ≠ .PENDING → v.output = .READY (5, 6))) :=
  ⟨_, rfl, await_pair_positional pendingHeap 5 6
    [.settle 6 (.FAILED "x"), .runNext, .settle 5 (.READY 3), .runNext] _ rfl⟩

/-! ## The single wrapper -/

theorem awaitFuture_linked (heap : Store T) (f : FutureId) :
    (awaitFuture heap f none).Linked := by
  refine ⟨awaitActor_spawn_accounted _ _ (by simp), ?_, ?_⟩
  · simp only [awaitFuture, AwaitActor.spawn, AwaitProcess.create, attachSignal_apply]
    cases h : (heap f).isPending <;> simp [h, freshSignals, Promise.set, FutureState.isPending]
  · intro s
    simp only [awaitFuture, AwaitActor.spawn, AwaitProcess.create, attachSignal_apply]
    split
    · right; simp [freshSignals, Promise.set]
    · left; rfl

theorem awaitFuture_step_linked (w v : AwaitFuture T) (s : WrapperStep T) (h : w.Linked)
    (hstep : w.step s = some v) :
    v.Linked ∧ v.future = w.future ∧ (∀ g, w.heap g ≠ .PENDING → v.heap g = w.heap g) := by
  obtain ⟨hacc, h0, hsig⟩ := h
  cases s with
  | settle f o =>
    simp only [AwaitFuture.step] at hstep
    split at hstep
    · rename_i hcond
      cases hstep
      simp only [Bool.and_eq_true, Bool.not_eq_true'] at hcond
      obtain ⟨hpend, ho⟩ := hcond
      have key1 : ∃ l1, (if f = w.future then w.list.setSignal 0 else w.list) = l1 ∧
          AwaitActor.Accounted [0] l1 ∧
          (l1.process.heap 0).isPending = (Function.update w.heap f o w.future).isPending ∧
          (∀ s, l1.process.heap s = .PENDING ∨ l1.process.heap s = .READY ()) := by
        by_cases hf1 : f = w.future
        · have hp0 : (w.list.process.heap 0).isPending = true := by rw [h0, ← hf1]; exact hpend
          obtain ⟨hacc1, hheap1⟩ :=
            awaitActor_setSignal_pending [0] w.list 0 hacc (by decide) (by simp) hp0
          refine ⟨w.list.setSignal 0, by simp [hf1], hacc1, ?_, ?_⟩
          · rw [hheap1, ← hf1]
            simp only [Function.update_same, ho]
            rfl
          · intro s
            rw [hheap1]
            by_cases hs : s = 0
            · subst hs; right; simp
            · rw [Function.update_noteq hs]; exact hsig s
        · refine ⟨w.list, by simp [hf1], hacc, ?_, hsig⟩
          rw [Function.update_noteq (Ne.symm hf1)]
          exact h0
      obtain ⟨l1, hl1, hacc1, hp1, hsig1⟩ := key1
      simp only [hl1]
      refine ⟨⟨hacc1, hp1, hsig1⟩, trivial, ?_⟩
      intro g hg
      have hgf : g ≠ f := by
        intro hgf
        subst hgf
        apply hg
        cases hc : w.heap g <;> simp [hc, FutureState.isPending] at hpend ⊢
      simp [Function.update_noteq hgf]
    · cases hstep
  | elapse =>
    simp [AwaitFuture.step, awaitActor_elapse_accounted _ _ hacc] at hstep
  | runNext =>
    simp only [AwaitFuture.step] at hstep
    cases hq : w.list.queue with
    | nil => simp [AwaitActor.act, hq] at hstep
    | cons c rest =>
      obtain ⟨b, hact, hb, hheap, _⟩ :=
        awaitActor_runNext_accounted [0] w.list hacc (by decide) c rest hq
      simp only [hact, Option.some.injEq] at hstep
      subst hstep
      refine ⟨⟨hb, ?_, ?_⟩, rfl, fun _ _ => rfl⟩
      · simp only [hheap]; exact h0
      · intro s; simp only [hheap]; exact hsig s

theorem awaitFuture_exec_linked :
    ∀ (trace : List (WrapperStep T)) (w v : AwaitFuture T), w.Linked → w.exec trace = some v →
      v.Linked ∧ v.future = w.future ∧ (∀ g, w.heap g ≠ .PENDING → v.heap g = w.heap g) := by
  intro trace
  induction trace with
  | nil =>
    intro w v h hexec
    cases hexec
    exact ⟨h, rfl, fun _ _ => rfl⟩
  | cons s rest ih =>
    intro w v h hexec
    simp only [AwaitFuture.exec] at hexec
    cases hs : w.step s with
    | none => simp [hs] at hexec
    | some u =>
      simp only [hs] at hexec
      obtain ⟨hu, hu1, hukeep⟩ := awaitFuture_step_linked w u s h hs
      obtain ⟨hv, hv1, hvkeep⟩ := ih u v hu hexec
      refine ⟨hv, by rw [hv1, hu1], ?_⟩
      intro g hg
      rw [hvkeep g (by rw [hukeep g hg]; exact hg), hukeep g hg]

/-- From a linked state the queued callbacks can all be run; the original is
untouched, and if it has settled the output is then READY with it. -/
theorem awaitFuture_drain_linked (w : AwaitFuture T) (h : w.Linked) :
    ∃ v, w.exec (List.replicate w.list.queue.length WrapperStep.runNext) = some v ∧
      v.heap = w.heap ∧ v.list.queue = [] ∧
      (w.heap w.future ≠ .PENDING → v.output = .READY w.future) := by
  obtain ⟨hacc, h0, hsig⟩ := h
  obtain ⟨b, hexec, hb, hheap, hnil⟩ :=
    awaitActor_drain_accounted [0] (by decide) w.list.queue.length w.list hacc rfl
  have hlift : ∀ (n : Nat) (u : AwaitFuture T) (c : AwaitActor Nothing),
      u.list.exec (List.replicate n Action.runNext) = some c →
      u.exec (List.replicate n WrapperStep.runNext) = some { u with list := c } := by
    intro n
    induction n with
    | zero =>
      intro u c hc
      simp only [List.replicate_zero, AwaitActor.exec, Option.some.injEq] at hc
      subst hc
      rfl
    | succ n ih =>
      intro u c hc
      simp only [List.replicate_succ, AwaitActor.exec] at hc
      cases hact : u.list.act Action.runNext with
      | none => simp [hact] at hc
      | some d =>
        simp only [hact] at hc
        simp only [List.replicate_succ, AwaitFuture.exec, AwaitFuture.step, hact]
        exact ih { u with list := d } c hc
  refine ⟨{ w with list := b }, hlift _ w b hexec, rfl, hnil, ?_⟩
  intro hs1
  have hall : ∀ s ∈ [0], (b.process.heap s).isPending = false := by
    intro s hs
    rw [hheap]
    simp only [List.mem_singleton] at hs
    subst hs
    rw [h0]
    cases hc : w.heap w.future <;> first | rfl | exact absurd hc hs1
  have := (awaitActor_output_accounted [0] b hb).2 hall hnil
  simp only [AwaitFuture.output, this, Future.thenCell]

/-- C12: `await(f)` resolves READY with `f` whatever the outcome of `f`.  In
every state `w` that the single wrapper (without timeout) reaches by any
sequence of steps, the output is PENDING or READY with the handle `f`, so it
is never FAILED and never DISCARDED, and it is READY only if `f` has settled;
as soon as `f` has settled, in whatever state, the signal promise is READY;
and the queued callbacks can always be run, which leaves `f` with its outcome
and, once `f` has settled, makes the output READY with `f`.  In particular if
`f` is PENDING in `w` and its owner settles it with any outcome `o`, READY,
FAILED or DISCARDED, the wrapper then resolves READY with `f`, and `f` holds
`o`. -/
theorem await_future_ready (heap : Store T) (f : FutureId)
    (trace : List (WrapperStep T)) (w : AwaitFuture T)
    (hrun : (awaitFuture heap f none).exec trace = some w) :
    (w.output = .PENDING ∨ w.output = .READY f) ∧
    (w.output = .READY f → w.heap f ≠ .PENDING) ∧
    (w.heap f ≠ .PENDING → w.list.process.heap 0 = .READY ()) ∧
    (∃ v, w.exec (List.replicate w.list.queue.length WrapperStep.runNext) = some v ∧
      v.heap = w.heap ∧ (w.heap f ≠ .PENDING → v.output = .READY f)) ∧
    (∀ o : FutureState T, w.heap f = .PENDING → o ≠ .PENDING →
      ∃ u v, w.step (.settle f o) = some u ∧
        u.exec (List.replicate u.list.queue.length WrapperStep.runNext) = some v ∧
        v.heap f = o ∧ v.output = .READY f ∧ v.list.process.heap 0 = .READY ()) := by
  obtain ⟨hlinked, hf, _⟩ :=
    awaitFuture_exec_linked trace _ w (awaitFuture_linked heap f) hrun
  have hf : w.future = f := hf
  have hout := (awaitActor_output_accounted [0] w.list hlinked.1).1
  refine ⟨?_, ?_, ?_, ?_, ?_⟩
  · rcases hout with hp | hp
    · left; simp only [AwaitFuture.output, hp, Future.thenCell]
    · right; simp only [AwaitFuture.output, hp, Future.thenCell, hf]
  · intro hr
    rcases hout with hp | hp
    · simp [AwaitFuture.output, hp, Future.thenCell] at hr
    · obtain ⟨_, hall, _⟩ := awaitActor_ready_accounted [0] w.list hlinked.1 _ hp
      have h0 := hall 0 (by simp)
      rw [hlinked.2.1, hf] at h0
      intro hc
      simp [hc, FutureState.isPending] at h0
  · intro hs
    have h0 := hlinked.2.1
    rw [hf] at h0
    rcases hlinked.2.2 0 with hsig | hsig
    · rw [hsig] at h0
      cases hc : w.heap f <;> first | exact absurd hc hs | simp [hc, FutureState.isPending] at h0
    · exact hsig
  · obtain ⟨v, hexec, hheap, _, hready⟩ := awaitFuture_drain_linked w hlinked
    rw [hf] at hready
    exact ⟨v, hexec, hheap, hready⟩
  · intro o hpend ho
    subst hf
    have hop : o.isPending = false := by
      cases o <;> first | rfl | exact absurd rfl ho
    have hstep : w.step (.settle w.future o) =
        some { w with
          heap := Function.update w.heap w.future o
          list := if w.future = w.future then w.list.setSignal 0 else w.list } := by
      simp [AwaitFuture.step, hpend, hop, FutureState.isPending]
    obtain ⟨hu, _, _⟩ := awaitFuture_step_linked w _ _ hlinked hstep
    obtain ⟨v, hexec, hheap, _, hready⟩ := awaitFuture_drain_linked _ hu
    have huf : Function.update w.heap w.future o w.future = o := Function.update_same _ _ _
    have hheap2 : v.heap = Function.update w.heap w.future o := hheap
    refine ⟨_, v, hstep, hexec, ?_, ?_, ?_⟩
    · rw [hheap2]; exact huf
    · exact hready (by
        show Function.update w.heap w.future o w.future ≠ FutureState.PENDING
        rw [huf]; exact ho)
    · obtain ⟨hvl, hvf, _⟩ := awaitFuture_exec_linked _ _ v hu hexec
      have hvf2 : v.future = w.future := hvf
      have h0 := hvl.2.1
      rw [hvf2, hheap2, huf, hop] at h0
      rcases hvl.2.2 0 with hsig | hsig
      · rw [hsig] at h0
        simp [FutureState.isPending] at h0
      · exact hsig

/-- Witness of C12: the original, handle 4, is PENDING at the call and is then
DISCARDED by its owner. -/
theorem await_future_ready_witness :
    ∃ w, (awaitFuture pendingHeap 4 none).exec [.settle 4 .DISCARDED, .runNext] = some w ∧
      (w.output = .PENDING ∨ w.output = .READY 4) ∧
      (w.output = .READY 4 → w.heap 4 ≠ .PENDING) ∧
      (w.heap 4 ≠ .PENDING → w.list.process.heap 0 = .READY ()) ∧
      (∃ v, w.exec (List.replicate w.list.queue.length WrapperStep.runNext) = some v ∧
        v.heap = w.heap ∧ (w.heap 4 ≠ .PENDING → v.output = .READY 4)) ∧
      (∀ o : FutureState Nat, w.heap 4 = .PENDING → o ≠ .PENDING →
        ∃ u v, w.step (.settle 4 o) = some u ∧
          u.exec (List.replicate u.list.queue.length WrapperStep.runNext) = some v ∧
          v.heap 4 = o ∧ v.output = .READY 4 ∧ v.list.process.heap 0 = .READY ()) :=
  ⟨_, rfl, await_future_ready pendingHeap 4 [.settle 4 .DISCARDED, .runNext] _ rfl⟩

/-! ## Frame of the `discarded` handler and of the wrappers -/

/-- C13: the `discarded` handler of collect changes only the output promise
and the lifecycle.  After the handler every input future has the state it had
before, and the list, the timeout and the counter are the same; the promise
has been discarded and the process has asked to terminate.  The same holds
for the caller's `discard()` followed by the handler.  On `mixedCollect` the
pending input 1 is thus still PENDING after `discarded`, whereas `timedout`
turns it DISCARDED. -/
theorem collect_discarded_keeps_inputs (p : CollectProcess T) :
    ((∀ f, p.discarded.heap f = p.heap f) ∧ p.discarded.futures = p.futures ∧
      p.discarded.timeout = p.timeout ∧ p.discarded.ready = p.ready ∧
      p.discarded.promise = Promise.discard p.promise ∧ p.discarded.terminated = true) ∧
    (∃ q, p.run [.discardOutput, .discarded] = some q ∧ (∀ f, q.heap f = p.heap f) ∧
      q.promise ≠ .PENDING ∧ q.terminated = true) ∧
    (mixedCollect.heap 1 = .PENDING ∧ mixedCollect.discarded.heap 1 = .PENDING ∧
      mixedCollect.timedout.heap 1 = .DISCARDED) := by
  refine ⟨⟨fun _ => rfl, rfl, rfl, rfl, rfl, rfl⟩, ?_, ⟨rfl, rfl, rfl⟩⟩
  refine ⟨{ p with promise := Promise.discard (Future.discardCell p.promise),
                   terminated := true }, rfl, fun _ => rfl, ?_, rfl⟩
  cases hp : p.promise <;> simp [Promise.discard, Future.discardCell]

/-- An original future is changed by no step of the single wrapper but its
own settlement. -/
theorem awaitFuture_step_frame (w v : AwaitFuture T) (s : WrapperStep T) (g : FutureId)
    (hstep : w.step s = some v) (hg : v.heap g ≠ w.heap g) :
    w.heap g = .PENDING ∧ s = .settle g (v.heap g) := by
  cases s with
  | settle f o =>
    simp only [AwaitFuture.step] at hstep
    split at hstep
    · rename_i hcond
      cases hstep
      simp only [Bool.and_eq_true] at hcond
      by_cases hgf : g = f
      · subst hgf
        refine ⟨?_, by simp⟩
        cases hc : w.heap g <;> simp [hc, FutureState.isPending] at hcond ⊢
      · exact absurd (by simp [Function.update_noteq hgf]) hg
    · cases hstep
  | elapse =>
    simp only [AwaitFuture.step] at hstep
    split at hstep
    · cases hstep; exact absurd rfl hg
    · cases hstep
  | runNext =>
    simp only [AwaitFuture.step] at hstep
    split at hstep
    · cases hstep; exact absurd rfl hg
    · cases hstep

/-- An original future is changed by no step of the pair wrapper but its own
settlement. -/
theorem awaitPair_step_frame (w v : AwaitPair T) (s : WrapperStep T) (g : FutureId)
    (hstep : w.step s = some v) (hg : v.heap g ≠ w.heap g) :
    w.heap g = .PENDING ∧ s = .settle g (v.heap g) := by
  cases s with
  | settle f o =>
    simp only [AwaitPair.step] at hstep
    split at hstep
    · rename_i hcond
      cases hstep
      simp only [Bool.and_eq_true] at hcond
      by_cases hgf : g = f
      · subst hgf
        refine ⟨?_, by simp⟩
        cases hc : w.heap g <;> simp [hc, FutureState.isPending] at hcond ⊢
      · exact absurd (by simp [Function.update_noteq hgf]) hg
    · cases hstep
  | elapse =>
    simp only [AwaitPair.step] at hstep
    split at hstep
    · cases hstep; exact absurd rfl hg
    · cases hstep
  | runNext =>
    simp only [AwaitPair.step] at hstep
    split at hstep
    · cases hstep; exact absurd rfl hg
    · cases hstep

theorem awaitFuture_timeout_run (heap : Store T) (f : FutureId) (t : Timeout)
    (hf : heap f = .PENDING) :
    ((awaitFuture heap f (some t)).exec [.elapse, .runNext]).map
        (fun w => (w.output, w.list.process.heap 0, w.list.process.terminated)) =
      some (.FAILED "Collect failed: timed out", .DISCARDED, true) ∧
    ∀ w, (awaitFuture heap f (some t)).exec [.elapse, .runNext] = some w → w.heap = heap := by
  have hsig : attachSignal heap f freshSignals 0 = freshSignals := by
    simp [attachSignal, hf, FutureState.isPending]
  constructor
  · simp [awaitFuture, hsig, AwaitFuture.exec, AwaitFuture.step, AwaitActor.act,
      AwaitActor.spawn, AwaitActor.dispatch, AwaitProcess.create, AwaitProcess.timedout,
      freshSignals, FutureState.isPending, AwaitFuture.output, Future.thenCell, Promise.fail,
      Future.discard, Future.discardCell]
  · intro w hw
    simp [awaitFuture, hsig, AwaitFuture.exec, AwaitFuture.step, AwaitActor.act,
      AwaitActor.spawn, AwaitActor.dispatch, AwaitProcess.create,
      freshSignals, FutureState.isPending] at hw
    rw [← hw]

theorem awaitPair_timeout_run (heap : Store T) (f1 f2 : FutureId) (t : Timeout)
    (hf1 : heap f1 = .PENDING) (hf2 : heap f2 = .PENDING) :
    ((awaitPair heap f1 f2 (some t)).exec [.elapse, .runNext]).map
        (fun w => (w.output, w.list.process.heap 0, w.list.process.heap 1,
          w.list.process.terminated)) =
      some (.FAILED "Collect failed: timed out", .DISCARDED, .DISCARDED, true) ∧
    ∀ w, (awaitPair heap f1 f2 (some t)).exec [.elapse, .runNext] = some w → w.heap = heap := by
  have hsig : attachSignal heap f2 (attachSignal heap f1 freshSignals 0) 1 = freshSignals := by
    simp [attachSignal, hf1, hf2, FutureState.isPending]
  constructor
  · simp [awaitPair, hsig, AwaitPair.exec, AwaitPair.step, AwaitActor.act,
      AwaitActor.spawn, AwaitActor.dispatch, AwaitProcess.create, AwaitProcess.timedout,
      freshSignals, FutureState.isPending, AwaitPair.output, Future.thenCell, Promise.fail,
      Future.discard, Future.discardCell]
  · intro w hw
    simp [awaitPair, hsig, AwaitPair.exec, AwaitPair.step, AwaitActor.act,
      AwaitActor.spawn, AwaitActor.dispatch, AwaitProcess.create,
      freshSignals, FutureState.isPending] at hw
    rw [← hw]

/-- C14: the wrappers never discard an original.  For `await(f, timeout)` with
`f` PENDING, and for `await(f1, f2, timeout)` with `f1` and `f2` PENDING: when
the timeout fires and `timedout` runs, the output of the wrapper is FAILED,
every original future is exactly as it was, so `f`, `f1` and `f2` are still
PENDING, and what has been discarded is the internal signal future (handle 0,
and handle 1 for the pair).  More generally no step of either wrapper changes
an original future, except the settlement of that future by its owner. -/
theorem await_wrapper_timeout_keeps_original (heap : Store T) (f f1 f2 : FutureId)
    (t : Timeout) (hf : heap f = .PENDING) (hf1 : heap f1 = .PENDING)
    (hf2 : heap f2 = .PENDING) :
    (∃ w, (awaitFuture heap f (some t)).exec [.elapse, .runNext] = some w ∧
      w.output = .FAILED "Collect failed: timed out" ∧
      w.heap f = .PENDING ∧ (∀ g, w.heap g = heap g) ∧
      w.list.process.heap 0 = .DISCARDED) ∧
    (∃ w, (awaitPair heap f1 f2 (some t)).exec [.elapse, .runNext] = some w ∧
      w.output = .FAILED "Collect failed: timed out" ∧
      w.heap f1 = .PENDING ∧ w.heap f2 = .PENDING ∧ (∀ g, w.heap g = heap g) ∧
      w.list.process.heap 0 = .DISCARDED ∧ w.list.process.heap 1 = .DISCARDED) ∧
    (∀ (w v : AwaitFuture T) (s : WrapperStep T) (g : FutureId),
      w.step s = some v → v.heap g ≠ w.heap g →
      w.heap g = .PENDING ∧ s = .settle g (v.heap g)) ∧
    (∀ (w v : AwaitPair T) (s : WrapperStep T) (g : FutureId),
      w.step s = some v → v.heap g ≠ w.heap g →
      w.heap g = .PENDING ∧ s = .settle g (v.heap g)) := by
  refine ⟨?_, ?_, awaitFuture_step_frame, awaitPair_step_frame⟩
  · obtain ⟨hmap, hheap⟩ := awaitFuture_timeout_run heap f t hf
    obtain ⟨w, hw, hval⟩ := Option.map_eq_some'.mp hmap
    simp only [Prod.mk.injEq] at hval
    have hh := hheap w hw
    exact ⟨w, hw, hval.1, by rw [hh]; exact hf, fun g => by rw [hh], hval.2.1⟩
  · obtain ⟨hmap, hheap⟩ := awaitPair_timeout_run heap f1 f2 t hf1 hf2
    obtain ⟨w, hw, hval⟩ := Option.map_eq_some'.mp hmap
    simp only [Prod.mk.injEq] at hval
    have hh := hheap w hw
    exact ⟨w, hw, hval.1, by rw [hh]; exact hf1, by rw [hh]; exact hf2,
      fun g => by rw [hh], hval.2.1, hval.2.2.1⟩

/-- Witness of C14 on the heap in which every future is PENDING, with the
originals 4, 5 and 6 and a timeout of 3. -/
theorem await_wrapper_timeout_keeps_original_witness :
    (∃ w, (awaitFuture pendingHeap 4 (some 3)).exec [.elapse, .runNext] = some w ∧
      w.output = .FAILED "Collect failed: timed out" ∧
      w.heap 4 = .PENDING ∧ (∀ g, w.heap g = pendingHeap g) ∧
      w.list.process.heap 0 = .DISCARDED) ∧
    (∃ w, (awaitPair pendingHeap 5 6 (some 3)).exec [.elapse, .runNext] = some w ∧
      w.output = .FAILED "Collect failed: timed out" ∧
      w.heap 5 = .PENDING ∧ w.heap 6 = .PENDING ∧ (∀ g, w.heap g = pendingHeap g) ∧
      w.list.process.heap 0 = .DISCARDED ∧ w.list.process.heap 1 = .DISCARDED) ∧
    (∀ (w v : AwaitFuture Nat) (s : WrapperStep Nat) (g : FutureId),
      w.step s = some v → v.heap g ≠ w.heap g →
      w.heap g = .PENDING ∧ s = .settle g (v.heap g)) ∧
    (∀ (w v : AwaitPair Nat) (s : WrapperStep Nat) (g : FutureId),
      w.step s = some v → v.heap g ≠ w.heap g →
      w.heap g = .PENDING ∧ s = .settle g (v.heap g)) :=
  await_wrapper_timeout_keeps_original pendingHeap 4 5 6 3 rfl rfl rfl

/-! ## A terminated process has settled its output -/

theorem Promise.set_settled (c : FutureState T) (v : T) : Promise.set c v ≠ .PENDING := by
  cases c <;> simp [Promise.set]

theorem Promise.fail_settled (c : FutureState T) (m : String) :
    Promise.fail c m ≠ .PENDING := by
  cases c <;> simp [Promise.fail]

theorem Promise.discard_settled (c : FutureState T) : Promise.discard c ≠ .PENDING := by
  cases c <;> simp [Promise.discard]

theorem collectProcess_step_settles (p q : CollectProcess T) (s : Step T)
    (h : p.step s = some q) (hp : p.terminated = true → p.promise ≠ .PENDING) :
    q.terminated = true → q.promise ≠ .PENDING := by
  cases s with
  | settle f o =>
    simp only [CollectProcess.step] at h
    split at h
    · cases h; exact hp
    · cases h
  | discardOutput =>
    simp only [CollectProcess.step] at h
    cases h
    intro _
    cases hc : p.promise <;> simp [Future.discardCell]
  | discarded =>
    simp only [CollectProcess.step] at h
    cases h
    intro _
    exact Promise.discard_settled _
  | timedout =>
    simp only [CollectProcess.step] at h
    split at h
    · cases h
      intro _
      exact Promise.fail_settled _ _
    · cases h
  | waited f =>
    simp only [CollectProcess.step] at h
    split at h
    · unfold CollectProcess.waited at h
      split at h
      · cases h; intro _; exact Promise.fail_settled _ _
      · cases h; intro _; exact Promise.fail_settled _ _
      · cases h
      · simp only at h
        split at h
        · split at h
          · cases h; intro _; exact Promise.set_settled _ _
          · cases h
        · cases h; exact hp
    · cases h

theorem awaitProcess_step_settles (p q : AwaitProcess T) (s : Step T)
    (h : p.step s = some q) (hp : p.terminated = true → p.promise ≠ .PENDING) :
    q.terminated = true → q.promise ≠ .PENDING := by
  cases s with
  | settle f o =>
    simp only [AwaitProcess.step] at h
    split at h
    · cases h; exact hp
    · cases h
  | discardOutput =>
    simp only [AwaitProcess.step] at h
    cases h
    intro _
    cases hc : p.promise <;> simp [Future.discardCell]
  | discarded =>
    simp only [AwaitProcess.step] at h
    cases h
    intro _
    exact Promise.discard_settled _
  | timedout =>
    simp only [AwaitProcess.step] at h
    split at h
    · cases h
      intro _
      exact Promise.fail_settled _ _
    · cases h
  | waited f =>
    simp only [AwaitProcess.step] at h
    split at h
    · unfold AwaitProcess.waited at h
      split at h
      · cases h
      · simp only at h
        split at h
        · cases h; intro _; exact Promise.set_settled _ _
        · cases h; exact hp
    · cases h

theorem collectProcess_run_settles :
    ∀ (trace : List (Step T)) (p q : CollectProcess T), p.run trace = some q →
      (p.terminated = true → p.promise ≠ .PENDING) →
      q.terminated = true → q.promise ≠ .PENDING := by
  intro trace
  induction trace with
  | nil => intro p q h hp; cases h; exact hp
  | cons s rest ih =>
    intro p q h hp
    simp only [CollectProcess.run] at h
    cases hs : p.step s with
    | none => simp [hs] at h
    | some r =>
      simp only [hs] at h
      exact ih r q h (collectProcess_step_settles p r s hs hp)

theorem awaitProcess_run_settles :
    ∀ (trace : List (Step T)) (p q : AwaitProcess T), p.run trace = some q →
      (p.terminated = true → p.promise ≠ .PENDING) →
      q.terminated = true → q.promise ≠ .PENDING := by
  intro trace
  induction trace with
  | nil => intro p q h hp; cases h; exact hp
  | cons s rest ih =>
    intro p q h hp
    simp only [AwaitProcess.run] at h
    cases hs : p.step s with
    | none => simp [hs] at h
    | some r =>
      simp only [hs] at h
      exact ih r q h (awaitProcess_step_settles p r s hs hp)

/-- C15: a combinator that has asked to terminate has settled its output.  In
every state that a CollectProcess or an AwaitProcess reaches by any sequence
of steps, if `terminate(this)` has been called then the output is not
PENDING.  This is so because each step that takes a process from running to
terminated, from whatever state, leaves the promise set, failed or discarded
in that same step. -/
theorem terminated_output_settled (heap : Store T) (futures : List FutureId)
    (timeout : Option Timeout) (trace : List (Step T)) :
    (∀ q, (CollectProcess.create heap futures timeout).run trace = some q →
      q.terminated = true → q.promise ≠ .PENDING) ∧
    (∀ q, (AwaitProcess.create heap futures timeout).run trace = some q →
      q.terminated = true → q.promise ≠ .PENDING) ∧
    (∀ (p q : CollectProcess T) (s : Step T), p.step s = some q →
      p.terminated = false → q.terminated = true → q.promise ≠ .PENDING) ∧
    (∀ (p q : AwaitProcess T) (s : Step T), p.step s = some q →
      p.terminated = false → q.terminated = true → q.promise ≠ .PENDING) := by
  refine ⟨?_, ?_, ?_, ?_⟩
  · intro q h
    exact collectProcess_run_settles trace _ q h (fun h => Bool.noConfusion h)
  · intro q h
    exact awaitProcess_run_settles trace _ q h (fun h => Bool.noConfusion h)
  · intro p q s h hp
    exact collectProcess_step_settles p q s h (fun h => by rw [hp] at h; cases h)
  · intro p q s h hp
    exact awaitProcess_step_settles p q s h (fun h => by rw [hp] at h; cases h)

/-- Witness of C15 on `mixedHeap`: the callback of the FAILED input 0 ends a
collect, the timeout ends an await. -/
theorem terminated_output_settled_witness :
    (mixedCollect.run [Step.waited 0]).map (fun q => (q.terminated, q.promise)) =
      some (true, .FAILED "Collect failed: boom") ∧
    (FutureState.FAILED "Collect failed: boom" : FutureState (List Nat)) ≠ .PENDING ∧
    (FutureState.FAILED "Collect failed: timed out" : FutureState (List FutureId)) ≠ .PENDING :=
  ⟨by decide,
   (terminated_output_settled mixedHeap [0, 1, 2] (some 5) [Step.waited 0]).1
    { heap := mixedHeap, futures := [0, 1, 2], timeout := some 5,
      promise := .FAILED "Collect failed: boom", ready := 0, terminated := true } rfl rfl,
   (terminated_output_settled mixedHeap [0, 1, 2] (some 5) [Step.timedout]).2.1
    { heap := [0, 1, 2].foldl Future.discard mixedHeap, futures := [0, 1, 2],
      timeout := some 5, promise := .FAILED "Collect failed: timed out", ready := 0,
      terminated := true } rfl rfl⟩

/-! ## The counter `ready` -/

theorem collectProcess_run_ready :
    ∀ (trace : List (Step T)) (p q : CollectProcess T), p.run trace = some q →
      p.ready + (deliveries trace).length < SIZE_MODULUS →
      q.ready = p.ready + CollectProcess.readyDeliveries trace p ∧
        CollectProcess.readyDeliveries trace p ≤ (deliveries trace).length := by
  intro trace
  induction trace with
  | nil =>
    intro p q h _
    cases h
    exact ⟨rfl, Nat.le_refl _⟩
  | cons s rest ih =>
    intro p q h hbound
    simp only [CollectProcess.run] at h
    cases hs : p.step s with
    | none => simp [hs] at h
    | some r =>
      simp only [hs] at h
      cases s with
      | settle f o =>
        have hr : r.ready = p.ready := by
          simp only [CollectProcess.step] at hs
          split at hs
          · cases hs; rfl
          · cases hs
        simp only [deliveries] at hbound ⊢
        obtain ⟨h1, h2⟩ := ih r q h (by rw [hr]; exact hbound)
        simp only [CollectProcess.readyDeliveries, hs]
        rw [h1, hr]
        exact ⟨by omega, by omega⟩
      | discardOutput =>
        have hr : r.ready = p.ready := by
          simp only [CollectProcess.step] at hs
          cases hs; rfl
        simp only [deliveries] at hbound ⊢
        obtain ⟨h1, h2⟩ := ih r q h (by rw [hr]; exact hbound)
        simp only [CollectProcess.readyDeliveries, hs]
        rw [h1, hr]
        exact ⟨by omega, by omega⟩
      | discarded =>
        have hr : r.ready = p.ready := by
          simp only [CollectProcess.step] at hs
          cases hs; rfl
        simp only [deliveries] at hbound ⊢
        obtain ⟨h1, h2⟩ := ih r q h (by rw [hr]; exact hbound)
        simp only [CollectProcess.readyDeliveries, hs]
        rw [h1, hr]
        exact ⟨by omega, by omega⟩
      | timedout =>
        have hr : r.ready = p.ready := by
          simp only [CollectProcess.step] at hs
          split at hs
          · cases hs; rfl
          · cases hs
        simp only [deliveries] at hbound ⊢
        obtain ⟨h1, h2⟩ := ih r q h (by rw [hr]; exact hbound)
        simp only [CollectProcess.readyDeliveries, hs]
        rw [h1, hr]
        exact ⟨by omega, by omega⟩
      | waited f =>
        simp only [deliveries, List.length_cons] at hbound ⊢
        have hmod : (p.ready + 1) % SIZE_MODULUS = p.ready + 1 :=
          Nat.mod_eq_of_lt (by omega)
        have hr : r.ready = p.ready + (if (p.heap f).isReady then 1 else 0) := by
          simp only [CollectProcess.step] at hs
          split at hs
          · unfold CollectProcess.waited at hs
            split at hs
            · rename_i hc
              cases hs
              simp [hc, FutureState.isReady]
            · rename_i hc
              cases hs
              simp [hc, FutureState.isReady]
            · cases hs
            · rename_i v hc
              simp only at hs
              split at hs
              · split at hs
                · cases hs
                  simp [hc, FutureState.isReady, hmod]
                · cases hs
              · cases hs
                simp [hc, FutureState.isReady, hmod]
          · cases hs
        obtain ⟨h1, h2⟩ := ih r q h (by rw [hr]; split <;> omega)
        simp only [CollectProcess.readyDeliveries, hs]
        rw [h1, hr]
        constructor
        · omega
        · split <;> omega

theorem awaitProcess_run_ready :
    ∀ (trace : List (Step T)) (p q : AwaitProcess T), p.run trace = some q →
      p.ready + (deliveries trace).length < SIZE_MODULUS →
      q.ready = p.ready + (deliveries trace).length := by
  intro trace
  induction trace with
  | nil =>
    intro p q h _
    cases h
    rfl
  | cons s rest ih =>
    intro p q h hbound
    simp only [AwaitProcess.run] at h
    cases hs : p.step s with
    | none => simp [hs] at h
    | some r =>
      simp only [hs] at h
      cases s with
      | settle f o =>
        have hr : r.ready = p.ready := by
          simp only [AwaitProcess.step] at hs
          split at hs
          · cases hs; rfl
          · cases hs
        simp only [deliveries] at hbound ⊢
        rw [ih r q h (by rw [hr]; exact hbound), hr]
      | discardOutput =>
        have hr : r.ready = p.ready := by
          simp only [AwaitProcess.step] at hs
          cases hs; rfl
        simp only [deliveries] at hbound ⊢
        rw [ih r q h (by rw [hr]; exact hbound), hr]
      | discarded =>
        have hr : r.ready = p.ready := by
          simp only [AwaitProcess.step] at hs
          cases hs; rfl
        simp only [deliveries] at hbound ⊢
        rw [ih r q h (by rw [hr]; exact hbound), hr]
      | timedout =>
        have hr : r.ready = p.ready := by
          simp only [AwaitProcess.step] at hs
          split at hs
          · cases hs; rfl
          · cases hs
        simp only [deliveries] at hbound ⊢
        rw [ih r q h (by rw [hr]; exact hbound), hr]
      | waited f =>
        simp only [deliveries, List.length_cons] at hbound ⊢
        have hmod : (p.ready + 1) % SIZE_MODULUS = p.ready + 1 :=
          Nat.mod_eq_of_lt (by omega)
        have hr : r.ready = p.ready + 1 := by
          simp only [AwaitProcess.step] at hs
          split at hs
          · unfold AwaitProcess.waited at hs
            split at hs
            · cases hs
            · simp only at hs
              split at hs
              · cases hs; exact hmod
              · cases hs; exact hmod
          · cases hs
        rw [ih r q h (by rw [hr]; omega), hr]
        omega

/-- The step of `waited` that makes the output of collect READY is the one
in which the incremented counter equals the size of the list. -/
theorem collectProcess_waited_sets_at_size (p q : CollectProcess T) (f : FutureId)
    (values : List T) (h : p.waited f = some q) (hq : q.promise = .READY values)
    (hp : p.promise ≠ .READY values) :
    q.ready = (p.ready + 1) % SIZE_MODULUS ∧ q.ready = q.futures.length := by
  unfold CollectProcess.waited at h
  split at h
  · cases h
    cases hc : p.promise <;> simp [hc, Promise.fail] at hq hp
    exact absurd hq hp
  · cases h
    cases hc : p.promise <;> simp [hc, Promise.fail] at hq hp
    exact absurd hq hp
  · cases h
  · simp only at h
    split at h
    · rename_i heq
      split at h
      · cases h
        exact ⟨rfl, heq⟩
      · cases h
    · cases h
      exact absurd hq hp

/-- The step of `waited` that makes the output of await READY is the one in
which the incremented counter equals the size of the list. -/
theorem awaitProcess_waited_sets_at_size (p q : AwaitProcess T) (f : FutureId)
    (result : List FutureId) (h : p.waited f = some q) (hq : q.promise = .READY result)
    (hp : p.promise ≠ .READY result) :
    q.ready = (p.ready + 1) % SIZE_MODULUS ∧ q.ready = q.futures.length := by
  unfold AwaitProcess.waited at h
  split at h
  · cases h
  · simp only at h
    split at h
    · rename_i heq
      cases h
      exact ⟨rfl, heq⟩
    · cases h
      exact absurd hq hp

/-- C17: the counter `ready` under at-most-once delivery.  Let the `waited`
callbacks delivered in a sequence of steps be, with multiplicity, among the
futures of the list (each registered callback is delivered at most once), and
let the list be shorter than 2^64, as every `std::list`.  Then in every state
reached, the counter of a CollectProcess is at most the size of the list and
equals the number of `waited` callbacks delivered so far for inputs that were
READY, and the counter of an AwaitProcess is at most the size of the list and
equals the number of `waited` callbacks delivered so far.  Moreover, from any
state, a `waited` step that turns the output READY is a step whose
incremented counter equals the size of the list. -/
theorem ready_counts_deliveries (heap : Store T) (futures : List FutureId)
    (timeout : Option Timeout) (trace : List (Step T))
    (hsize : futures.length < SIZE_MODULUS)
    (honce : (deliveries trace).Subperm futures) :
    (∀ q, (CollectProcess.create heap futures timeout).run trace = some q →
      q.ready ≤ futures.length ∧
      q.ready = CollectProcess.readyDeliveries trace
        (CollectProcess.create heap futures timeout)) ∧
    (∀ q, (AwaitProcess.create heap futures timeout).run trace = some q →
      q.ready ≤ futures.length ∧ q.ready = (deliveries trace).length) ∧
    (∀ (p q : CollectProcess T) (f : FutureId) (values : List T),
      p.waited f = some q → q.promise = .READY values → p.promise ≠ .READY values →
      q.ready = (p.ready + 1) % SIZE_MODULUS ∧ q.ready = q.futures.length) ∧
    (∀ (p q : AwaitProcess T) (f : FutureId) (result : List FutureId),
      p.waited f = some q → q.promise = .READY result → p.promise ≠ .READY result →
      q.ready = (p.ready + 1) % SIZE_MODULUS ∧ q.ready = q.futures.length) := by
  have hlen : (deliveries trace).length ≤ futures.length := honce.length_le
  refine ⟨?_, ?_, collectProcess_waited_sets_at_size, awaitProcess_waited_sets_at_size⟩
  · intro q h
    obtain ⟨h1, h2⟩ := collectProcess_run_ready trace _ q h
      (by simp only [CollectProcess.create]; omega)
    simp only [CollectProcess.create, Nat.zero_add] at h1
    simp only [CollectProcess.create] at h2 ⊢
    exact ⟨by omega, h1⟩
  · intro q h
    have h1 := awaitProcess_run_ready trace _ q h
      (by simp only [AwaitProcess.create]; omega)
    simp only [AwaitProcess.create, Nat.zero_add] at h1
    exact ⟨by omega, h1⟩

/-- Witness of C17 on `mixedHeap`: the callbacks of the READY input 2 and of
the FAILED input 0 are delivered, once each. -/
theorem ready_counts_deliveries_witness :
    (∀ q, (CollectProcess.create mixedHeap [0, 1, 2] none).run
        [Step.waited 2, Step.waited 0] = some q →
      q.ready ≤ [0, 1, 2].length ∧
      q.ready = CollectProcess.readyDeliveries [Step.waited 2, Step.waited 0]
        (CollectProcess.create mixedHeap [0, 1, 2] none)) ∧
    (∀ q, (AwaitProcess.create mixedHeap [0, 1, 2] none).run
        [Step.waited 2, Step.waited 0] = some q →
      q.ready ≤ [0, 1, 2].length ∧
      q.ready = (deliveries [(Step.waited 2 : Step Nat), Step.waited 0]).length) ∧
    (∀ (p q : CollectProcess Nat) (f : FutureId) (values : List Nat),
      p.waited f = some q → q.promise = .READY values → p.promise ≠ .READY values →
      q.ready = (p.ready + 1) % SIZE_MODULUS ∧ q.ready = q.futures.length) ∧
    (∀ (p q : AwaitProcess Nat) (f : FutureId) (result : List FutureId),
      p.waited f = some q → q.promise = .READY result → p.promise ≠ .READY result →
      q.ready = (p.ready + 1) % SIZE_MODULUS ∧ q.ready = q.futures.length) :=
  ready_counts_deliveries mixedHeap [0, 1, 2] none [Step.waited 2, Step.waited 0]
    (by decide) (by decide)

/-! ## Collect on inputs that become READY over time -/

theorem collectProcess_run_settles_only (vals : FutureId → T) :
    ∀ (t : List (Step T)) (p : CollectProcess T),
      ReadySchedule vals p.heap t → deliveries t = [] →
      ∃ q, p.run t = some q ∧ q.promise = p.promise ∧ q.terminated = p.terminated ∧
        ∀ f v, p.heap f = .READY v → q.heap f = .READY v := by
  intro t
  induction t with
  | nil =>
    intro p _ _
    exact ⟨p, rfl, rfl, rfl, fun _ _ h => h⟩
  | cons s rest ih =>
    intro p hsched hnone
    cases s with
    | settle f o =>
      obtain ⟨hpend, ho, hrest⟩ := hsched
      have hstep : p.step (.settle f o) =
          some { p with heap := Function.update p.heap f o } := by
        simp [CollectProcess.step, hpend, ho, FutureState.isPending]
      obtain ⟨q, hq, hprom, hterm, hheap⟩ :=
        ih { p with heap := Function.update p.heap f o } hrest
          (by simpa [deliveries] using hnone)
      refine ⟨q, ?_, hprom, hterm, ?_⟩
      · simp only [CollectProcess.run, hstep]
        exact hq
      · intro g v hg
        apply hheap
        have hgf : g ≠ f := by
          intro h
          subst h
          rw [hpend] at hg
          exact FutureState.noConfusion hg
        simpa [Function.update_noteq hgf] using hg
    | waited f => simp [deliveries] at hnone
    | discardOutput => exact absurd hsched (by simp [ReadySchedule])
    | discarded => exact absurd hsched (by simp [ReadySchedule])
    | timedout => exact absurd hsched (by simp [ReadySchedule])

theorem collectProcess_run_ready_schedule (vals : FutureId → T) :
    ∀ (t : List (Step T)) (p : CollectProcess T),
      ReadySchedule vals p.heap t →
      p.promise = .PENDING →
      p.futures.length < SIZE_MODULUS →
      p.ready + (deliveries t).length = p.futures.length →
      deliveries t ≠ [] →
      (∀ f ∈ deliveries t, f ∈ p.futures) →
      (∀ f ∈ p.futures, p.heap f = .READY (vals f) ∨ f ∈ deliveries t) →
      ∃ q, p.run t = some q ∧ q.promise = .READY (p.futures.map vals) ∧
        q.terminated = true ∧ ∀ f ∈ p.futures, q.heap f = .READY (vals f) := by
  intro t
  induction t with
  | nil =>
    intro p _ _ _ _ hne
    exact absurd rfl hne
  | cons s rest ih =>
    intro p hsched hp hsize hcount hne hmem hinv
    cases s with
    | settle f o =>
      obtain ⟨hpend, ho, hrest⟩ := hsched
      have hstep : p.step (.settle f o) =
          some { p with heap := Function.update p.heap f o } := by
        simp [CollectProcess.step, hpend, ho, FutureState.isPending]
      have hdel : deliveries (Step.settle f o :: rest) = deliveries rest := by
        simp [deliveries]
      rw [hdel] at hcount hne hmem hinv
      obtain ⟨q, hq, hprom, hterm, hheap⟩ :=
        ih { p with heap := Function.update p.heap f o } hrest hp hsize hcount hne hmem
          (by
            intro g hg
            rcases hinv g hg with h | h
            · left
              have hgf : g ≠ f := by
                intro hgf
                subst hgf
                rw [hpend] at h
                exact FutureState.noConfusion h
              simpa [Function.update_noteq hgf] using h
            · exact Or.inr h)
      refine ⟨q, ?_, hprom, hterm, hheap⟩
      simp only [CollectProcess.run, hstep]
      exact hq
    | waited f =>
      obtain ⟨hready, hrest⟩ := hsched
      have hdel : deliveries (Step.waited f :: rest) = f :: deliveries rest := by
        simp [deliveries]
      rw [hdel] at hcount hmem hinv
      simp only [List.length_cons] at hcount
      have hf : f ∈ p.futures := hmem f (List.mem_cons_self _ _)
      have hmod : (p.ready + 1) % SIZE_MODULUS = p.ready + 1 :=
        Nat.mod_eq_of_lt (by omega)
      by_cases hlast : deliveries rest = []
      · have hfull : p.ready + 1 = p.futures.length := by
          rw [hlast] at hcount
          simpa using hcount
        have hall : ∀ g ∈ p.futures, p.heap g = .READY (vals g) := by
          intro g hg
          rcases hinv g hg with h | h
          · exact h
          · rw [hlast] at h
            simp only [List.mem_singleton] at h
            rw [h]
            exact hready
        have hvals := collectProcess_collectValues_ready p.heap vals p.futures [] hall
        have hw : p.waited f = some { p with
            ready := p.ready + 1
            promise := .READY (p.futures.map vals)
            terminated := true } := by
          have hmod2 : p.futures.length % SIZE_MODULUS = p.futures.length :=
            Nat.mod_eq_of_lt hsize
          simp [CollectProcess.waited, hready, hfull, hmod2, hvals, hp, Promise.set]
        obtain ⟨q, hq, hprom, hterm, hheap⟩ :=
          collectProcess_run_settles_only vals rest
            { p with ready := p.ready + 1, promise := .READY (p.futures.map vals),
                     terminated := true } hrest hlast
        refine ⟨q, ?_, hprom, hterm, fun g hg => hheap g _ (hall g hg)⟩
        simp only [CollectProcess.run, CollectProcess.step, hf, if_true, hw]
        exact hq
      · have hnot : ¬ p.ready + 1 = p.futures.length := by
          intro h
          have : (deliveries rest).length = 0 := by omega
          exact hlast (List.eq_nil_of_length_eq_zero this)
        have hw : p.waited f = some { p with ready := p.ready + 1 } := by
          simp [CollectProcess.waited, hready, hmod, hnot]
        obtain ⟨q, hq, hprom, hterm, hheap⟩ :=
          ih { p with ready := p.ready + 1 } hrest hp hsize (by simp only; omega) hlast
            (fun g hg => hmem g (List.mem_cons_of_mem _ hg))
            (by
              intro g hg
              rcases hinv g hg with h | h
              · exact Or.inl h
              · rcases List.mem_cons.mp h with h | h
                · left; rw [h]; exact hready
                · exact Or.inr h)
        refine ⟨q, ?_, hprom, hterm, hheap⟩
        simp only [CollectProcess.run, CollectProcess.step, hf, if_true, hw]
        exact hq
    | discardOutput => exact absurd hsched (by simp [ReadySchedule])
    | discarded => exact absurd hsched (by simp [ReadySchedule])
    | timedout => exact absurd hsched (by simp [ReadySchedule])

/-- C1: collect on inputs that all become READY, in whatever order.  Take a
non-empty list of futures (shorter than 2^64, as every `std::list`) and any
sequence of steps in which the inputs complete over time, each PENDING input
being set READY with its value `vals f` at some point, and in which the
`waited` callback of every input of the list is delivered once, in any order,
after that input has become READY (the deliveries are a permutation of the
list; other inputs may still be PENDING when a callback arrives).  Then the
process that `collect` spawns runs through the whole sequence, and after the
last callback its output, PENDING when `collect` returned, is READY with the
values in the order of the input list, not in the order of completion or of
delivery; the process has then terminated. -/
theorem collect_ready_in_input_order (heap : Store T) (futures : List FutureId)
    (timeout : Option Timeout) (vals : FutureId → T) (trace : List (Step T))
    (hne : futures ≠ [])
    (hsize : futures.length < SIZE_MODULUS)
    (hschedule : ReadySchedule vals heap trace)
    (honce : (deliveries trace).Perm futures) :
    ∃ p q, (collect heap futures timeout).process = some p ∧
      (collect heap futures timeout).future = .PENDING ∧
      p.run trace = some q ∧
      q.promise = .READY (futures.map vals) ∧ q.terminated = true ∧
      (∀ f ∈ futures, q.heap f = .READY (vals f)) := by
  have hlen : (deliveries trace).length = futures.length := honce.length_eq
  have hdne : deliveries trace ≠ [] := by
    intro h
    rw [h] at hlen
    exact hne (List.length_eq_zero.mp hlen.symm)
  obtain ⟨q, hq, hprom, hterm, hheap⟩ :=
    collectProcess_run_ready_schedule vals trace (CollectProcess.create heap futures timeout)
      hschedule rfl hsize (by simp [CollectProcess.create, hlen]) hdne
      (fun f hf => honce.subset hf)
      (fun f hf => Or.inr (honce.symm.subset hf))
  have hempty : futures.isEmpty = false := by
    cases futures with
    | nil => exact absurd rfl hne
    | cons _ _ => rfl
  refine ⟨CollectProcess.create heap futures timeout, q, ?_, ?_, hq, hprom, hterm, hheap⟩
  · simp [collect, hempty]
  · simp [collect, hempty, CollectProcess.create]

/-- Witness of C1: all three inputs are PENDING when `collect` is called.
Input 2 completes first and its callback runs while 0 and 1 are still
PENDING; then 0 and 1 complete, and their callbacks run in the order 1, 0. -/
theorem collect_ready_in_input_order_witness :
    ∃ p q, (collect pendingHeap [0, 1, 2] none).process = some p ∧
      (collect pendingHeap [0, 1, 2] none).future = .PENDING ∧
      p.run [.settle 2 (.READY 12), .waited 2, .settle 0 (.READY 10),
        .settle 1 (.READY 11), .waited 1, .waited 0] = some q ∧
      q.promise = .READY [10, 11, 12] ∧ q.terminated = true ∧
      (∀ f ∈ [0, 1, 2], q.heap f = .READY (10 + f)) :=
  collect_ready_in_input_order pendingHeap [0, 1, 2] none (fun f => 10 + f)
    [.settle 2 (.READY 12), .waited 2, .settle 0 (.READY 10),
      .settle 1 (.READY 11), .waited 1, .waited 0]
    (by decide) (by decide)
    ⟨rfl, rfl, rfl, rfl, rfl, rfl, rfl, rfl, rfl, trivial⟩
    (by decide)

/-! ## Actors whose queue can always be run -/

theorem FutureState.not_ready_of_pending {c : FutureState T} (h : c.isPending = true) :
    c.isReady = false := by
  cases c <;> first | rfl | simp [FutureState.isPending] at h

theorem FutureState.ready_discardCell (c : FutureState T) :
    (Future.discardCell c).isReady = c.isReady := by
  cases c <;> rfl

theorem FutureState.pending_discardCell (c : FutureState T) :
    (Future.discardCell c).isPending = false := by
  cases c <;> rfl

theorem registered_mem (futures : List FutureId) (f : FutureId) (c : Callback)
    (h : c ∈ registered futures f) : c = Callback.waited f := by
  simp only [registered, List.mem_map, List.mem_filter] at h
  obtain ⟨g, ⟨_, hg⟩, rfl⟩ := h
  simp only [beq_iff_eq] at hg
  rw [hg]

theorem settle_count (heap : Store T) (f : FutureId) (o : FutureState T)
    (hpend : (heap f).isPending = true) :
    ∀ (futures : List FutureId),
      futures.countP (fun g => ((Function.update heap f o) g).isReady) =
        futures.countP (fun g => (heap g).isReady) +
          (registered futures f).countP (Callback.isReadyWaited (Function.update heap f o)) := by
  intro futures
  induction futures with
  | nil => simp [registered]
  | cons x rest ih =>
    have hnr := FutureState.not_ready_of_pending hpend
    by_cases hx : x = f
    · subst hx
      have hreg : registered (x :: rest) x = Callback.waited x :: registered rest x := by
        simp [registered]
      rw [hreg, List.countP_cons, List.countP_cons, List.countP_cons, ih]
      simp [Callback.isReadyWaited, hnr]
      omega
    · have hreg : registered (x :: rest) f = registered rest f := by
        simp [registered, hx]
      rw [hreg, List.countP_cons, List.countP_cons, ih]
      simp [Function.update_noteq hx]
      omega

theorem discardCallbacks_mem (all : List FutureId) :
    ∀ (fs : List FutureId) (heap : Store T) (c : Callback),
      c ∈ discardCallbacks all heap fs →
      ∃ f, c = Callback.waited f ∧ f ∈ fs ∧ (heap f).isPending = true := by
  intro fs
  induction fs with
  | nil => intro heap c h; simp [discardCallbacks] at h
  | cons x rest ih =>
    intro heap c h
    simp only [discardCallbacks] at h
    split at h
    · rename_i hx
      rcases List.mem_append.mp h with h | h
      · exact ⟨x, registered_mem _ _ _ h, List.mem_cons_self _ _, hx⟩
      · obtain ⟨f, hc, hf, hp⟩ := ih _ c h
        refine ⟨f, hc, List.mem_cons_of_mem _ hf, ?_⟩
        by_cases hfx : f = x
        · rw [hfx]; exact hx
        · simpa [Future.discard, Function.update_noteq hfx] using hp
    · obtain ⟨f, hc, hf, hp⟩ := ih _ c h
      exact ⟨f, hc, List.mem_cons_of_mem _ hf, hp⟩

theorem countP_isReadyWaited_congr (heap heap2 : Store T) (queue : List Callback)
    (h : ∀ f, Callback.waited f ∈ queue → (heap2 f).isReady = (heap f).isReady) :
    queue.countP (Callback.isReadyWaited heap2) = queue.countP (Callback.isReadyWaited heap) := by
  apply List.countP_congr
  intro c hc
  cases c with
  | waited f => simp [Callback.isReadyWaited, h f hc]
  | discarded => simp [Callback.isReadyWaited]
  | timedout => simp [Callback.isReadyWaited]

theorem collectActor_dispatchAll_queue_running :
    ∀ (cs : List Callback) (a : CollectActor T), a.process.terminated = false →
      (a.dispatchAll cs).queue = a.queue ++ cs := by
  intro cs
  induction cs with
  | nil => intro a _; simp [CollectActor.dispatchAll]
  | cons c rest ih =>
    intro a h
    simp only [CollectActor.dispatchAll, List.foldl_cons] at ih ⊢
    rw [ih _ (by rw [collectActor_dispatch_process]; exact h),
      collectActor_dispatch_queue_running a c h]
    simp

theorem awaitActor_dispatchAll_queue_running :
    ∀ (cs : List Callback) (a : AwaitActor T), a.process.terminated = false →
      (a.dispatchAll cs).queue = a.queue ++ cs := by
  intro cs
  induction cs with
  | nil => intro a _; simp [AwaitActor.dispatchAll]
  | cons c rest ih =>
    intro a h
    simp only [AwaitActor.dispatchAll, List.foldl_cons] at ih ⊢
    rw [ih _ (by rw [awaitActor_dispatch_process]; exact h),
      awaitActor_dispatch_queue_running a c h]
    simp

theorem collectValues_succeeds (heap : Store T) :
    ∀ (fs : List FutureId) (acc : List T), (∀ f ∈ fs, (heap f).isReady = true) →
      ∃ values, CollectProcess.collectValues heap acc fs = some values := by
  intro fs
  induction fs with
  | nil => intro acc _; exact ⟨acc, rfl⟩
  | cons f rest ih =>
    intro acc h
    have hf := h f (List.mem_cons_self _ _)
    cases hc : heap f with
    | READY v =>
      obtain ⟨values, hv⟩ := ih (acc ++ [v]) (fun g hg => h g (List.mem_cons_of_mem _ hg))
      exact ⟨values, by simp [CollectProcess.collectValues, hc, Future.get, hv]⟩
    | PENDING => simp [hc, FutureState.isReady] at hf
    | FAILED m => simp [hc, FutureState.isReady] at hf
    | DISCARDED => simp [hc, FutureState.isReady] at hf

theorem foldl_discard_ready (fs : List FutureId) (heap : Store T) (g : FutureId) :
    ((fs.foldl Future.discard heap) g).isReady = (heap g).isReady := by
  rw [Future.foldl_discard_apply]
  split
  · exact FutureState.ready_discardCell _
  · rfl

theorem foldl_discard_not_pending (fs : List FutureId) (heap : Store T) (g : FutureId)
    (h : g ∈ fs ∨ (heap g).isPending = false) :
    ((fs.foldl Future.discard heap) g).isPending = false := by
  rw [Future.foldl_discard_apply]
  split
  · exact FutureState.pending_discardCell _
  · rename_i hg
    rcases h with h | h
    · exact absurd h hg
    · exact h

/-- The shape of the queue after the actor has run its next callback. -/
theorem collectActor_runNext_queue (a b : CollectActor T) (c : Callback)
    (rest : List Callback) (hq : a.queue = c :: rest) (hact : a.act .runNext = some b) :
    ∃ extra, b.queue = rest ++ extra ∧ (a.process.terminated = true → extra = []) ∧
      (c = Callback.discarded → b.process.terminated = true) := by
  cases c with
  | discarded =>
    simp only [CollectActor.act, hq, Option.some.injEq] at hact
    subst hact
    exact ⟨[], by simp, fun _ => rfl, fun _ => rfl⟩
  | timedout =>
    simp only [CollectActor.act, hq, Option.some.injEq] at hact
    subst hact
    cases ht : a.process.terminated with
    | true => exact ⟨[], by simp, fun _ => rfl, fun h => Callback.noConfusion h⟩
    | false =>
      exact ⟨discardCallbacks a.process.futures a.process.heap a.process.futures, by simp,
        fun h => Bool.noConfusion h, fun h => Callback.noConfusion h⟩
  | waited f =>
    simp only [CollectActor.act, hq] at hact
    cases hw : a.process.waited f with
    | none => simp [hw] at hact
    | some q =>
      simp only [hw, Option.some.injEq] at hact
      subst hact
      exact ⟨[], by simp, fun _ => rfl, fun h => Callback.noConfusion h⟩

/-- In a sound collect actor the next callback can always be run. -/
theorem collectActor_runNext_succeeds (a : CollectActor T) (h : a.Sound) (c : Callback)
    (rest : List Callback) (hq : a.queue = c :: rest) :
    ∃ b, a.act .runNext = some b := by
  obtain ⟨h1, h2, h3, _⟩ := h
  cases c with
  | discarded =>
    simp only [CollectActor.act, hq]
    exact ⟨_, rfl⟩
  | timedout =>
    simp only [CollectActor.act, hq]
    exact ⟨_, rfl⟩
  | waited f =>
    have hsettled := h1 f (by rw [hq]; exact List.mem_cons_self _ _)
    have hle : a.process.futures.countP (fun g => (a.process.heap g).isReady)
        ≤ a.process.futures.length := List.countP_le_length _
    have hw : ∃ q, a.process.waited f = some q := by
      cases hc : a.process.heap f with
      | PENDING => simp [hc, FutureState.isPending] at hsettled
      | FAILED m =>
        simp only [CollectProcess.waited, hc]
        exact ⟨_, rfl⟩
      | DISCARDED =>
        simp only [CollectProcess.waited, hc]
        exact ⟨_, rfl⟩
      | READY v =>
        have hhead : Callback.isReadyWaited a.process.heap (Callback.waited f) = true := by
          simp [Callback.isReadyWaited, hc, FutureState.isReady]
        rw [hq, List.countP_cons, hhead, if_pos rfl] at h2
        have hmod : (a.process.ready + 1) % SIZE_MODULUS = a.process.ready + 1 :=
          Nat.mod_eq_of_lt (by omega)
        by_cases hlast : a.process.ready + 1 = a.process.futures.length
        · have hall : ∀ g ∈ a.process.futures, (a.process.heap g).isReady = true := by
            apply List.countP_eq_length.mp
            omega
          obtain ⟨values, hv⟩ := collectValues_succeeds a.process.heap a.process.futures [] hall
          simp only [CollectProcess.waited, hc, hmod, if_pos hlast, hv]
          exact ⟨_, rfl⟩
        · simp only [CollectProcess.waited, hc, hmod, if_neg hlast]
          exact ⟨_, rfl⟩
    obtain ⟨q, hq2⟩ := hw
    simp only [CollectActor.act, hq, hq2]
    exact ⟨_, rfl⟩

/-- Every action keeps a collect actor sound. -/
theorem collectActor_act_sound (a b : CollectActor T) (x : Action T) (h : a.Sound)
    (hact : a.act x = some b) : b.Sound := by
  obtain ⟨h1, h2, h3, h4⟩ := h
  cases x with
  | settle f o =>
    simp only [CollectActor.act] at hact
    split at hact
    · rename_i hcond
      cases hact
      simp only [Bool.and_eq_true, Bool.not_eq_true'] at hcond
      obtain ⟨hpend, ho⟩ := hcond
      have hother : ∀ g, Callback.waited g ∈ a.queue → g ≠ f := by
        intro g hg hgf
        subst hgf
        rw [h1 g hg] at hpend
        exact Bool.noConfusion hpend
      have hcount := settle_count a.process.heap f o hpend a.process.futures
      have hqcount : a.queue.countP (Callback.isReadyWaited (Function.update a.process.heap f o))
          = a.queue.countP (Callback.isReadyWaited a.process.heap) := by
        apply countP_isReadyWaited_congr
        intro g hg
        rw [Function.update_noteq (hother g hg)]
      generalize hb : CollectActor.dispatchAll
        { a with process := { a.process with heap := Function.update a.process.heap f o } }
        (registered a.process.futures f) = b
      have hbp : b.process =
          { a.process with heap := Function.update a.process.heap f o } := by
        rw [← hb, collectActor_dispatchAll_process]
      have hbq1 : a.process.terminated = false →
          b.queue = a.queue ++ registered a.process.futures f := by
        intro ht
        rw [← hb]
        exact collectActor_dispatchAll_queue_running _ _ ht
      have hbq2 : a.process.terminated = true → b.queue = a.queue := by
        intro ht
        rw [← hb]
        exact collectActor_dispatchAll_queue_terminated _ _ ht
      unfold CollectActor.Sound
      rw [hbp]
      simp only
      by_cases ht : a.process.terminated = true
      · rw [hbq2 ht]
        refine ⟨?_, ?_, h3, fun _ => h4 ht⟩
        · intro g hg
          simp only [Function.update_noteq (hother g hg)]
          exact h1 g hg
        · rw [hqcount, hcount]
          omega
      · have ht2 : a.process.terminated = false := by
          cases hc : a.process.terminated
          · rfl
          · exact absurd hc ht
        rw [hbq1 ht2]
        refine ⟨?_, ?_, h3, fun h => absurd h ht⟩
        · intro g hg
          rcases List.mem_append.mp hg with hg | hg
          · simp only [Function.update_noteq (hother g hg)]
            exact h1 g hg
          · have := registered_mem _ _ _ hg
            simp only [Callback.waited.injEq] at this
            subst this
            simp only [Function.update_same]
            exact ho
        · simp only [List.countP_append]
          rw [hqcount, hcount]
          omega
    · cases hact
  | discardOutput =>
    simp only [CollectActor.act] at hact
    split at hact
    · cases hact
      have hqueue : ∀ c, c ∈ (CollectActor.dispatch
          { a with process :=
              { a.process with promise := Future.discardCell a.process.promise } }
          Callback.discarded).queue → c ∈ a.queue ∨ c = Callback.discarded := by
        intro c hc
        unfold CollectActor.dispatch at hc
        split at hc
        · exact Or.inl hc
        · simpa using hc
      have hcnt : (CollectActor.dispatch
          { a with process :=
              { a.process with promise := Future.discardCell a.process.promise } }
          Callback.discarded).queue.countP (Callback.isReadyWaited a.process.heap) =
          a.queue.countP (Callback.isReadyWaited a.process.heap) := by
        unfold CollectActor.dispatch
        split
        · rfl
        · simp [Callback.isReadyWaited]
      refine ⟨?_, ?_, ?_, ?_⟩
      · intro g hg
        rw [collectActor_dispatch_process]
        rcases hqueue _ hg with hg | hg
        · exact h1 g hg
        · exact Callback.noConfusion hg
      · rw [collectActor_dispatch_process]
        simp only
        rw [hcnt]
        exact h2
      · rw [collectActor_dispatch_process]; exact h3
      · rw [collectActor_dispatch_process]
        intro _
        simp only
        cases hc : a.process.promise <;> simp [Future.discardCell]
    · cases hact
      exact ⟨h1, h2, h3, h4⟩
  | elapse =>
    simp only [CollectActor.act] at hact
    split at hact
    · cases hact
      have hqueue : ∀ c, c ∈ (CollectActor.dispatch { a with timer := false }
          Callback.timedout).queue → c ∈ a.queue ∨ c = Callback.timedout := by
        intro c hc
        unfold CollectActor.dispatch at hc
        split at hc
        · exact Or.inl hc
        · simpa using hc
      have hcnt : (CollectActor.dispatch { a with timer := false }
          Callback.timedout).queue.countP (Callback.isReadyWaited a.process.heap) =
          a.queue.countP (Callback.isReadyWaited a.process.heap) := by
        unfold CollectActor.dispatch
        split
        · rfl
        · simp [Callback.isReadyWaited]
      refine ⟨?_, ?_, ?_, ?_⟩
      · intro g hg
        rw [collectActor_dispatch_process]
        rcases hqueue _ hg with hg | hg
        · exact h1 g hg
        · exact Callback.noConfusion hg
      · rw [collectActor_dispatch_process]
        simp only
        rw [hcnt]
        exact h2
      · rw [collectActor_dispatch_process]; exact h3
      · rw [collectActor_dispatch_process]; exact h4
    · cases hact
  | runNext =>
    cases hq : a.queue with
    | nil => simp [CollectActor.act, hq] at hact
    | cons c rest =>
      have hrest : ∀ g, Callback.waited g ∈ rest → (a.process.heap g).isPending = false :=
        fun g hg => h1 g (by rw [hq]; exact List.mem_cons_of_mem _ hg)
      rw [hq, List.countP_cons] at h2
      cases c with
      | discarded =>
        simp only [CollectActor.act, hq, Option.some.injEq] at hact
        subst hact
        refine ⟨hrest, ?_, h3, fun _ => Promise.discard_settled _⟩
        simp only [CollectProcess.discarded]
        omega
      | timedout =>
        simp only [CollectActor.act, hq, Option.some.injEq] at hact
        subst hact
        have hready : ∀ g, ((a.process.futures.foldl Future.discard a.process.heap) g).isReady
            = (a.process.heap g).isReady := foldl_discard_ready _ _
        have hB : a.process.futures.countP
            (fun g => ((a.process.futures.foldl Future.discard a.process.heap) g).isReady) =
            a.process.futures.countP (fun g => (a.process.heap g).isReady) := by
          apply List.countP_congr
          intro g _
          rw [hready g]
        have hA : rest.countP (Callback.isReadyWaited
            (a.process.futures.foldl Future.discard a.process.heap)) =
            rest.countP (Callback.isReadyWaited a.process.heap) :=
          countP_isReadyWaited_congr _ _ _ (fun g _ => hready g)
        have hnew : (discardCallbacks a.process.futures a.process.heap
            a.process.futures).countP (Callback.isReadyWaited
              (a.process.futures.foldl Future.discard a.process.heap)) = 0 := by
          apply List.countP_eq_zero.mpr
          intro c hc
          obtain ⟨g, hcg, _, hgp⟩ := discardCallbacks_mem _ _ _ c hc
          subst hcg
          simp only [Callback.isReadyWaited, hready g,
            FutureState.not_ready_of_pending hgp]
          exact Bool.noConfusion
        refine ⟨?_, ?_, h3, fun _ => Promise.fail_settled _ _⟩
        · intro g hg
          simp only [CollectProcess.timedout]
          apply foldl_discard_not_pending
          simp only at hg
          split at hg
          · exact Or.inr (hrest g hg)
          · rcases List.mem_append.mp hg with hg | hg
            · exact Or.inr (hrest g hg)
            · obtain ⟨g2, hcg, hmem, _⟩ := discardCallbacks_mem _ _ _ _ hg
              simp only [Callback.waited.injEq] at hcg
              subst hcg
              exact Or.inl hmem
        · simp only [CollectProcess.timedout]
          rw [hB]
          split
          · rw [hA]
            omega
          · rw [List.countP_append, hA, hnew]
            omega
      | waited f =>
        simp only [CollectActor.act, hq] at hact
        cases hw : a.process.waited f with
        | none => simp [hw] at hact
        | some q =>
          simp only [hw, Option.some.injEq] at hact
          subst hact
          have hsettled := h1 f (by rw [hq]; exact List.mem_cons_self _ _)
          have hle : a.process.futures.countP (fun g => (a.process.heap g).isReady)
              ≤ a.process.futures.length := List.countP_le_length _
          unfold CollectProcess.waited at hw
          split at hw
          · cases hw
            refine ⟨hrest, ?_, h3, fun _ => Promise.fail_settled _ _⟩
            simp only
            omega
          · cases hw
            refine ⟨hrest, ?_, h3, fun _ => Promise.fail_settled _ _⟩
            simp only
            omega
          · cases hw
          · rename_i v hc
            have hhead : Callback.isReadyWaited a.process.heap (Callback.waited f) = true := by
              simp [Callback.isReadyWaited, hc, FutureState.isReady]
            rw [hhead, if_pos rfl] at h2
            have hmod : (a.process.ready + 1) % SIZE_MODULUS = a.process.ready + 1 :=
              Nat.mod_eq_of_lt (by omega)
            simp only [hmod] at hw
            split at hw
            · split at hw
              · cases hw
                refine ⟨hrest, ?_, h3, fun _ => Promise.set_settled _ _⟩
                simp only
                omega
              · cases hw
            · cases hw
              refine ⟨hrest, ?_, h3, h4⟩
              simp only
              omega

theorem collectActor_spawn_sound (heap : Store T) (futures : List FutureId)
    (timeout : Option Timeout) (hsize : futures.length < SIZE_MODULUS) :
    (CollectActor.spawn heap futures timeout).Sound := by
  refine ⟨?_, ?_, hsize, fun h => Bool.noConfusion h⟩
  · intro f hf
    simp only [CollectActor.spawn, List.mem_map, List.mem_filter] at hf
    obtain ⟨g, ⟨_, hg⟩, hfg⟩ := hf
    simp only [Callback.waited.injEq] at hfg
    subst hfg
    simpa using hg
  · simp only [CollectActor.spawn, CollectProcess.create, Nat.zero_add, List.countP_map]
    exact List.Sublist.countP_le _ (List.filter_sublist _)

theorem collectActor_exec_sound :
    ∀ (acts : List (Action T)) (a b : CollectActor T), a.Sound → a.exec acts = some b →
      b.Sound := by
  intro acts
  induction acts with
  | nil => intro a b h hexec; cases hexec; exact h
  | cons x rest ih =>
    intro a b h hexec
    simp only [CollectActor.exec] at hexec
    cases hx : a.act x with
    | none => simp [hx] at hexec
    | some r =>
      simp only [hx] at hexec
      exact ih r b (collectActor_act_sound a r x h hx) hexec

/-- The shape of the queue after the await actor has run its next callback. -/
theorem awaitActor_runNext_queue (a b : AwaitActor T) (c : Callback)
    (rest : List Callback) (hq : a.queue = c :: rest) (hact : a.act .runNext = some b) :
    ∃ extra, b.queue = rest ++ extra ∧ (a.process.terminated = true → extra = []) ∧
      (c = Callback.discarded → b.process.terminated = true) := by
  cases c with
  | discarded =>
    simp only [AwaitActor.act, hq, Option.some.injEq] at hact
    subst hact
    exact ⟨[], by simp, fun _ => rfl, fun _ => rfl⟩
  | timedout =>
    simp only [AwaitActor.act, hq, Option.some.injEq] at hact
    subst hact
    cases ht : a.process.terminated with
    | true => exact ⟨[], by simp, fun _ => rfl, fun h => Callback.noConfusion h⟩
    | false =>
      exact ⟨discardCallbacks a.process.futures a.process.heap a.process.futures, by simp,
        fun h => Bool.noConfusion h, fun h => Callback.noConfusion h⟩
  | waited f =>
    simp only [AwaitActor.act, hq] at hact
    cases hw : a.process.waited f with
    | none => simp [hw] at hact
    | some q =>
      simp only [hw, Option.some.injEq] at hact
      subst hact
      exact ⟨[], by simp, fun _ => rfl, fun h => Callback.noConfusion h⟩

/-- In a sound await actor the next callback can always be run. -/
theorem awaitActor_runNext_succeeds (a : AwaitActor T) (h : a.Sound) (c : Callback)
    (rest : List Callback) (hq : a.queue = c :: rest) :
    ∃ b, a.act .runNext = some b := by
  obtain ⟨h1, _⟩ := h
  cases c with
  | discarded =>
    simp only [AwaitActor.act, hq]
    exact ⟨_, rfl⟩
  | timedout =>
    simp only [AwaitActor.act, hq]
    exact ⟨_, rfl⟩
  | waited f =>
    have hsettled := h1 f (by rw [hq]; exact List.mem_cons_self _ _)
    have hf : a.process.heap f ≠ .PENDING := by
      intro hc
      simp [hc, FutureState.isPending] at hsettled
    have hw := awaitProcess_waited_settled a.process f hf
    by_cases hlast : (a.process.ready + 1) % SIZE_MODULUS = a.process.futures.length
    · rw [if_pos hlast] at hw
      simp only [AwaitActor.act, hq, hw]
      exact ⟨_, rfl⟩
    · rw [if_neg hlast] at hw
      simp only [AwaitActor.act, hq, hw]
      exact ⟨_, rfl⟩

/-- Every action keeps an await actor sound. -/
theorem awaitActor_act_sound (a b : AwaitActor T) (x : Action T) (h : a.Sound)
    (hact : a.act x = some b) : b.Sound := by
  obtain ⟨h1, h4⟩ := h
  cases x with
  | settle f o =>
    simp only [AwaitActor.act] at hact
    split at hact
    · rename_i hcond
      cases hact
      simp only [Bool.and_eq_true, Bool.not_eq_true'] at hcond
      obtain ⟨hpend, ho⟩ := hcond
      have hother : ∀ g, Callback.waited g ∈ a.queue → g ≠ f := by
        intro g hg hgf
        subst hgf
        rw [h1 g hg] at hpend
        exact Bool.noConfusion hpend
      generalize hb : AwaitActor.dispatchAll
        { a with process := { a.process with heap := Function.update a.process.heap f o } }
        (registered a.process.futures f) = b
      have hbp : b.process =
          { a.process with heap := Function.update a.process.heap f o } := by
        rw [← hb, awaitActor_dispatchAll_process]
      have hbq1 : a.process.terminated = false →
          b.queue = a.queue ++ registered a.process.futures f := by
        intro ht
        rw [← hb]
        exact awaitActor_dispatchAll_queue_running _ _ ht
      have hbq2 : a.process.terminated = true → b.queue = a.queue := by
        intro ht
        rw [← hb]
        exact awaitActor_dispatchAll_queue_terminated _ _ ht
      unfold AwaitActor.Sound
      rw [hbp]
      simp only
      by_cases ht : a.process.terminated = true
      · rw [hbq2 ht]
        refine ⟨?_, fun _ => h4 ht⟩
        intro g hg
        simp only [Function.update_noteq (hother g hg)]
        exact h1 g hg
      · have ht2 : a.process.terminated = false := by
          cases hc : a.process.terminated
          · rfl
          · exact absurd hc ht
        rw [hbq1 ht2]
        refine ⟨?_, fun h => absurd h ht⟩
        intro g hg
        rcases List.mem_append.mp hg with hg | hg
        · simp only [Function.update_noteq (hother g hg)]
          exact h1 g hg
        · have := registered_mem _ _ _ hg
          simp only [Callback.waited.injEq] at this
          subst this
          simp only [Function.update_same]
          exact ho
    · cases hact
  | discardOutput =>
    simp only [AwaitActor.act] at hact
    split at hact
    · cases hact
      have hqueue : ∀ c, c ∈ (AwaitActor.dispatch
          { a with process :=
              { a.process with promise := Future.discardCell a.process.promise } }
          Callback.discarded).queue → c ∈ a.queue ∨ c = Callback.discarded := by
        intro c hc
        unfold AwaitActor.dispatch at hc
        split at hc
        · exact Or.inl hc
        · simpa using hc
      refine ⟨?_, ?_⟩
      · intro g hg
        rw [awaitActor_dispatch_process]
        rcases hqueue _ hg with hg | hg
        · exact h1 g hg
        · exact Callback.noConfusion hg
      · rw [awaitActor_dispatch_process]
        intro _
        simp only
        cases hc : a.process.promise <;> simp [Future.discardCell]
    · cases hact
      exact ⟨h1, h4⟩
  | elapse =>
    simp only [AwaitActor.act] at hact
    split at hact
    · cases hact
      have hqueue : ∀ c, c ∈ (AwaitActor.dispatch { a with timer := false }
          Callback.timedout).queue → c ∈ a.queue ∨ c = Callback.timedout := by
        intro c hc
        unfold AwaitActor.dispatch at hc
        split at hc
        · exact Or.inl hc
        · simpa using hc
      refine ⟨?_, ?_⟩
      · intro g hg
        rw [awaitActor_dispatch_process]
        rcases hqueue _ hg with hg | hg
        · exact h1 g hg
        · exact Callback.noConfusion hg
      · rw [awaitActor_dispatch_process]; exact h4
    · cases hact
  | runNext =>
    cases hq : a.queue with
    | nil => simp [AwaitActor.act, hq] at hact
    | cons c rest =>
      have hrest : ∀ g, Callback.waited g ∈ rest → (a.process.heap g).isPending = false :=
        fun g hg => h1 g (by rw [hq]; exact List.mem_cons_of_mem _ hg)
      cases c with
      | discarded =>
        simp only [AwaitActor.act, hq, Option.some.injEq] at hact
        subst hact
        exact ⟨hrest, fun _ => Promise.discard_settled _⟩
      | timedout =>
        simp only [AwaitActor.act, hq, Option.some.injEq] at hact
        subst hact
        refine ⟨?_, fun _ => Promise.fail_settled _ _⟩
        intro g hg
        simp only [AwaitProcess.timedout]
        apply foldl_discard_not_pending
        simp only at hg
        split at hg
        · exact Or.inr (hrest g hg)
        · rcases List.mem_append.mp hg with hg | hg
          · exact Or.inr (hrest g hg)
          · obtain ⟨g2, hcg, hmem, _⟩ := discardCallbacks_mem _ _ _ _ hg
            simp only [Callback.waited.injEq] at hcg
            subst hcg
            exact Or.inl hmem
      | waited f =>
        simp only [AwaitActor.act, hq] at hact
        cases hw : a.process.waited f with
        | none => simp [hw] at hact
        | some q =>
          simp only [hw, Option.some.injEq] at hact
          subst hact
          unfold AwaitProcess.waited at hw
          split at hw
          · cases hw
          · simp only at hw
            split at hw
            · cases hw
              exact ⟨hrest, fun _ => Promise.set_settled _ _⟩
            · cases hw
              exact ⟨hrest, h4⟩

theorem awaitActor_spawn_sound (heap : Store T) (futures : List FutureId)
    (timeout : Option Timeout) : (AwaitActor.spawn heap futures timeout).Sound := by
  refine ⟨?_, fun h => Bool.noConfusion h⟩
  intro f hf
  simp only [AwaitActor.spawn, List.mem_map, List.mem_filter] at hf
  obtain ⟨g, ⟨_, hg⟩, hfg⟩ := hf
  simp only [Callback.waited.injEq] at hfg
  subst hfg
  simpa using hg

theorem awaitActor_exec_sound :
    ∀ (acts : List (Action T)) (a b : AwaitActor T), a.Sound → a.exec acts = some b →
      b.Sound := by
  intro acts
  induction acts with
  | nil => intro a b h hexec; cases hexec; exact h
  | cons x rest ih =>
    intro a b h hexec
    simp only [AwaitActor.exec] at hexec
    cases hx : a.act x with
    | none => simp [hx] at hexec
    | some r =>
      simp only [hx] at hexec
      exact ih r b (awaitActor_act_sound a r x h hx) hexec

theorem collectActor_exec_append :
    ∀ (l1 l2 : List (Action T)) (a : CollectActor T),
      a.exec (l1 ++ l2) = (a.exec l1).bind (fun b => b.exec l2) := by
  intro l1
  induction l1 with
  | nil => intro l2 a; rfl
  | cons x rest ih =>
    intro l2 a
    simp only [List.cons_append, CollectActor.exec]
    cases a.act x with
    | none => rfl
    | some b => exact ih l2 b

/-- Once termination is requested, a sound collect actor runs its queue to
the end in as many steps as callbacks are queued. -/
theorem collectActor_drain_terminated :
    ∀ (n : Nat) (a : CollectActor T), a.Sound → a.process.terminated = true →
      a.queue.length = n →
      ∃ c, a.exec (List.replicate n Action.runNext) = some c ∧ c.Sound ∧
        c.process.terminated = true ∧ c.queue = [] := by
  intro n
  induction n with
  | zero =>
    intro a h ht hn
    exact ⟨a, rfl, h, ht, List.eq_nil_of_length_eq_zero hn⟩
  | succ n ih =>
    intro a h ht hn
    cases hq : a.queue with
    | nil => rw [hq] at hn; cases hn
    | cons c rest =>
      obtain ⟨b, hact⟩ := collectActor_runNext_succeeds a h c rest hq
      obtain ⟨extra, hbq, hextra, _⟩ := collectActor_runNext_queue a b c rest hq hact
      have hbt := (collectActor_act_props a b _ hact).2.1 ht
      have hbs := collectActor_act_sound a b _ h hact
      have hlen : b.queue.length = n := by
        rw [hbq, hextra ht, List.append_nil]
        rw [hq, List.length_cons] at hn
        omega
      obtain ⟨d, hexec, hd, hdt, hdq⟩ := ih b hbs hbt hlen
      refine ⟨d, ?_, hd, hdt, hdq⟩
      simp only [List.replicate_succ, CollectActor.exec, hact]
      exact hexec

/-- A queued `discarded` callback is reached by running the callbacks before
it, and running it requests termination. -/
theorem collectActor_reach_discarded :
    ∀ (pre : List Callback) (a : CollectActor T) (post : List Callback), a.Sound →
      a.queue = pre ++ Callback.discarded :: post →
      ∃ b, a.exec (List.replicate (pre.length + 1) Action.runNext) = some b ∧ b.Sound ∧
        b.process.terminated = true := by
  intro pre
  induction pre with
  | nil =>
    intro a post h hq
    simp only [List.nil_append] at hq
    obtain ⟨b, hact⟩ := collectActor_runNext_succeeds a h _ post hq
    obtain ⟨_, _, _, hterm⟩ := collectActor_runNext_queue a b _ post hq hact
    refine ⟨b, ?_, collectActor_act_sound a b _ h hact, hterm rfl⟩
    simp [CollectActor.exec, hact]
  | cons c pre ih =>
    intro a post h hq
    simp only [List.cons_append] at hq
    obtain ⟨b, hact⟩ := collectActor_runNext_succeeds a h c _ hq
    obtain ⟨extra, hbq, _, _⟩ := collectActor_runNext_queue a b c _ hq hact
    have hbq2 : b.queue = pre ++ Callback.discarded :: (post ++ extra) := by
      rw [hbq]
      simp
    obtain ⟨d, hexec, hd, hdt⟩ := ih b (post ++ extra) (collectActor_act_sound a b _ h hact) hbq2
    refine ⟨d, ?_, hd, hdt⟩
    simp only [List.length_cons, List.replicate_succ, CollectActor.exec, hact]
    exact hexec

/-- A sound collect actor that has asked to terminate, or has `discarded` in
its queue, reaches the end of its life by running its queue: termination is
requested and nothing is left to run. -/
theorem collectActor_terminates (a : CollectActor T) (h : a.Sound)
    (hd : a.process.terminated = true ∨ Callback.discarded ∈ a.queue) :
    ∃ n c, a.exec (List.replicate n Action.runNext) = some c ∧ c.Sound ∧
      c.process.terminated = true ∧ c.queue = [] := by
  rcases hd with ht | hmem
  · obtain ⟨c, hexec, hc, hct, hcq⟩ := collectActor_drain_terminated _ a h ht rfl
    exact ⟨_, c, hexec, hc, hct, hcq⟩
  · obtain ⟨pre, post, hq⟩ := List.append_of_mem hmem
    obtain ⟨b, hexec, hb, hbt⟩ := collectActor_reach_discarded pre a post h hq
    obtain ⟨c, hexec2, hc, hct, hcq⟩ := collectActor_drain_terminated _ b hb hbt rfl
    refine ⟨(pre.length + 1) + b.queue.length, c, ?_, hc, hct, hcq⟩
    rw [List.replicate_add, collectActor_exec_append, hexec]
    exact hexec2

/-- After the end of its life a collect actor executes no callback: every
further sequence of actions contains no run of a callback and leaves the
queue empty and the counter as it was. -/
theorem collectActor_finished_stays :
    ∀ (later : List (Action T)) (a c : CollectActor T), a.process.terminated = true →
      a.queue = [] → a.exec later = some c →
      (∀ x ∈ later, x ≠ Action.runNext) ∧ c.process.terminated = true ∧ c.queue = [] ∧
        c.process.ready = a.process.ready ∧ c.act Action.runNext = none := by
  intro later
  induction later with
  | nil =>
    intro a c ht hq hexec
    cases hexec
    refine ⟨fun x hx => (by cases hx), ht, hq, rfl, ?_⟩
    simp [CollectActor.act, hq]
  | cons x rest ih =>
    intro a c ht hq hexec
    simp only [CollectActor.exec] at hexec
    cases hx : a.act x with
    | none => simp [hx] at hexec
    | some r =>
      simp only [hx] at hexec
      obtain ⟨_, p2, _, p4, p5⟩ := collectActor_act_props a r x hx
      have hrq : r.queue = [] := by
        have := p4 ht
        rw [hq] at this
        exact List.suffix_nil.mp this
      obtain ⟨hno, hct, hcq, hcr, hcn⟩ := ih r c (p2 ht) hrq hexec
      refine ⟨?_, hct, hcq, by rw [hcr, p5 ht hq], hcn⟩
      intro y hy
      rcases List.mem_cons.mp hy with hy | hy
      · rw [hy]
        intro hrun
        rw [hrun] at hx
        simp [CollectActor.act, hq] at hx
      · exact hno y hy

theorem awaitActor_exec_append :
    ∀ (l1 l2 : List (Action T)) (a : AwaitActor T),
      a.exec (l1 ++ l2) = (a.exec l1).bind (fun b => b.exec l2) := by
  intro l1
  induction l1 with
  | nil => intro l2 a; rfl
  | cons x rest ih =>
    intro l2 a
    simp only [List.cons_append, AwaitActor.exec]
    cases a.act x with
    | none => rfl
    | some b => exact ih l2 b

/-- Once termination is requested, a sound await actor runs its queue to
the end in as many steps as callbacks are queued. -/
theorem awaitActor_drain_terminated :
    ∀ (n : Nat) (a : AwaitActor T), a.Sound → a.process.terminated = true →
      a.queue.length = n →
      ∃ c, a.exec (List.replicate n Action.runNext) = some c ∧ c.Sound ∧
        c.process.terminated = true ∧ c.queue = [] := by
  intro n
  induction n with
  | zero =>
    intro a h ht hn
    exact ⟨a, rfl, h, ht, List.eq_nil_of_length_eq_zero hn⟩
  | succ n ih =>
    intro a h ht hn
    cases hq : a.queue with
    | nil => rw [hq] at hn; cases hn
    | cons c rest =>
      obtain ⟨b, hact⟩ := awaitActor_runNext_succeeds a h c rest hq
      obtain ⟨extra, hbq, hextra, _⟩ := awaitActor_runNext_queue a b c rest hq hact
      have hbt := (awaitActor_act_props a b _ hact).2.1 ht
      have hbs := awaitActor_act_sound a b _ h hact
      have hlen : b.queue.length = n := by
        rw [hbq, hextra ht, List.append_nil]
        rw [hq, List.length_cons] at hn
        omega
      obtain ⟨d, hexec, hd, hdt, hdq⟩ := ih b hbs hbt hlen
      refine ⟨d, ?_, hd, hdt, hdq⟩
      simp only [List.replicate_succ, AwaitActor.exec, hact]
      exact hexec

/-- A queued `discarded` callback is reached by running the callbacks before
it, and running it requests termination. -/
theorem awaitActor_reach_discarded :
    ∀ (pre : List Callback) (a : AwaitActor T) (post : List Callback), a.Sound →
      a.queue = pre ++ Callback.discarded :: post →
      ∃ b, a.exec (List.replicate (pre.length + 1) Action.runNext) = some b ∧ b.Sound ∧
        b.process.terminated = true := by
  intro pre
  induction pre with
  | nil =>
    intro a post h hq
    simp only [List.nil_append] at hq
    obtain ⟨b, hact⟩ := awaitActor_runNext_succeeds a h _ post hq
    obtain ⟨_, _, _, hterm⟩ := awaitActor_runNext_queue a b _ post hq hact
    refine ⟨b, ?_, awaitActor_act_sound a b _ h hact, hterm rfl⟩
    simp [AwaitActor.exec, hact]
  | cons c pre ih =>
    intro a post h hq
    simp only [List.cons_append] at hq
    obtain ⟨b, hact⟩ := awaitActor_runNext_succeeds a h c _ hq
    obtain ⟨extra, hbq, _, _⟩ := awaitActor_runNext_queue a b c _ hq hact
    have hbq2 : b.queue = pre ++ Callback.discarded :: (post ++ extra) := by
      rw [hbq]
      simp
    obtain ⟨d, hexec, hd, hdt⟩ := ih b (post ++ extra) (awaitActor_act_sound a b _ h hact) hbq2
    refine ⟨d, ?_, hd, hdt⟩
    simp only [List.length_cons, List.replicate_succ, AwaitActor.exec, hact]
    exact hexec

/-- A sound await actor that has asked to terminate, or has `discarded` in
its queue, reaches the end of its life by running its queue: termination is
requested and nothing is left to run. -/
theorem awaitActor_terminates (a : AwaitActor T) (h : a.Sound)
    (hd : a.process.terminated = true ∨ Callback.discarded ∈ a.queue) :
    ∃ n c, a.exec (List.replicate n Action.runNext) = some c ∧ c.Sound ∧
      c.process.terminated = true ∧ c.queue = [] := by
  rcases hd with ht | hmem
  · obtain ⟨c, hexec, hc, hct, hcq⟩ := awaitActor_drain_terminated _ a h ht rfl
    exact ⟨_, c, hexec, hc, hct, hcq⟩
  · obtain ⟨pre, post, hq⟩ := List.append_of_mem hmem
    obtain ⟨b, hexec, hb, hbt⟩ := awaitActor_reach_discarded pre a post h hq
    obtain ⟨c, hexec2, hc, hct, hcq⟩ := awaitActor_drain_terminated _ b hb hbt rfl
    refine ⟨(pre.length + 1) + b.queue.length, c, ?_, hc, hct, hcq⟩
    rw [List.replicate_add, awaitActor_exec_append, hexec]
    exact hexec2

/-- After the end of its life an await actor executes no callback: every
further sequence of actions contains no run of a callback and leaves the
queue empty and the counter as it was. -/
theorem awaitActor_finished_stays :
    ∀ (later : List (Action T)) (a c : AwaitActor T), a.process.terminated = true →
      a.queue = [] → a.exec later = some c →
      (∀ x ∈ later, x ≠ Action.runNext) ∧ c.process.terminated = true ∧ c.queue = [] ∧
        c.process.ready = a.process.ready ∧ c.act Action.runNext = none := by
  intro later
  induction later with
  | nil =>
    intro a c ht hq hexec
    cases hexec
    refine ⟨fun x hx => (by cases hx), ht, hq, rfl, ?_⟩
    simp [AwaitActor.act, hq]
  | cons x rest ih =>
    intro a c ht hq hexec
    simp only [AwaitActor.exec] at hexec
    cases hx : a.act x with
    | none => simp [hx] at hexec
    | some r =>
      simp only [hx] at hexec
      obtain ⟨_, p2, _, p4, p5⟩ := awaitActor_act_props a r x hx
      have hrq : r.queue = [] := by
        have := p4 ht
        rw [hq] at this
        exact List.suffix_nil.mp this
      obtain ⟨hno, hct, hcq, hcr, hcn⟩ := ih r c (p2 ht) hrq hexec
      refine ⟨?_, hct, hcq, by rw [hcr, p5 ht hq], hcn⟩
      intro y hy
      rcases List.mem_cons.mp hy with hy | hy
      · rw [hy]
        intro hrun
        rw [hrun] at hx
        simp [AwaitActor.act, hq] at hx
      · exact hno y hy

/-- C10: discarding the returned future ends the combinator.  Let a collect
actor `a` and a list-await actor `a2` be in any state reached from their
spawn by any sequence of actions, with the returned future still PENDING
(the list of the collect is shorter than 2^64, as every `std::list`).  When
the caller discards the returned future, it becomes DISCARDED.  In every
state `b` reached afterwards by any actions it is still DISCARDED, and by
running its queued callbacks the process terminates: it reaches a state in
which `terminate` has been requested and the queue has drained.  After that,
that is from any state in which termination has been requested and the queue
is empty, every further sequence of actions contains no run of a callback
(in particular of `waited`), no callback can be run or is queued even when
inputs settle, and the output and the counter `ready` do not change. -/
theorem discard_output_terminates (heap : Store T) (futures : List FutureId)
    (timeout : Option Timeout) (acts acts2 : List (Action T))
    (a : CollectActor T) (a2 : AwaitActor T)
    (hsize : futures.length < SIZE_MODULUS)
    (hreach : (CollectActor.spawn heap futures timeout).exec acts = some a)
    (hreach2 : (AwaitActor.spawn heap futures timeout).exec acts2 = some a2)
    (hp : a.process.promise = .PENDING) (hp2 : a2.process.promise = .PENDING) :
    (∃ a1, a.act .discardOutput = some a1 ∧ a1.process.promise = .DISCARDED ∧
      ∀ more b, a1.exec more = some b →
        b.process.promise = .DISCARDED ∧
        (∃ n c, b.exec (List.replicate n Action.runNext) = some c ∧
          c.process.terminated = true ∧ c.queue = [] ∧ c.process.promise = .DISCARDED) ∧
        (b.process.terminated = true → b.queue = [] →
          ∀ later c, b.exec later = some c →
            (∀ x ∈ later, x ≠ Action.runNext) ∧ c.act Action.runNext = none ∧
            c.queue = [] ∧ c.process.terminated = true ∧
            c.process.promise = .DISCARDED ∧ c.process.ready = b.process.ready)) ∧
    (∃ a1, a2.act .discardOutput = some a1 ∧ a1.process.promise = .DISCARDED ∧
      ∀ more b, a1.exec more = some b →
        b.process.promise = .DISCARDED ∧
        (∃ n c, b.exec (List.replicate n Action.runNext) = some c ∧
          c.process.terminated = true ∧ c.queue = [] ∧ c.process.promise = .DISCARDED) ∧
        (b.process.terminated = true → b.queue = [] →
          ∀ later c, b.exec later = some c →
            (∀ x ∈ later, x ≠ Action.runNext) ∧ c.act Action.runNext = none ∧
            c.queue = [] ∧ c.process.terminated = true ∧
            c.process.promise = .DISCARDED ∧ c.process.ready = b.process.ready)) := by
  constructor
  · have hsa : a.Sound :=
      collectActor_exec_sound acts _ a (collectActor_spawn_sound heap futures timeout hsize)
        hreach
    obtain ⟨a1, hact, hprom, _, hdisj⟩ := collectActor_discardOutput_pending a hp
    have hs1 : a1.Sound := collectActor_act_sound a a1 _ hsa hact
    refine ⟨a1, hact, hprom, ?_⟩
    intro more b hexec
    obtain ⟨e1, _, e3, _, _⟩ := collectActor_exec_props more a1 b hexec
    have hb : b.process.promise = .DISCARDED := by
      rw [e1 (by rw [hprom]; simp), hprom]
    have hsb : b.Sound := collectActor_exec_sound more a1 b hs1 hexec
    refine ⟨hb, ?_, ?_⟩
    · obtain ⟨n, c, hrun, _, hct, hcq⟩ := collectActor_terminates b hsb (e3 hdisj)
      obtain ⟨m1, _, _, _, _⟩ := collectActor_exec_props _ b c hrun
      exact ⟨n, c, hrun, hct, hcq, by rw [m1 (by rw [hb]; simp), hb]⟩
    · intro ht hq later c hlater
      obtain ⟨hno, hct, hcq, hcr, hcn⟩ := collectActor_finished_stays later b c ht hq hlater
      obtain ⟨m1, _, _, _, _⟩ := collectActor_exec_props later b c hlater
      exact ⟨hno, hcn, hcq, hct, by rw [m1 (by rw [hb]; simp), hb], hcr⟩
  · have hsa : a2.Sound :=
      awaitActor_exec_sound acts2 _ a2 (awaitActor_spawn_sound heap futures timeout) hreach2
    obtain ⟨a1, hact, hprom, _, hdisj⟩ := awaitActor_discardOutput_pending a2 hp2
    have hs1 : a1.Sound := awaitActor_act_sound a2 a1 _ hsa hact
    refine ⟨a1, hact, hprom, ?_⟩
    intro more b hexec
    obtain ⟨e1, _, e3, _, _⟩ := awaitActor_exec_props more a1 b hexec
    have hb : b.process.promise = .DISCARDED := by
      rw [e1 (by rw [hprom]; simp), hprom]
    have hsb : b.Sound := awaitActor_exec_sound more a1 b hs1 hexec
    refine ⟨hb, ?_, ?_⟩
    · obtain ⟨n, c, hrun, _, hct, hcq⟩ := awaitActor_terminates b hsb (e3 hdisj)
      obtain ⟨m1, _, _, _, _⟩ := awaitActor_exec_props _ b c hrun
      exact ⟨n, c, hrun, hct, hcq, by rw [m1 (by rw [hb]; simp), hb]⟩
    · intro ht hq later c hlater
      obtain ⟨hno, hct, hcq, hcr, hcn⟩ := awaitActor_finished_stays later b c ht hq hlater
      obtain ⟨m1, _, _, _, _⟩ := awaitActor_exec_props later b c hlater
      exact ⟨hno, hcn, hcq, hct, by rw [m1 (by rw [hb]; simp), hb], hcr⟩

/-- Witness of C10: a collect and an await on the inputs 0 and 1, both
PENDING at the call, with a timeout; input 0 has become READY and its
callback is queued when the caller discards the returned future. -/
theorem discard_output_terminates_witness :
    ∃ (a : CollectActor Nat) (a2 : AwaitActor Nat),
      (CollectActor.spawn pendingHeap [0, 1] (some 3)).exec
        [Action.settle 0 (.READY 7)] = some a ∧
      (AwaitActor.spawn pendingHeap [0, 1] (some 3)).exec
        [Action.settle 0 (.READY 7)] = some a2 ∧
      a.queue = [Callback.waited 0] ∧ a2.queue = [Callback.waited 0] ∧
      (∃ a1, a.act .discardOutput = some a1 ∧ a1.process.promise = .DISCARDED ∧
        ∀ more b, a1.exec more = some b →
          b.process.promise = .DISCARDED ∧
          (∃ n c, b.exec (List.replicate n Action.runNext) = some c ∧
            c.process.terminated = true ∧ c.queue = [] ∧ c.process.promise = .DISCARDED) ∧
          (b.process.terminated = true → b.queue = [] →
            ∀ later c, b.exec later = some c →
              (∀ x ∈ later, x ≠ Action.runNext) ∧ c.act Action.runNext = none ∧
              c.queue = [] ∧ c.process.terminated = true ∧
              c.process.promise = .DISCARDED ∧ c.process.ready = b.process.ready)) ∧
      (∃ a1, a2.act .discardOutput = some a1 ∧ a1.process.promise = .DISCARDED ∧
        ∀ more b, a1.exec more = some b →
          b.process.promise = .DISCARDED ∧
          (∃ n c, b.exec (List.replicate n Action.runNext) = some c ∧
            c.process.terminated = true ∧ c.queue = [] ∧ c.process.promise = .DISCARDED) ∧
          (b.process.terminated = true → b.queue = [] →
            ∀ later c, b.exec later = some c →
              (∀ x ∈ later, x ≠ Action.runNext) ∧ c.act Action.runNext = none ∧
              c.queue = [] ∧ c.process.terminated = true ∧
              c.process.promise = .DISCARDED ∧ c.process.ready = b.process.ready)) :=
  ⟨_, _, rfl, rfl, rfl, rfl,
    discard_output_terminates pendingHeap [0, 1] (some 3)
      [Action.settle 0 (.READY 7)] [Action.settle 0 (.READY 7)] _ _
      (by decide) rfl rfl rfl rfl⟩

end process

/-! ## `WSTRINGIFY` -/

namespace mesos.internal.status

theorem exit_code_shift (u : Nat) : (u &&& 0xff00) >>> 8 = (u >>> 8) &&& 0xff := by
  apply Nat.eq_of_testBit_eq
  intro i
  have h1 : (0xff00 : Nat) = 0xff <<< 8 := by decide
  rw [h1]
  simp only [Nat.testBit_shiftRight, Nat.testBit_and, Nat.testBit_shiftLeft]
  simp

theorem exit_code_div (u : Nat) : (u >>> 8) &&& 0xff = (u / 256) % 256 := by
  have h2 : (0xff : Nat) = 2 ^ 8 - 1 := by decide
  rw [h2, Nat.and_pow_two_sub_one_eq_mod, Nat.shiftRight_eq_div_pow]

theorem low_seven_bits (u : Nat) : u &&& 0x7f = u % 128 := by
  have h2 : (0x7f : Nat) = 2 ^ 7 - 1 := by decide
  rw [h2, Nat.and_pow_two_sub_one_eq_mod]

theorem low_byte (u : Nat) : u &&& 0xff = u % 256 := by
  have h2 : (0xff : Nat) = 2 ^ 8 - 1 := by decide
  rw [h2, Nat.and_pow_two_sub_one_eq_mod]

theorem WSTRINGIFY_exited (strsignal : Nat → String) (status : Int)
    (h : intBits status &&& 0x7f = 0) :
    WSTRINGIFY strsignal status =
      "exited with status " ++ toString ((intBits status >>> 8) &&& 0xff) := by
  simp [WSTRINGIFY, WIFEXITED, WTERMSIG, h, stringify, WEXITSTATUS, exit_code_shift]

theorem WSTRINGIFY_signalled (strsignal : Nat → String) (status : Int)
    (h : intBits status &&& 0x7f ≠ 0) :
    WSTRINGIFY strsignal status =
      "terminated with signal " ++ strsignal (intBits status &&& 0x7f) := by
  simp [WSTRINGIFY, WIFEXITED, WTERMSIG, h]

/-- C16: for every `int` status, with the Linux encoding of the wait macros,
`WSTRINGIFY` returns "exited with status " followed by the decimal exit code
`(status >> 8) & 0xff`, a number from 0 to 255, when the low 7 bits of the
status are zero, and otherwise "terminated with signal " followed by the
description of the signal `status & 0x7f`.  The result thus begins with one of
the two texts and not with the other.  A status whose low byte is 0x7f, that
of a stopped process, is reported as terminated with signal 0x7f.  On the
`int` itself the exit code is `(status / 256) % 256` and the signal is
`status % 128`, with division rounding down as the arithmetic shift does. -/
theorem WSTRINGIFY_reports (strsignal : Nat → String) (status : Int) :
    (intBits status &&& 0x7f = 0 →
      WSTRINGIFY strsignal status =
        "exited with status " ++ toString ((intBits status >>> 8) &&& 0xff)) ∧
    (intBits status >>> 8) &&& 0xff ≤ 255 ∧
    (intBits status &&& 0x7f ≠ 0 →
      WSTRINGIFY strsignal status =
        "terminated with signal " ++ strsignal (intBits status &&& 0x7f)) ∧
    (("exited with status ".data <+: (WSTRINGIFY strsignal status).data ∧
        ¬ "terminated with signal ".data <+: (WSTRINGIFY strsignal status).data) ∨
      ("terminated with signal ".data <+: (WSTRINGIFY strsignal status).data ∧
        ¬ "exited with status ".data <+: (WSTRINGIFY strsignal status).data)) ∧
    (intBits status &&& 0xff = 0x7f →
      WSTRINGIFY strsignal status = "terminated with signal " ++ strsignal 0x7f) ∧
    ((((intBits status >>> 8) &&& 0xff : Nat) : Int) = (status / 256) % 256 ∧
      ((intBits status &&& 0x7f : Nat) : Int) = status % 128) := by
  refine ⟨WSTRINGIFY_exited strsignal status, ?_, WSTRINGIFY_signalled strsignal status,
    ?_, ?_, ?_⟩
  · rw [exit_code_div]
    omega
  · by_cases h : intBits status &&& 0x7f = 0
    · left
      rw [WSTRINGIFY_exited strsignal status h]
      constructor
      · simp
      · intro hp
        simp at hp
    · right
      rw [WSTRINGIFY_signalled strsignal status h]
      constructor
      · simp
      · intro hp
        simp at hp
  · intro hstop
    have h7 : intBits status &&& 0x7f = 0x7f := by
      rw [low_byte] at hstop
      rw [low_seven_bits]
      omega
    rw [WSTRINGIFY_signalled strsignal status (by rw [h7]; decide), h7]
  · rw [exit_code_div, low_seven_bits]
    unfold intBits
    constructor <;> omega

/-- Witness of C16: 0x137f is the status of a process stopped by signal 19,
and 0x0300 that of a process that exited with code 3. -/
theorem WSTRINGIFY_reports_witness :
    WSTRINGIFY (fun n => toString n) 0x137f = "terminated with signal " ++ toString 0x7f ∧
    WSTRINGIFY (fun n => toString n) 0x0300 = "exited with status " ++ toString 3 :=
  ⟨(WSTRINGIFY_reports (fun n => toString n) 0x137f).2.2.2.2.1 (by decide),
   (WSTRINGIFY_reports (fun n => toString n) 0x0300).1 (by decide)⟩

end mesos.internal.status
